import Mathlib

/-!
# Constraint linking, WILD clustering and function subtyping of the checked-pointer converter

A shallow embedding of the parts of `ProgramInfo.cpp` that the properties below
are about.  Containers are modelled by lists in iteration order: a
`std::set<T*>` is the list of its elements as the range-for visits them, a
`std::map<K, V>` is the list of its key/value pairs in key order.  Calls into
code that lives in other translation units (`constrainEq`, `constrainTo`,
`Constraints::addConstraint`) are recorded, in program order, in a trace.
-/

namespace CConv

/-! ## Atoms and constraints -/

/-- Key of a solver variable (`uint32_t` in the source). -/
abbrev ConstraintKey := Nat

/-- The constant qualifiers, ordered `Ptr < NTArr < Arr < Wild`. -/
inductive ConstAtom where
  | Ptr
  | NTArr
  | Arr
  | Wild
deriving DecidableEq

/-- Position of a constant in the qualifier order. -/
def ConstAtom.rank : ConstAtom → Nat
  | .Ptr => 0
  | .NTArr => 1
  | .Arr => 2
  | .Wild => 3

/-- The comparison `operator<` on constant atoms. -/
def ConstAtom.lt (a b : ConstAtom) : Bool := decide (a.rank < b.rank)

/-- Atoms: a constant qualifier or the solver variable of a key. -/
inductive Atom where
  | const (c : ConstAtom)
  | var (k : ConstraintKey)
deriving DecidableEq

/-- The two kinds of constraint the solver knows. -/
inductive ConstraintKind where
  | Eq
  | Geq
deriving DecidableEq

/-- A constraint with its reason and its optional source provenance. -/
structure Constraint where
  kind : ConstraintKind
  lhs : Atom
  rhs : Atom
  reason : String
  sourceFileName : String
  lineNo : Nat
  colStart : Nat
deriving DecidableEq

/-- The call `CS.getWild()`. -/
def getWild : Atom := Atom.const ConstAtom.Wild

/-- Modelled from the spec: `Constraints::createEq(lhs, rhs, reason)` is defined
outside `ProgramInfo.cpp`; it builds an `Eq` constraint carrying the reason and,
when no source location is passed, no provenance (empty file, line 0). -/
def createEq (lhs rhs : Atom) (rsn : String) : Constraint :=
  { kind := ConstraintKind.Eq, lhs := lhs, rhs := rhs, reason := rsn,
    sourceFileName := "", lineNo := 0, colStart := 0 }

/-! ## Constraint variables -/

/-- Pointer variant: the slot keys in the iteration order of `std::set<uint32_t>`
(ascending), the declared base type and name, the address of the embedded
function variant of a function pointer, and the array / itype flags. -/
structure PVConstraint where
  vars : List ConstraintKey
  baseType : String
  name : String
  fv : Option Nat
  arrPresent : Bool
  itypePresent : Bool
  itype : String
deriving DecidableEq

/-- A `ConstraintVariable*`: Pointer variant or Function variant.  The parameter
is what a Function variant is known by at this place. -/
inductive ConstraintVariable (φ : Type) where
  | PV (p : PVConstraint)
  | FV (f : φ)
deriving DecidableEq

/-- Members of the return and parameter sets of a Function variant.  The
constructor of a Function variant stores Pointer variants there; a Function
variant met there is only ever handed on by address. -/
abbrev InnerCVar := ConstraintVariable Nat

/-- Function variant: name, alternative return variables, one set of
alternatives per parameter, and whether the declaration has a body and a
prototype. -/
structure FVConstraint where
  name : String
  returnVars : List InnerCVar
  paramVars : List (List InnerCVar)
  hasBody : Bool
  hasProtoType : Bool
deriving DecidableEq

/-- Members of the sets stored in the variable store. -/
abbrev CVar := ConstraintVariable FVConstraint

/-- The call `numParams()`. -/
def FVConstraint.numParams (f : FVConstraint) : Nat := f.paramVars.length

/-- The call `getParamVar(i)`. -/
def FVConstraint.getParamVar (f : FVConstraint) (i : Nat) : List InnerCVar :=
  f.paramVars.getD i []

/-- Persistent declaration identity. -/
structure PersistentSourceLoc where
  fileName : String
  lineNo : Nat
  colNo : Nat
deriving DecidableEq

/-! ## The trace of `link` -/

/-- Calls that `link` makes into the constraint system, in program order. -/
inductive LinkAction where
  | constrainEq (a b : CVar)
  | constrainEqSets (A B : List InnerCVar)
  | constrainToFV (f : FVConstraint) (c : Atom) (rsn : String)
  | constrainTo (v : InnerCVar) (c : Atom) (rsn : String)
  | addConstraint (c : Constraint)
deriving DecidableEq

/-- The state `link` reads. -/
structure ProgramInfo where
  Variables : List (PersistentSourceLoc × List CVar)
  GlobalVariableSymbols : List (String × List PVConstraint)
  GlobalFunctionSymbols : List (String × List FVConstraint)
  ExternFunctions : List (String × Bool)
  seperateMultipleFuncDecls : Bool

/-- The loop `while (J != C.end()) { constrainEq(*I, *J); ++I; ++J; }`; the two
arguments are what remains from `I` and from `J` on. -/
def chainLoop {α : Type} (emit : α → α → LinkAction) : List α → List α → List LinkAction
  | i :: Is, j :: Js => emit i j :: chainLoop emit Is Js
  | _, _ => []

/-- Body of the first two loops of `link` for one set `C`. -/
def chainSet {α : Type} (emit : α → α → LinkAction) (C : List α) : List LinkAction :=
  if C.length > 1 then chainLoop emit C C.tail else []

/-- First loop of `link`: everything at one PersistentSourceLoc is equated. -/
def linkVariables (Vs : List (PersistentSourceLoc × List CVar)) : List LinkAction :=
  Vs.flatMap (fun V => chainSet LinkAction.constrainEq V.2)

/-- Second loop of `link`: the Pointer variables of one global name are equated. -/
def linkGlobalVariables (Gs : List (String × List PVConstraint)) : List LinkAction :=
  Gs.flatMap (fun V =>
    chainSet (fun a b => LinkAction.constrainEq (ConstraintVariable.PV a) (ConstraintVariable.PV b)) V.2)

/-- The loop `for (i = 0; i < P1->numParams(); i++) constrainEq(P1->getParamVar(i), P2->getParamVar(i))`. -/
def constrainParams (P1 P2 : FVConstraint) : List LinkAction :=
  (List.range P1.numParams).map
    (fun i => LinkAction.constrainEqSets (P1.getParamVar i) (P2.getParamVar i))

/-- What one pass of the merging loop does for `P1 = *I`, `P2 = *J` once `P2` is
known to have no body. -/
def mergePair (P1 P2 : FVConstraint) : List LinkAction :=
  if !P1.hasBody && !P2.hasBody then
    LinkAction.constrainEqSets P1.returnVars P2.returnVars ::
      (if P1.numParams = P2.numParams then constrainParams P1 P2
       else if P1.hasProtoType && P2.hasProtoType then
         [LinkAction.constrainToFV P1 getWild ("Return value of function:" ++ P1.name),
          LinkAction.constrainToFV P2 getWild ("Return value of function:" ++ P1.name)]
       else [])
  else []

/-- The loop `while (J != P.end())` of the merging step.  `Is` and `Js` are what
remains of the set from `I` and from `J` on; `gap` is the variable of that name.
Returns the calls made and the value `gap` is left with.  The case of `I` at the
end with `J` before it does not arise: `I` starts behind `J` and moves without
`J` only once after `J` has moved without `I`, or once at the start. -/
def mergeLoop (gap : Bool) (Is Js : List FVConstraint) : List LinkAction × Bool :=
  match Is, Js with
  | _, [] => ([], gap)
  | [], _ :: _ => ([], gap)
  | P1 :: Is', P2 :: Js' =>
    if P2.hasBody then mergeLoop true (P1 :: Is') Js'
    else if gap then
      let r := mergeLoop false Is' (P2 :: Js')
      (mergePair P1 P2 ++ r.1, r.2)
    else
      let r := mergeLoop false Is' Js'
      (mergePair P1 P2 ++ r.1, r.2)
termination_by 2 * Js.length + (if gap then 1 else 0)
decreasing_by
  all_goals simp_wf
  all_goals (try split) <;> simp_all <;> omega

/-- Body of the loop over `GlobalFunctionSymbols` for one name's set `P`. -/
def mergeSet (gap : Bool) (P : List FVConstraint) : List LinkAction × Bool :=
  if P.length > 1 then mergeLoop gap P P.tail else ([], gap)

/-- The loop over `GlobalFunctionSymbols`; `gap` is declared before it and lives
across the names. -/
def mergeAll (gap : Bool) : List (String × List FVConstraint) → List LinkAction
  | [] => []
  | S :: rest => (mergeSet gap S.2).1 ++ mergeAll (mergeSet gap S.2).2 rest

/-- Third step of `link`. -/
def linkGlobalFunctions (st : ProgramInfo) : List LinkAction :=
  if !st.seperateMultipleFuncDecls then mergeAll false st.GlobalFunctionSymbols else []

/-- The allow-list `isExternOkay`. -/
def isExternOkay (ext : String) : Bool := ext == "malloc" || ext == "free"

/-- What the last loop of `link` does for one member `PVar` of a parameter set. -/
def wildParam (PVar : InnerCVar) : List LinkAction :=
  match PVar with
  | ConstraintVariable.PV PVC =>
    PVC.vars.tail.map (fun cVar =>
      LinkAction.addConstraint
        (createEq (Atom.var cVar) getWild "Inner pointer of a parameter to external function."))
  | ConstraintVariable.FV f =>
    [LinkAction.constrainTo (ConstraintVariable.FV f) getWild
      "Inner pointer of a parameter to external function."]

/-- What the last loop of `link` does for one declaration `G` of the symbol `name`. -/
def wildFunction (name : String) (G : FVConstraint) : List LinkAction :=
  G.returnVars.map (fun U => LinkAction.constrainTo U getWild ("Return value of function:" ++ name))
    ++ (List.range G.numParams).flatMap (fun i => (G.getParamVar i).flatMap wildParam)

/-- Body of the last loop of `link` for one entry `U` of `ExternFunctions`;
`none` is the failed assertion that the symbol is in `GlobalFunctionSymbols`. -/
def linkExternEntry (gfs : List (String × List FVConstraint)) (U : String × Bool) :
    Option (List LinkAction) :=
  if U.2 == false && isExternOkay U.1 == false then
    match gfs.lookup U.1 with
    | none => none
    | some Gs => some (Gs.flatMap (wildFunction U.1))
  else some []

/-- Last loop of `link`: unresolved external functions. -/
def linkExternFunctions (gfs : List (String × List FVConstraint)) :
    List (String × Bool) → Option (List LinkAction)
  | [] => some []
  | U :: rest =>
    match linkExternEntry gfs U with
    | none => none
    | some a =>
      match linkExternFunctions gfs rest with
      | none => none
      | some b => some (a ++ b)

/-- The method `ProgramInfo::link`, as the trace of the calls it makes. -/
def link (st : ProgramInfo) : Option (List LinkAction) :=
  match linkExternFunctions st.GlobalFunctionSymbols st.ExternFunctions with
  | none => none
  | some e =>
    some (linkVariables st.Variables ++ linkGlobalVariables st.GlobalVariableSymbols
      ++ linkGlobalFunctions st ++ e)

/-! ## Ordered containers -/

/-- Insertion into a `std::set`, kept in ascending order without duplicates. -/
def setInsert {α : Type} [LT α] [DecidableRel (fun a b : α => a < b)] [DecidableEq α] :
    List α → α → List α
  | [], a => [a]
  | h :: t, a => if a < h then a :: h :: t else if a = h then h :: t else h :: setInsert t a

/-- The range insertion `S.insert(T.begin(), T.end())`. -/
def setInsertAll {α : Type} [LT α] [DecidableRel (fun a b : α => a < b)] [DecidableEq α]
    (S T : List α) : List α :=
  T.foldl setInsert S

/-- A `std::set` of slot keys. -/
abbrev CVars := List ConstraintKey

/-- A `std::map` keyed by slot keys, as its list of pairs in key order. -/
abbrev KMap (β : Type) := List (ConstraintKey × β)

/-- The lookup `m.find(k)`. -/
def KMap.find {β : Type} : KMap β → ConstraintKey → Option β
  | [], _ => none
  | (k1, v) :: rest, k => if k1 = k then some v else KMap.find rest k

/-- The assignment `m[k] = v`. -/
def KMap.set {β : Type} : KMap β → ConstraintKey → β → KMap β
  | [], k, v => [(k, v)]
  | (k1, v1) :: rest, k, v =>
    if k < k1 then (k, v) :: (k1, v1) :: rest
    else if k = k1 then (k, v) :: rest
    else (k1, v1) :: KMap.set rest k v

/-- The removal `m.erase(k)`. -/
def KMap.erase {β : Type} (m : KMap β) (k : ConstraintKey) : KMap β :=
  m.filter (fun p => decide (p.1 ≠ k))

/-- The effect on the map of evaluating `m[k]`: an absent key is entered with the
default value `d`. -/
def KMap.touch {β : Type} (m : KMap β) (k : ConstraintKey) (d : β) : KMap β :=
  if (KMap.find m k).isSome then m else KMap.set m k d

/-! ## The disjoint-set record of WILD pointers -/

/-- Reason and provenance recorded for a directly WILD slot. -/
structure WildPointerInferenceInfo where
  wildPtrReason : String
  isValid : Bool
  sourceFileName : String
  lineNo : Nat
  colStart : Nat
deriving DecidableEq

/-- Modelled from the spec: the record type is declared outside
`ProgramInfo.cpp`; a record entered by `realWildPtrsWithReasons[k]` has no
reason and no provenance and is not marked valid. -/
def WildPointerInferenceInfo.fresh : WildPointerInferenceInfo :=
  { wildPtrReason := "", isValid := false, sourceFileName := "", lineNo := 0, colStart := 0 }

/-- The members of `DisjointSet` that `computePointerDisjointSet` uses. -/
structure DisjointSet where
  leaders : KMap ConstraintKey
  groups : KMap CVars
  realWildPtrsWithReasons : KMap WildPointerInferenceInfo
  PtrSourceMap : KMap PersistentSourceLoc
  allWildPtrs : CVars
  totalNonDirectWildPointers : CVars
  validSourceFiles : List String

/-- Modelled from the spec: `DisjointSet::clear` is defined outside
`ProgramInfo.cpp`; it empties every member of the record. -/
def DisjointSet.clear : DisjointSet :=
  { leaders := [], groups := [], realWildPtrsWithReasons := [], PtrSourceMap := [],
    allWildPtrs := [], totalNonDirectWildPointers := [], validSourceFiles := [] }

/-- The loop `for (auto &leadersP : leaders) if (leadersP.second == old) leadersP.second = r`. -/
def relabel (leaders : KMap ConstraintKey) (old r : ConstraintKey) : KMap ConstraintKey :=
  leaders.map (fun p => if p.2 = old then (p.1, r) else p)

/-- Modelled from the spec: `DisjointSet::addElements` is defined outside
`ProgramInfo.cpp`.  The spec has every `Eq` between two slots be a union edge of
a union-find with a leader and a member set per group: two slots that are both
new form a group led by the first; a new slot joins the group of the other; two
groups with different leaders are merged under the leader of the first. -/
def DisjointSet.addElements (ds : DisjointSet) (a b : ConstraintKey) : DisjointSet :=
  match KMap.find ds.leaders a, KMap.find ds.leaders b with
  | some la, some lb =>
    if la = lb then ds
    else
      { ds with
        leaders := relabel ds.leaders lb la
        groups := KMap.erase
          (KMap.set ds.groups la
            (setInsertAll ((KMap.find ds.groups la).getD []) ((KMap.find ds.groups lb).getD [])))
          lb }
  | some la, none =>
    { ds with
      leaders := KMap.set ds.leaders b la
      groups := KMap.set ds.groups la (setInsert ((KMap.find ds.groups la).getD []) b) }
  | none, some lb =>
    { ds with
      leaders := KMap.set ds.leaders a lb
      groups := KMap.set ds.groups lb (setInsert ((KMap.find ds.groups lb).getD []) a) }
  | none, none =>
    { ds with
      leaders := KMap.set (KMap.set ds.leaders a a) b a
      groups := KMap.set ds.groups a
        (setInsert (setInsert ((KMap.find ds.groups a).getD []) a) b) }

/-- The writes to `realWildPtrsWithReasons[loc]` for one constraint `EC` that
equates a slot with Wild: the reason always, the provenance when the constraint
has a file name and a line. -/
def recordWild (m : KMap WildPointerInferenceInfo) (loc : ConstraintKey) (EC : Constraint) :
    KMap WildPointerInferenceInfo :=
  let r1 : WildPointerInferenceInfo :=
    { (KMap.find m loc).getD WildPointerInferenceInfo.fresh with wildPtrReason := EC.reason }
  if EC.sourceFileName ≠ "" ∧ EC.lineNo ≠ 0 then
    KMap.set m loc
      { r1 with isValid := true, sourceFileName := EC.sourceFileName,
                lineNo := EC.lineNo, colStart := EC.colStart }
  else KMap.set m loc r1

/-- Body of the first loop of `computePointerDisjointSet` for one constraint.
The state is the record and the local set `allWILDPtrs`; `none` is the
dereference of the null `VLhs` when the left side is not a variable. -/
def scanConstraint (acc : DisjointSet × CVars) (currC : Constraint) : Option (DisjointSet × CVars) :=
  match currC.kind with
  | ConstraintKind.Geq => some acc
  | ConstraintKind.Eq =>
    match currC.rhs with
    | Atom.const ConstAtom.Wild =>
      match currC.lhs with
      | Atom.var loc =>
        some ({ acc.1 with
                realWildPtrsWithReasons := recordWild acc.1.realWildPtrsWithReasons loc currC },
              setInsert acc.2 loc)
      | Atom.const _ => none
    | Atom.var r =>
      match currC.lhs with
      | Atom.var l => some (acc.1.addElements l r, acc.2)
      | Atom.const _ => none
    | Atom.const _ => some acc

/-- First loop of `computePointerDisjointSet`, over the constraints in the
iteration order of the constraint set. -/
def scanConstraints : DisjointSet × CVars → List Constraint → Option (DisjointSet × CVars)
  | acc, [] => some acc
  | acc, c :: rest =>
    match scanConstraint acc c with
    | none => none
    | some acc2 => scanConstraints acc2 rest

/-- Body of the leader-adjustment loop for one key `realCVar` of
`realWildPtrsWithReasons`. -/
def adjustLeader (ds : DisjointSet) (realCVar : ConstraintKey) : DisjointSet :=
  match KMap.find ds.leaders realCVar with
  | none => ds
  | some oldGroupLeader =>
    if (KMap.find ds.realWildPtrsWithReasons oldGroupLeader).isNone then
      let groups1 := KMap.touch ds.groups oldGroupLeader []
      let oldG := (KMap.find groups1 oldGroupLeader).getD []
      let groups2 := KMap.touch groups1 realCVar []
      let groups3 := KMap.set groups2 realCVar
        (setInsert (setInsertAll ((KMap.find groups2 realCVar).getD []) oldG) realCVar)
      { ds with
        leaders := relabel ds.leaders oldGroupLeader realCVar
        groups := KMap.erase groups3 oldGroupLeader }
    else ds

/-- The leader-adjustment loop over the keys of `realWildPtrsWithReasons`. -/
def adjustLeaders (ds : DisjointSet) : DisjointSet :=
  (ds.realWildPtrsWithReasons.map Prod.fst).foldl adjustLeader ds

/-- The loop that gathers the members of the groups led by a real WILD slot. -/
def gatherNonDirect (ds : DisjointSet) : CVars :=
  ds.groups.foldl
    (fun acc gm =>
      if (KMap.find ds.realWildPtrsWithReasons gm.1).isSome then setInsertAll acc gm.2 else acc)
    ds.totalNonDirectWildPointers

/-- The call `std::set_difference(A, B)`. -/
def setDifference (A B : CVars) : CVars := A.filter (fun x => decide (x ∉ B))

/-- The call `std::set_intersection(A, B)`. -/
def setIntersection (A B : CVars) : CVars := A.filter (fun x => decide (x ∈ B))

/-- The slot keys a member of the variable store is entered with in `PtrSourceMap`. -/
def sourceKeys : CVar → List ConstraintKey
  | ConstraintVariable.PV PV => PV.vars
  | ConstraintVariable.FV FV =>
    FV.returnVars.flatMap (fun PV =>
      match PV with
      | ConstraintVariable.PV RPV => RPV.vars
      | ConstraintVariable.FV _ => [])

/-- The loop over the variable store that fills `validSourceFiles` and
`PtrSourceMap`; `canWrite` is the predicate of that name. -/
def recordSources (canWrite : String → Bool) (ds : DisjointSet) :
    List (PersistentSourceLoc × List CVar) → DisjointSet
  | [] => ds
  | I :: rest =>
    if canWrite I.1.fileName then
      recordSources canWrite
        { ds with
          validSourceFiles := setInsert ds.validSourceFiles I.1.fileName
          PtrSourceMap := (I.2.flatMap sourceKeys).foldl (fun m ck => KMap.set m ck I.1) ds.PtrSourceMap }
        rest
    else recordSources canWrite ds rest

/-- The last loop: the directly WILD members of every group. -/
def gatherAllWild (ds : DisjointSet) (allWILDPtrs : CVars) : CVars :=
  ds.groups.foldl
    (fun acc gm =>
      if (setIntersection gm.2 allWILDPtrs).isEmpty then acc
      else setInsertAll acc (setIntersection gm.2 allWILDPtrs))
    ds.allWildPtrs

/-- The method `ProgramInfo::computePointerDisjointSet` on the constraints of the
constraint set (in iteration order) and the variable store. -/
def computePointerDisjointSet (canWrite : String → Bool) (constraints : List Constraint)
    (Variables : List (PersistentSourceLoc × List CVar)) : Option DisjointSet :=
  match scanConstraints (DisjointSet.clear, []) constraints with
  | none => none
  | some (ds1, allWILDPtrs) =>
    let ds2 := adjustLeaders ds1
    let ds3 := { ds2 with totalNonDirectWildPointers := gatherNonDirect ds2 }
    let tmpCKeys := setDifference ds3.totalNonDirectWildPointers allWILDPtrs
    let ds4 := { ds3 with totalNonDirectWildPointers := setInsertAll [] tmpCKeys }
    let ds5 := recordSources canWrite ds4 Variables
    some { ds5 with allWildPtrs := gatherAllWild ds5 allWILDPtrs }

/-! ## Function subtyping -/

/-- Modelled from the spec: the two-argument `Constraints::createEq` is defined
outside `ProgramInfo.cpp`.  Every constraint carries a reason; the text a
constraint gets when none is passed is kept as this constant. -/
def defaultReason : String := "UnknownReason"

/-- The maps and solver results `handleFunctionSubtyping` reads.  The four
functions stand for `getHighestT<FVConstraint>`, `getHighestT<PVConstraint>`,
`ConstraintVariable::getHighestNonWildConstraint` and
`PVConstraint::getArgumentConstraints`, which live in other translation units;
`env` is the assignment `CS.getAssignment`. -/
structure SubtypingCtx where
  FuncDefnVarMap : List (String × List CVar)
  FuncDefnDeclKeyMap : List (String × String)
  FuncDeclVarMap : List (String × List CVar)
  OnDemandFuncDeclConstraint : List (String × List CVar)
  env : ConstraintKey → ConstAtom
  highestFV : List CVar → Option FVConstraint
  highestPV : List InnerCVar → Option PVConstraint
  highestNonWild : List InnerCVar → Option InnerCVar
  argumentConstraints : PVConstraint → List InnerCVar

/-- The call `CS.isWild(k)`. -/
def SubtypingCtx.isWild (ctx : SubtypingCtx) (k : ConstraintKey) : Bool :=
  decide (ctx.env k = ConstAtom.Wild)

/-- The method `getFuncDeclConstraintSet`; `none` is the null pointer. -/
def getFuncDeclConstraintSet (ctx : SubtypingCtx) (funcDefKey : String) : Option (List CVar) :=
  match ctx.FuncDefnDeclKeyMap.lookup funcDefKey with
  | some funcDeclKey => ctx.FuncDeclVarMap.lookup funcDeclKey
  | none => ctx.OnDemandFuncDeclConstraint.lookup funcDefKey

/-- The method `isAValidPVConstraint` on a Pointer variable that is not null. -/
def isAValidPVConstraint (PV : PVConstraint) : Bool := !PV.vars.isEmpty

/-- The loop `while (big.size() > n) big.erase(big.begin())`. -/
def eraseWhileLonger : CVars → Nat → CVars
  | [], _ => []
  | h :: t, n => if (h :: t).length > n then eraseWhileLonger t n else h :: t

/-- The loop of `applySubtypingRelation` over the levels below the outermost one. -/
def equalizeInner (env : ConstraintKey → ConstAtom) : CVars → CVars → List Constraint × Bool
  | SB :: srcRest, DB :: dstRest =>
    let r := equalizeInner env srcRest dstRest
    if (env SB).lt (env DB) || (env DB).lt (env SB) then
      let finalVal := if (env SB).lt (env DB) then env DB else env SB
      let toChange := if (env SB).lt (env DB) then SB else DB
      (createEq (Atom.var toChange) (Atom.const finalVal) defaultReason :: r.1, true)
    else r
  | _, _ => ([], false)

/-- The method `applySubtypingRelation`: the constraints it adds and its result.
In the source `bigCvars` and `smallCvars` are references to `srcCVars` and
`dstCVars`, so the two assignments made when the source is the shorter chain copy
`dstCVars` into `srcCVars` and back. -/
def applySubtypingRelation (env : ConstraintKey → ConstAtom) (pvSrc pvDst : PVConstraint) :
    List Constraint × Bool :=
  if !pvSrc.vars.isEmpty && !pvDst.vars.isEmpty then
    let srcCVars0 := pvSrc.vars
    let dstCVars := pvDst.vars
    let srcCVars :=
      if srcCVars0.length ≠ dstCVars.length then
        if srcCVars0.length < dstCVars.length then eraseWhileLonger dstCVars dstCVars.length
        else eraseWhileLonger srcCVars0 dstCVars.length
      else srcCVars0
    match srcCVars, dstCVars with
    | s0 :: srcTail, d0 :: dstTail =>
      let outer : List Constraint × Bool :=
        if (env d0).lt (env s0) then
          ([createEq (Atom.var d0) (Atom.const (env s0)) defaultReason], true)
        else ([], false)
      let inner : List Constraint × Bool :=
        if srcTail.length = dstTail.length then equalizeInner env srcTail dstTail else ([], false)
      (outer.1 ++ inner.1, outer.2 || inner.2)
    | _, _ => ([], false)
  else ([], false)

/-- The Pointer variable behind a `ConstraintVariable*` that passes
`isAValidPVConstraint`. -/
def validPV : Option InnerCVar → Option PVConstraint
  | some (ConstraintVariable.PV PV) => if isAValidPVConstraint PV then some PV else none
  | _ => none

/-- Insertion into the `std::set<ConstraintVariable*>` named `toChangeCVars`,
listed in the order of first insertion. -/
def insertCVar (S : List PVConstraint) (P : PVConstraint) : List PVConstraint :=
  if P ∈ S then S else S ++ [P]

/-- The return part of `handleFunctionSubtyping` for one function. -/
def subtypeReturn (ctx : SubtypingCtx) (defCVar declCVar : FVConstraint) : List Constraint × Bool :=
  match ctx.highestPV defCVar.returnVars, ctx.highestPV declCVar.returnVars with
  | some defRetPVCons, some declRetPVCons =>
    match defRetPVCons.vars, declRetPVCons.vars with
    | topDefCVar :: _, topDeclCVar :: _ =>
      if ctx.isWild topDefCVar then
        (defRetPVCons.vars.map (fun B =>
            createEq (Atom.var B) getWild "Function Returning WILD within the body.")
          ++ declRetPVCons.vars.map (fun B =>
            createEq (Atom.var B) getWild "Function Returning WILD within the body."), true)
      else if ctx.isWild topDeclCVar then
        let highestNonWildCvar :=
          match validPV (ctx.highestNonWild (ctx.argumentConstraints declRetPVCons)) with
          | some PV => PV
          | none => declRetPVCons
        match highestNonWildCvar.vars with
        | topDeclCVar2 :: _ =>
          if !ctx.isWild topDeclCVar2 && (ctx.env topDefCVar).lt (ctx.env topDeclCVar2) then
            applySubtypingRelation ctx.env highestNonWildCvar defRetPVCons
          else ([], false)
        | [] => ([], false)
      else ([], false)
    | _, _ => ([], false)
  | _, _ => ([], false)

/-- The loop over the argument constraints of a declaration parameter that is
WILD: the arguments to change. -/
def argumentsToChange (ctx : SubtypingCtx) (defParam : PVConstraint) :
    List InnerCVar → List PVConstraint → List PVConstraint
  | [], acc => acc
  | argOrigCons :: rest, acc =>
    match validPV (some argOrigCons) with
    | some argPVCons =>
      match argPVCons.vars with
      | topArgCVar :: _ =>
        if !ctx.isWild topArgCVar then
          if defParam.vars.length > argPVCons.vars.length then
            match eraseWhileLonger defParam.vars argPVCons.vars.length with
            | d0 :: _ =>
              if !ctx.isWild d0 then argumentsToChange ctx defParam rest (insertCVar acc argPVCons)
              else argumentsToChange ctx defParam rest acc
            | [] => argumentsToChange ctx defParam rest acc
          else argumentsToChange ctx defParam rest (insertCVar acc argPVCons)
        else argumentsToChange ctx defParam rest acc
      | [] => argumentsToChange ctx defParam rest acc
    | none => argumentsToChange ctx defParam rest acc

/-- The loop `for (auto currToChangeVar : toChangeCVars)`. -/
def applyAll (env : ConstraintKey → ConstAtom) (defParam : PVConstraint) :
    List PVConstraint → List Constraint × Bool
  | [] => ([], false)
  | cur :: rest =>
    let r1 := applySubtypingRelation env defParam cur
    let r2 := applyAll env defParam rest
    (r1.1 ++ r2.1, r1.2 || r2.2)

/-- Body of the loop over the parameters for the position `i`. -/
def subtypeParam (ctx : SubtypingCtx) (defCVar declCVar : FVConstraint) (i : Nat) :
    List Constraint × Bool :=
  match ctx.highestPV (declCVar.getParamVar i), ctx.highestPV (defCVar.getParamVar i) with
  | some declParam, some defParam =>
    match defParam.vars, declParam.vars with
    | topDefCVar :: _, topDeclCVar :: _ =>
      if !ctx.isWild topDefCVar then
        let toChangeCVars :=
          if !ctx.isWild topDeclCVar then [declParam]
          else argumentsToChange ctx defParam (ctx.argumentConstraints declParam) []
        applyAll ctx.env defParam toChangeCVars
      else ([], false)
    | _, _ => ([], false)
  | _, _ => ([], false)

/-- The loop over the parameter positions `0 .. n-1`, as the list of positions. -/
def subtypeParams (ctx : SubtypingCtx) (defCVar declCVar : FVConstraint) :
    List Nat → List Constraint × Bool
  | [] => ([], false)
  | i :: rest =>
    let r1 := subtypeParam ctx defCVar declCVar i
    let r2 := subtypeParams ctx defCVar declCVar rest
    (r1.1 ++ r2.1, r1.2 || r2.2)

/-- Body of the loop of `handleFunctionSubtyping` for one entry of the map of
definitions. -/
def subtypeFunction (ctx : SubtypingCtx) (currFDef : String × List CVar) : List Constraint × Bool :=
  match getFuncDeclConstraintSet ctx currFDef.1 with
  | none => ([], false)
  | some declCVars =>
    match ctx.highestFV currFDef.2, ctx.highestFV declCVars with
    | some defCVar, some declCVar =>
      let r := subtypeReturn ctx defCVar declCVar
      let p : List Constraint × Bool :=
        if declCVar.numParams = defCVar.numParams then
          subtypeParams ctx defCVar declCVar (List.range declCVar.numParams)
        else ([], false)
      (r.1 ++ p.1, r.2 || p.2)
    | _, _ => ([], false)

/-- The loop of `handleFunctionSubtyping` over the map of definitions. -/
def subtypeFunctions (ctx : SubtypingCtx) : List (String × List CVar) → List Constraint × Bool
  | [] => ([], false)
  | currFDef :: rest =>
    let r1 := subtypeFunction ctx currFDef
    let r2 := subtypeFunctions ctx rest
    (r1.1 ++ r2.1, r1.2 || r2.2)

/-- The method `ProgramInfo::handleFunctionSubtyping`: the constraints it passes
to `addConstraint`, in program order, and its result. -/
def handleFunctionSubtyping (ctx : SubtypingCtx) : List Constraint × Bool :=
  subtypeFunctions ctx ctx.FuncDefnVarMap

/-! ## Predicates on the disjoint-set record -/

/-- The union-find is consistent: `leaders[x] = l` exactly when `x` is in `groups[l]`. -/
def DisjointSet.Consistent (ds : DisjointSet) : Prop :=
  ∀ x l, KMap.find ds.leaders x = some l ↔ ∃ g, KMap.find ds.groups l = some g ∧ x ∈ g

/-- The slot `k` is a real WILD slot: it is a key of `realWildPtrsWithReasons`. -/
def DisjointSet.isRealWild (ds : DisjointSet) (k : ConstraintKey) : Bool :=
  (KMap.find ds.realWildPtrsWithReasons k).isSome

/-- The leader of every slot of `S` that has one is a real WILD slot. -/
def LedByReal (ds : DisjointSet) (S : List ConstraintKey) : Prop :=
  ∀ r ∈ S, ∀ l, KMap.find ds.leaders r = some l → ds.isRealWild l = true

/-- The constraint set holds an `Eq` between the variables of `a` and `b`. -/
def VarEdge (cs : List Constraint) (a b : ConstraintKey) : Prop :=
  ∃ c ∈ cs, c.kind = ConstraintKind.Eq ∧ c.lhs = Atom.var a ∧ c.rhs = Atom.var b

/-- The constraint set holds an `Eq` of the variable of `k` with Wild. -/
def DirectWild (cs : List Constraint) (k : ConstraintKey) : Prop :=
  ∃ c ∈ cs, c.kind = ConstraintKind.Eq ∧ c.lhs = Atom.var k ∧ c.rhs = Atom.const ConstAtom.Wild

/-- Two slots are connected through `Eq` constraints between variables only. -/
def Conn (cs : List Constraint) : ConstraintKey → ConstraintKey → Prop :=
  Relation.EqvGen (VarEdge cs)

/-- Every member of every group is connected to the key of the group. -/
def GroupsConnected (cs : List Constraint) (ds : DisjointSet) : Prop :=
  ∀ p ∈ ds.groups, ∀ x ∈ p.2, Conn cs x p.1

/-- The constraint `c` is an `Eq` of the variable of `k` with Wild. -/
def IsWildEq (c : Constraint) (k : ConstraintKey) : Prop :=
  c.kind = ConstraintKind.Eq ∧ c.lhs = Atom.var k ∧ c.rhs = Atom.const ConstAtom.Wild

/-- What is known of the records of `realWildPtrsWithReasons`: the reason of a
record is that of some `Eq` of its slot with Wild in the constraint set, and the
provenance of a record marked valid is that of some such constraint that has a
file name and a line. -/
def RecordsFrom (cs : List Constraint) (m : KMap WildPointerInferenceInfo) : Prop :=
  ∀ k rec, KMap.find m k = some rec →
    (∃ c ∈ cs, IsWildEq c k ∧ rec.wildPtrReason = c.reason) ∧
    (rec.isValid = true → ∃ c ∈ cs, IsWildEq c k ∧ c.sourceFileName ≠ "" ∧ c.lineNo ≠ 0 ∧
      rec.sourceFileName = c.sourceFileName ∧ rec.lineNo = c.lineNo ∧ rec.colStart = c.colStart)

/-- What the scan of the constraints keeps true of the record. -/
structure ScanInv (cs : List Constraint) (acc : DisjointSet × CVars) : Prop where
  consistent : acc.1.Consistent
  connected : GroupsConnected cs acc.1
  real : ∀ k, acc.1.isRealWild k = true → DirectWild cs k
  records : RecordsFrom cs acc.1.realWildPtrsWithReasons
  nonDirect : acc.1.totalNonDirectWildPointers = []

/-! ## Declarations and expressions of the program -/

/-- What the methods below read of a `ParmVarDecl`: the identity of the node, its
persistent location, the kind of its declared type and whether the rewriter can
rewrite its location. -/
structure ParmVarDecl where
  id : Nat
  psl : PersistentSourceLoc
  isPointerType : Bool
  isArrayType : Bool
  isFunctionType : Bool
  isRewritable : Bool
deriving DecidableEq

/-- What the methods below read of a `FunctionDecl`; `hasBodyDefinition` is
`isThisDeclarationADefinition() && hasBody()`. -/
structure FunctionDecl where
  id : Nat
  name : String
  psl : PersistentSourceLoc
  params : List ParmVarDecl
  hasBodyDefinition : Bool
  isGlobal : Bool
  isPointerType : Bool
  isArrayType : Bool
  isFunctionType : Bool
  isRewritable : Bool
deriving DecidableEq

/-- What the methods below read of a `VarDecl` that is no parameter, or of a
`FieldDecl`. -/
structure VarLikeDecl where
  id : Nat
  psl : PersistentSourceLoc
  isPointerType : Bool
  isArrayType : Bool
  isFunctionType : Bool
  isRewritable : Bool
deriving DecidableEq

/-- A `Decl`.  A parameter carries the result of `getParentFunctionOrMethod`
cast to `FunctionDecl`; `Other` is a declaration that is no `DeclaratorDecl`. -/
inductive Decl where
  | Function (FD : FunctionDecl)
  | ParmVar (PD : ParmVarDecl) (parent : Option FunctionDecl)
  | Var (VD : VarLikeDecl)
  | Field (FD : VarLikeDecl)
  | Other (psl : PersistentSourceLoc) (kindName : String)
deriving DecidableEq

/-- The location `PersistentSourceLoc::mkPSL(D, C)`. -/
def Decl.psl : Decl → PersistentSourceLoc
  | Decl.Function FD => FD.psl
  | Decl.ParmVar PD _ => PD.psl
  | Decl.Var VD => VD.psl
  | Decl.Field FD => FD.psl
  | Decl.Other psl _ => psl

/-- The result of `Rewriter::isRewritable(D->getLocation())`. -/
def Decl.isRewritable : Decl → Bool
  | Decl.Function FD => FD.isRewritable
  | Decl.ParmVar PD _ => PD.isRewritable
  | Decl.Var VD => VD.isRewritable
  | Decl.Field FD => FD.isRewritable
  | Decl.Other _ _ => true

/-- The opcode of a unary operator, as far as `getVariableHelper` tells them apart. -/
inductive UnaryOpcode where
  | Deref
  | OtherOp
deriving DecidableEq

/-- Expressions, by the node kinds `getVariableHelper` tells apart. -/
inductive Expr where
  | DeclRef (D : Decl)
  | Member (D : Decl)
  | Binary (LHS RHS : Expr)
  | ArraySubscript (Base Idx : Expr)
  | Unary (Op : UnaryOpcode) (Sub : Expr)
  | ImplicitCast (Sub : Expr)
  | ExplicitCast (Sub : Expr)
  | Paren (Sub : Expr)
  | BindTemporary (Sub : Expr)
  | Call (CalleeDecl : Option Decl) (Callee : Expr)
  | Conditional (Cond LHS RHS : Expr)
  | StringLiteral (Bytes : String)
  | OtherExpr

/-! ## The variable store -/

/-- Calls into the constraint system made by the methods of the variable store. -/
inductive StoreAction where
  | constrainTo (v : CVar) (c : Atom) (rsn : String)
  | getOrCreateVar (k : ConstraintKey)
deriving DecidableEq

/-- The members of `ProgramInfo` and of the constraint system that the methods
of the variable store read and write; `calls` is the trace of the calls made
into the constraint system. -/
structure StoreState where
  persisted : Bool
  freeKey : Nat
  Variables : List (PersistentSourceLoc × List CVar)
  OnDemandFuncDeclConstraint : List (String × List CVar)
  FuncDeclVarMap : List (String × List CVar)
  FuncDefnVarMap : List (String × List CVar)
  FuncDefnDeclMap : List (String × String)
  calls : List StoreAction

/-- What the methods of the variable store take from other translation units:
`getDeclaration` and `getDefinition` of a function, the constructors
`new PVConstraint(D, freeKey, CS, C)` and `new FVConstraint(D, freeKey, CS, C)`
with the value they leave in `freeKey`, the Function variable behind an address,
the name `getDeclKindName` and the validity of a persistent location. -/
structure AstEnv where
  getDeclaration : FunctionDecl → Option FunctionDecl
  getDefinition : FunctionDecl → Option FunctionDecl
  mkPV : Decl → Nat → PVConstraint × Nat
  mkFV : Decl → Nat → FVConstraint × Nat
  deref : Nat → FVConstraint
  declKindName : Decl → String
  pslValid : PersistentSourceLoc → Bool

/-- The order of two persistent locations: by file, then line, then column. -/
def PersistentSourceLoc.lt (a b : PersistentSourceLoc) : Bool :=
  decide (a.fileName < b.fileName) ||
    (decide (a.fileName = b.fileName) &&
      (decide (a.lineNo < b.lineNo) || (decide (a.lineNo = b.lineNo) && decide (a.colNo < b.colNo))))

/-- The order of two strings. -/
def stringLt (a b : String) : Bool := decide (a < b)

/-- The lookup `m.find(k)` in a `std::map`. -/
def omFind {κ β : Type} [DecidableEq κ] : List (κ × β) → κ → Option β
  | [], _ => none
  | (k1, v) :: rest, k => if k1 = k then some v else omFind rest k

/-- The assignment `m[k] = v` in a `std::map` ordered by `lt`. -/
def omSet {κ β : Type} [DecidableEq κ] (lt : κ → κ → Bool) : List (κ × β) → κ → β → List (κ × β)
  | [], k, v => [(k, v)]
  | (k1, v1) :: rest, k, v =>
    if lt k k1 then (k, v) :: (k1, v1) :: rest
    else if k = k1 then (k, v) :: rest
    else (k1, v1) :: omSet lt rest k v

/-- Insertion of one member into a `std::set` of pointers; the members are
listed in the order of first insertion. -/
def ptrInsert {α : Type} [DecidableEq α] (S : List α) (x : α) : List α :=
  if x ∈ S then S else S ++ [x]

/-- The range insertion `S.insert(T.begin(), T.end())` into a set of pointers. -/
def ptrInsertAll {α : Type} [DecidableEq α] (S T : List α) : List α :=
  T.foldl ptrInsert S

/-- The statement `m[k].insert(x)` on a map of sets of pointers. -/
def omInsertInto {κ α : Type} [DecidableEq κ] [DecidableEq α] (lt : κ → κ → Bool)
    (m : List (κ × List α)) (k : κ) (x : α) : List (κ × List α) :=
  omSet lt m k (ptrInsert ((omFind m k).getD []) x)

/-- A member of a return or parameter set as a member of a set of the store. -/
def liftInner (deref : Nat → FVConstraint) : InnerCVar → CVar
  | ConstraintVariable.PV p => ConstraintVariable.PV p
  | ConstraintVariable.FV a => ConstraintVariable.FV (deref a)

/-- The method `getUniqueDeclKey`. -/
def getUniqueDeclKey (env : AstEnv) (decl : Decl) : String :=
  let fileName := decl.psl.fileName ++ ":" ++ toString decl.psl.lineNo
  let name :=
    match decl with
    | Decl.Function FD => FD.name
    | _ => env.declKindName decl
  fileName ++ ":" ++ name

/-- The method `getUniqueFuncKey`. -/
def getUniqueFuncKey (env : AstEnv) (funcDecl : FunctionDecl) : String :=
  match env.getDefinition funcDecl with
  | some funcDefn => getUniqueDeclKey env (Decl.Function funcDefn)
  | none => getUniqueDeclKey env (Decl.Function funcDecl)

/-- The method `getOnDemandFuncDeclarationConstraint`: the set it returns a
reference to, and the state it leaves.  `none` is a failed assertion. -/
def getOnDemandFuncDeclarationConstraint (env : AstEnv) (st : StoreState)
    (targetFunc : FunctionDecl) : Option (List CVar × StoreState) :=
  let declKey := getUniqueFuncKey env targetFunc
  match omFind st.OnDemandFuncDeclConstraint declKey with
  | some S => some (S, st)
  | none =>
    if targetFunc.isPointerType || targetFunc.isArrayType then none
    else if !targetFunc.isFunctionType then none
    else
      let F := env.mkFV (Decl.Function targetFunc) st.freeKey
      let onDemand := omInsertInto stringLt st.OnDemandFuncDeclConstraint declKey
        (ConstraintVariable.FV F.1)
      let st2 : StoreState :=
        { st with
          freeKey := F.2
          OnDemandFuncDeclConstraint := onDemand
          FuncDeclVarMap := omInsertInto stringLt st.FuncDeclVarMap declKey (ConstraintVariable.FV F.1) }
      some ((omFind onDemand declKey).getD [], st2)

/-- The method `getVariable(D, C, FD, parameterIndex)`; `none` for the parameter
index is the value `-1`. -/
def getVariableOfFunction (st : StoreState) (FD : FunctionDecl) (parameterIndex : Option Nat) :
    Option (List CVar) :=
  match parameterIndex with
  | some i =>
    match FD.params.get? i with
    | some PVD => omFind st.Variables PVD.psl
    | none => none
  | none => omFind st.Variables FD.psl

/-- The loop that looks for the position of the parameter `PD` among the
parameters of `FD`; `none` is the value `-1`. -/
def findParameterIndex (FD : FunctionDecl) (PD : ParmVarDecl) : Option Nat :=
  let i := FD.params.indexOf PD
  if i < FD.params.length then some i else none

/-- The loop that gathers parameter `parameterIndex` of every member of
`fvConstraints`; `none` is a member that is no Function variable or that has
fewer parameters. -/
def gatherParameter (deref : Nat → FVConstraint) (parameterIndex : Nat) :
    List CVar → List CVar → Option (List CVar)
  | [], acc => some acc
  | ConstraintVariable.FV fv :: rest, acc =>
    match fv.paramVars.get? parameterIndex with
    | some currParamConstraint =>
      gatherParameter deref parameterIndex rest
        (ptrInsertAll acc (currParamConstraint.map (liftInner deref)))
    | none => none
  | ConstraintVariable.PV _ :: _, _ => none

/-- The part of `getVariableOnDemand` reached when the request is for a function
or for a parameter. -/
def variableOfFunctionPart (env : AstEnv) (st : StoreState) (isFunction : Bool)
    (funcDeclaration funcDefinition : Option FunctionDecl) (parameterIndex : Option Nat)
    (inFunctionContext : Bool) : Option (List CVar × StoreState) :=
  let funcDefinition :=
    if isFunction && funcDefinition.isNone then funcDeclaration else funcDefinition
  if inFunctionContext then
    match funcDefinition with
    | none => none
    | some fdef => (getVariableOfFunction st fdef parameterIndex).map (fun S => (S, st))
  else
    match funcDeclaration with
    | none =>
      match funcDefinition with
      | none => none
      | some fdef =>
        match getOnDemandFuncDeclarationConstraint env st fdef with
        | none => none
        | some (fvConstraints, st2) =>
          match parameterIndex with
          | some i =>
            if fvConstraints.isEmpty then none
            else (gatherParameter env.deref i fvConstraints []).map (fun S => (S, st2))
          | none => some (fvConstraints, st2)
    | some fdecl => (getVariableOfFunction st fdecl parameterIndex).map (fun S => (S, st))

/-- The method `getVariableOnDemand`: the set it returns and the state it
leaves.  `none` is a failed assertion or the use of a null pointer. -/
def getVariableOnDemand (env : AstEnv) (st : StoreState) (D : Decl) (inFunctionContext : Bool) :
    Option (List CVar × StoreState) :=
  if st.persisted then none
  else
    match omFind st.Variables D.psl with
    | none => some ([], st)
    | some I =>
      match D with
      | Decl.Function FD =>
        let funcDeclaration := env.getDeclaration FD
        let funcDefinition := env.getDefinition FD
        if funcDeclaration.isSome || funcDefinition.isSome then
          variableOfFunctionPart env st true funcDeclaration funcDefinition none inFunctionContext
        else some (I, st)
      | Decl.ParmVar PD parent =>
        match parent with
        | none => none
        | some FD =>
          let parameterIndex := findParameterIndex FD PD
          let funcDeclaration0 := env.getDeclaration FD
          let funcDefinition := env.getDefinition FD
          let funcDeclaration :=
            if funcDefinition.isNone && funcDeclaration0.isNone then some FD else funcDeclaration0
          match parameterIndex with
          | none => none
          | some i =>
            variableOfFunctionPart env st false funcDeclaration funcDefinition (some i)
              inFunctionContext
      | _ => some (I, st)

/-- The method `getVariable(D, C, inFunctionContext)`. -/
def getVariable (env : AstEnv) (st : StoreState) (D : Decl) (inFunctionContext : Bool) :
    Option (List CVar × StoreState) :=
  match D with
  | Decl.Function _ => getVariableOnDemand env st D false
  | _ => getVariableOnDemand env st D inFunctionContext


/-- Whether a set has a Function variable, `hasConstraintType<FVConstraint>`. -/
def hasFVConstraint (S : List CVar) : Bool :=
  S.any (fun v => match v with
    | ConstraintVariable.FV _ => true
    | ConstraintVariable.PV _ => false)

/-- Whether a set has a Pointer variable, `hasConstraintType<PVConstraint>`. -/
def hasPVConstraint (S : List CVar) : Bool :=
  S.any (fun v => match v with
    | ConstraintVariable.PV _ => true
    | ConstraintVariable.FV _ => false)

/-- The kind of the declared type of a declarator: pointer, array, function. -/
def Decl.typeFlags : Decl → Bool × Bool × Bool
  | Decl.Function FD => (FD.isPointerType, FD.isArrayType, FD.isFunctionType)
  | Decl.ParmVar PD _ => (PD.isPointerType, PD.isArrayType, PD.isFunctionType)
  | Decl.Var VD => (VD.isPointerType, VD.isArrayType, VD.isFunctionType)
  | Decl.Field FD => (FD.isPointerType, FD.isArrayType, FD.isFunctionType)
  | Decl.Other _ _ => (false, false, false)

/-- The block of `addVariable` that records a new Function variable `F` of the
function `UD` in the maps of definitions and declarations. -/
def recordFunction (env : AstEnv) (st : StoreState) (UD : FunctionDecl) (F : FVConstraint) :
    StoreState :=
  let funcKey := getUniqueDeclKey env (Decl.Function UD)
  if UD.hasBodyDefinition then
    let st1 : StoreState :=
      { st with FuncDefnVarMap := omInsertInto stringLt st.FuncDefnVarMap funcKey (ConstraintVariable.FV F) }
    match env.getDeclaration UD with
    | some FDecl =>
      { st1 with
        FuncDefnDeclMap := omSet stringLt st1.FuncDefnDeclMap funcKey
          (getUniqueDeclKey env (Decl.Function FDecl)) }
    | none => st1
  else
    { st with FuncDeclVarMap := omInsertInto stringLt st.FuncDeclVarMap funcKey (ConstraintVariable.FV F) }

/-- The loop of `addVariable` over the parameters of a new function: the
variables of parameter `i` are entered at the location of its declaration.
The two lists are the parameters and the parameter sets from position `i` on. -/
def recordParameters (deref : Nat → FVConstraint) :
    List (PersistentSourceLoc × List CVar) → List ParmVarDecl → List (List InnerCVar) →
      List (PersistentSourceLoc × List CVar)
  | Vs, PVD :: ps, S :: sets =>
    if S.isEmpty then recordParameters deref Vs ps sets
    else
      recordParameters deref
        (omSet PersistentSourceLoc.lt Vs PVD.psl
          (ptrInsertAll ((omFind Vs PVD.psl).getD []) (S.map (liftInner deref))))
        ps sets
  | Vs, _, _ => Vs

/-- The method `addVariable`: the state it leaves.  `none` is a failed assertion,
`llvm_unreachable` or the use of a null pointer. -/
def addVariable (env : AstEnv) (st : StoreState) (D : Decl) : Option StoreState :=
  if st.persisted then none
  else if !env.pslValid D.psl then none
  else
    match D with
    | Decl.Other _ _ => none
    | _ =>
      let PLoc := D.psl
      let P : Option PVConstraint × Nat :=
        if D.typeFlags.1 || D.typeFlags.2.1 then
          (some (env.mkPV D st.freeKey).1, (env.mkPV D st.freeKey).2)
        else (none, st.freeKey)
      let F : Option FVConstraint × Nat :=
        if D.typeFlags.2.2 then (some (env.mkFV D P.2).1, (env.mkFV D P.2).2) else (none, P.2)
      let S0 := (omFind st.Variables PLoc).getD []
      let st0 : StoreState :=
        { st with freeKey := F.2, Variables := omSet PersistentSourceLoc.lt st.Variables PLoc S0 }
      let newFunction := F.1.isSome && !hasFVConstraint S0
      -- the Function variable
      let afterF : Option (StoreState × List CVar) :=
        match F.1 with
        | some Fv =>
          if !hasFVConstraint S0 then
            match D with
            | Decl.Function UD =>
              some (recordFunction env st0 UD Fv, ptrInsert S0 (ConstraintVariable.FV Fv))
            | _ => none
          else some (st0, S0)
        | none => some (st0, S0)
      match afterF with
      | none => none
      | some (st1, S1) =>
        -- the Pointer variable
        let S2 :=
          match P.1 with
          | some Pv => if !hasPVConstraint S1 then ptrInsert S1 (ConstraintVariable.PV Pv) else S1
          | none => S1
        let Vs2 := omSet PersistentSourceLoc.lt st1.Variables PLoc S2
        -- the parameters of a new function
        let Vs3 : Option (List (PersistentSourceLoc × List CVar)) :=
          match F.1 with
          | some Fv =>
            if newFunction then
              match D with
              | Decl.Function FD =>
                if FD.params.length = Fv.numParams then
                  some (recordParameters env.deref Vs2 FD.params Fv.paramVars)
                else none
              | _ => none
            else some Vs2
          | none => some Vs2
        match Vs3 with
        | none => none
        | some Vs =>
          let S := (omFind Vs PLoc).getD []
          let macroCalls :=
            if !D.isRewritable then
              S.map (fun C => StoreAction.constrainTo C getWild "Pointer in Macro declaration.")
            else []
          some { st1 with Variables := Vs, calls := st1.calls ++ macroCalls }

/-- Modelled from the spec: the constructor `FVConstraint()` is defined outside
`ProgramInfo.cpp`; it makes a Function variable with no return variable and no
parameter. -/
def FVConstraint.nullary : FVConstraint :=
  { name := "", returnVars := [], paramVars := [], hasBody := false, hasProtoType := false }

/-- The Pointer variable `new PVConstraint(C, Ty, Name, FV, Arr, ItypePresent, Itype)`
made from `PVC` once the first slot is taken off, when slots are left. -/
def dropOutermost (PVC : PVConstraint) : Option PVConstraint :=
  match PVC.vars with
  | [] => none
  | _ :: C =>
    if C.isEmpty then none
    else
      some { vars := C, baseType := PVC.baseType, name := PVC.name, fv := PVC.fv,
             arrPresent := PVC.arrPresent, itypePresent := PVC.itypePresent, itype := PVC.itype }

/-- The loop of the array-subscript case: members that are no Pointer variable
are passed over. -/
def subscriptSet : List CVar → List CVar
  | [] => []
  | ConstraintVariable.PV PVC :: rest =>
    match dropOutermost PVC with
    | some n => ConstraintVariable.PV n :: subscriptSet rest
    | none => subscriptSet rest
  | ConstraintVariable.FV _ :: rest => subscriptSet rest

/-- The loop of the dereference case: a member that is no Pointer variable is
`llvm_unreachable`, here `none`. -/
def derefSet : List CVar → Option (List CVar)
  | [] => some []
  | ConstraintVariable.PV PVC :: rest =>
    match derefSet rest with
    | none => none
    | some tmp =>
      match dropOutermost PVC with
      | some n => some (ConstraintVariable.PV n :: tmp)
      | none => some tmp
  | ConstraintVariable.FV _ :: _ => none

/-- The return variables of the Function variable behind a member of a set: of
the member itself, or of the function part of a Pointer variable. -/
def calleeReturnVars (deref : Nat → FVConstraint) : CVar → List CVar
  | ConstraintVariable.FV FV => FV.returnVars.map (liftInner deref)
  | ConstraintVariable.PV PV =>
    match PV.fv with
    | some a => (deref a).returnVars.map (liftInner deref)
    | none => []

/-- The loop of the call case that keeps the last Function variable found. -/
def lastFunction (deref : Nat → FVConstraint) : List CVar → Option FVConstraint → Option FVConstraint
  | [], FVC => FVC
  | ConstraintVariable.FV tmp :: rest, _ => lastFunction deref rest (some tmp)
  | ConstraintVariable.PV tmp :: rest, FVC =>
    match tmp.fv with
    | some a => lastFunction deref rest (some (deref a))
    | none => lastFunction deref rest FVC

/-- The method `getVariableHelper` (the parameter `V` is not used by it): the
set it returns and the state it leaves.  The call `E->IgnoreParenImpCasts()`
takes parentheses and implicit casts off before the cases are told apart, which
is the recursion on the operand made here for these two kinds. -/
def getVariableHelper (env : AstEnv) : StoreState → Expr → Bool → Option (List CVar × StoreState)
  | st, Expr.DeclRef D, ifc => getVariable env st D ifc
  | st, Expr.Member D, ifc => getVariable env st D ifc
  | st, Expr.Binary LHS RHS, ifc =>
    match getVariableHelper env st LHS ifc with
    | none => none
    | some (T1, st1) =>
      match getVariableHelper env st1 RHS ifc with
      | none => none
      | some (T2, st2) => some (ptrInsertAll T1 T2, st2)
  | st, Expr.ArraySubscript Base _, ifc =>
    match getVariableHelper env st Base ifc with
    | none => none
    | some (T, st1) => some (subscriptSet T, st1)
  | st, Expr.Unary Op Sub, ifc =>
    match getVariableHelper env st Sub ifc with
    | none => none
    | some (T, st1) =>
      match Op with
      | UnaryOpcode.Deref => (derefSet T).map (fun tmp => (tmp, st1))
      | UnaryOpcode.OtherOp => some (T, st1)
  | st, Expr.ImplicitCast Sub, ifc => getVariableHelper env st Sub ifc
  | st, Expr.ExplicitCast Sub, ifc => getVariableHelper env st Sub ifc
  | st, Expr.Paren Sub, ifc => getVariableHelper env st Sub ifc
  | st, Expr.BindTemporary Sub, ifc => getVariableHelper env st Sub ifc
  | st, Expr.Call none Callee, _ =>
    match getVariableHelper env st Callee false with
    | none => none
    | some (tmp, st1) =>
      some (tmp.foldl (fun T C => ptrInsertAll T (calleeReturnVars env.deref C)) [], st1)
  | st, Expr.Call (some D) _, _ =>
    match D with
    | Decl.Other _ _ => none
    | _ =>
      match getVariable env st D false with
      | none => none
      | some (CS, st1) =>
        match lastFunction env.deref CS none with
        | some FVC => some (ptrInsertAll [] (FVC.returnVars.map (liftInner env.deref)), st1)
        | none => some ([ConstraintVariable.FV FVConstraint.nullary], st1)
  | st, Expr.Conditional Cond LHS RHS, ifc =>
    match getVariableHelper env st Cond ifc with
    | none => none
    | some (T1, st1) =>
      match getVariableHelper env st1 LHS ifc with
      | none => none
      | some (T2, st2) =>
        match getVariableHelper env st2 RHS ifc with
        | none => none
        | some (T3, st3) => some (ptrInsertAll (ptrInsertAll (ptrInsertAll [] T1) T2) T3, st3)
  | st, Expr.StringLiteral Bytes, _ =>
    let newC : CVar := ConstraintVariable.PV
      { vars := [st.freeKey], baseType := "const char*", name := Bytes, fv := none,
        arrPresent := false, itypePresent := false, itype := "" }
    some ([newC],
      { st with
        freeKey := st.freeKey + 1
        calls := st.calls ++
          [StoreAction.getOrCreateVar st.freeKey,
           StoreAction.constrainTo newC (Atom.const ConstAtom.NTArr) defaultReason] })
  | st, Expr.OtherExpr, _ => some ([], st)

/-! ## Cast placement -/

/-- The policy value `Dinfo` of a parameter. -/
inductive IsChecked where
  | CHECKED
  | WILD
deriving DecidableEq

/-- The method `CastPlacementVisitor::needCasting`.  The three functions are the
methods `isChecked(E)`, `hasItype()` and `solutionEqualTo(CS, Other)` of a
constraint variable on the current solution. -/
def needCasting (isChecked hasItype : CVar → Bool) (solutionEqualTo : CVar → CVar → Bool)
    (Src Dst : CVar) (Dinfo : IsChecked) : Bool :=
  if isChecked Src then
    if hasItype Dst then !solutionEqualTo Dst Src
    else if !isChecked Dst || decide (Dinfo = IsChecked.WILD) then true
    else false
  else false

/-! ## Retraction of a WILD constraint -/

/-- The constraint system and the disjoint-set record that the interface holds. -/
structure InterfaceState where
  constraints : List Constraint
  environment : ConstraintKey → ConstAtom
  PtrDisjointSet : DisjointSet
  Variables : List (PersistentSourceLoc × List CVar)

/-- The member of the constraint set that compares equal to the probe
`Geq(VA, Wild)` built without a reason: a `Geq` with the same two atoms. -/
def findGeqWild (cs : List Constraint) (targetPtr : ConstraintKey) : Option Constraint :=
  cs.find? (fun c =>
    decide (c.kind = ConstraintKind.Geq) && decide (c.lhs = Atom.var targetPtr) &&
      decide (c.rhs = getWild))

/-- Modelled from the spec: `Constraints::removeConstraint` is defined outside
`CConv.cpp`; it removes the one given constraint from the set. -/
def removeConstraint (cs : List Constraint) (c : Constraint) : List Constraint := cs.erase c

/-- Modelled from the spec: `Constraints::resetEnvironment` is defined outside
`CConv.cpp`; it gives every variable its initial value, the safest one. -/
def resetEnvironment : ConstraintKey → ConstAtom := fun _ => ConstAtom.Ptr

/-- The function `runSolver`: the assignment the solver leaves; `none` is the
failed assertion on `checkInitialEnvSanity`.  `solve` is `Constraints::solve`. -/
def runSolver (checkInitialEnvSanity : List Constraint → (ConstraintKey → ConstAtom) → Bool)
    (solve : List Constraint → (ConstraintKey → ConstAtom) → (ConstraintKey → ConstAtom))
    (cs : List Constraint) (environment : ConstraintKey → ConstAtom) :
    Option (ConstraintKey → ConstAtom) :=
  if checkInitialEnvSanity cs environment then some (solve cs environment) else none

/-- The method `CConvInterface::MakeSinglePtrNonWild`: the state it leaves and
its result.  `none` is the dereference of `end()` when the set has no
`Geq(targetPtr, Wild)`, or a failed assertion further on. -/
def MakeSinglePtrNonWild
    (checkInitialEnvSanity : List Constraint → (ConstraintKey → ConstAtom) → Bool)
    (solve : List Constraint → (ConstraintKey → ConstAtom) → (ConstraintKey → ConstAtom))
    (canWrite : String → Bool) (st : InterfaceState) (targetPtr : ConstraintKey) :
    Option (InterfaceState × Bool) :=
  let OldWildPtrs := st.PtrDisjointSet.allWildPtrs
  match findGeqWild st.constraints targetPtr with
  | none => none
  | some originalConstraint =>
    let cs := removeConstraint st.constraints originalConstraint
    match runSolver checkInitialEnvSanity solve cs resetEnvironment with
    | none => none
    | some environment =>
      match computePointerDisjointSet canWrite cs st.Variables with
      | none => none
      | some ds =>
        let RemovePtrs := setInsertAll [] (setDifference OldWildPtrs ds.allWildPtrs)
        some ({ constraints := cs, environment := environment, PtrDisjointSet := ds,
                Variables := st.Variables }, !RemovePtrs.isEmpty)

/-! ## Predicates on the results of the subtyping pass -/

/-- The result flag is set exactly when a constraint was passed on. -/
def Flagged (r : List Constraint × Bool) : Prop := r.2 = true ↔ r.1 ≠ []

/-- Value of an atom under an assignment. -/
def Atom.value (env : ConstraintKey → ConstAtom) : Atom → ConstAtom
  | Atom.const c => c
  | Atom.var k => env k

/-- The assignment satisfies the constraint. -/
def Constraint.holds (env : ConstraintKey → ConstAtom) (c : Constraint) : Bool :=
  match c.kind with
  | ConstraintKind.Eq => decide (Atom.value env c.lhs = Atom.value env c.rhs)
  | ConstraintKind.Geq => !(Atom.value env c.lhs).lt (Atom.value env c.rhs)

/-! ## Types and explicit casts -/

/-- A `clang::Type` node that is no `PointerType`.  What `isExplicitCastSafe`
reads of it is the identity of the node and the four predicates it asks of it.
The last field is not read by the method: it is the number of pointer levels of
the type the node stands for once typedef names and other sugar are looked
through, as `isPointerType()` sees it (a typedef name of `int **` has two). -/
structure TypeNode where
  id : Nat
  isScalarType : Bool
  isCharType : Bool
  isIntegerType : Bool
  isFloatingType : Bool
  canonicalPointerLevels : Nat
deriving DecidableEq

/-- A `clang::QualType`: qualifiers on a type node.  The node is a `PointerType`
with its pointee type, which is what `dyn_cast<PointerType>` recognises, or
another node. -/
inductive QualType where
  | pointer (quals : Nat) (pointee : QualType)
  | other (quals : Nat) (T : TypeNode)
deriving DecidableEq

/-- Number of `PointerType` levels of a type. -/
def QualType.depth : QualType → Nat
  | QualType.pointer _ pointee => pointee.depth + 1
  | QualType.other _ _ => 0

/-- Indirection depth of a type: its `PointerType` levels and, below them, the
pointer levels that a typedef name stands for. -/
def QualType.pointerDepth : QualType → Nat
  | QualType.pointer _ pointee => pointee.pointerDepth + 1
  | QualType.other _ T => T.canonicalPointerLevels

/-- The method `isExplicitCastSafe(dstType, srcType)`. -/
def isExplicitCastSafe : QualType → QualType → Bool
  | dstType, srcType =>
    if srcType = dstType then true
    else
      match srcType, dstType with
      | QualType.pointer _ srcPointee, QualType.pointer _ dstPointee =>
        isExplicitCastSafe dstPointee srcPointee
      | QualType.pointer _ _, QualType.other _ _ => false
      | QualType.other _ _, QualType.pointer _ _ => false
      | QualType.other _ srcTypePtr, QualType.other _ dstTypePtr =>
        if !(srcTypePtr.isScalarType && dstTypePtr.isScalarType) then
          decide (srcTypePtr = dstTypePtr)
        else
          let bothNotChar := xor srcTypePtr.isCharType dstTypePtr.isCharType
          let bothNotInt := xor srcTypePtr.isIntegerType dstTypePtr.isIntegerType
          let bothNotFloat := xor srcTypePtr.isFloatingType dstTypePtr.isFloatingType
          !(bothNotChar || bothNotInt || bothNotFloat)

/-- The method `isExplicitCastSafe` with a bound on the number of nested calls:
`none` when the bound is used up before a call returns. -/
def isExplicitCastSafeFuel : Nat → QualType → QualType → Option Bool
  | 0, _, _ => none
  | fuel + 1, dstType, srcType =>
    if srcType = dstType then some true
    else
      match srcType, dstType with
      | QualType.pointer _ srcPointee, QualType.pointer _ dstPointee =>
        isExplicitCastSafeFuel fuel dstPointee srcPointee
      | QualType.pointer _ _, QualType.other _ _ => some false
      | QualType.other _ _, QualType.pointer _ _ => some false
      | QualType.other _ srcTypePtr, QualType.other _ dstTypePtr =>
        if !(srcTypePtr.isScalarType && dstTypePtr.isScalarType) then
          some (decide (srcTypePtr = dstTypePtr))
        else
          let bothNotChar := xor srcTypePtr.isCharType dstTypePtr.isCharType
          let bothNotInt := xor srcTypePtr.isIntegerType dstTypePtr.isIntegerType
          let bothNotFloat := xor srcTypePtr.isFloatingType dstTypePtr.isFloatingType
          some (!(bothNotChar || bothNotInt || bothNotFloat))

/-! ## Global function symbols -/

/-- The value read by `ExternFunctions[fn]`: false for a name not yet entered. -/
def externFlag (st : ProgramInfo) (fn : String) : Bool := (omFind st.ExternFunctions fn).getD false

/-- The Function variables among the members of a set of the variable store, as
the set `toAdd` of `seeFunctionDecl` holds them. -/
def functionVariables (K : List CVar) : List FVConstraint :=
  K.foldl
    (fun toAdd J =>
      match J with
      | ConstraintVariable.FV FJ => ptrInsert toAdd FJ
      | ConstraintVariable.PV _ => toAdd)
    []

/-- The method `seeFunctionDecl`: the state it leaves; `none` is the failed
assertion `toAdd.size() > 0`.  Reading `ExternFunctions[fn]` enters the name
with false when it is absent; the flag is written only while it is false. -/
def seeFunctionDecl (st : ProgramInfo) (F : FunctionDecl) : Option ProgramInfo :=
  if !F.isGlobal then some st
  else
    let fn := F.name
    let ExternFunctions :=
      if !externFlag st fn then omSet stringLt st.ExternFunctions fn F.hasBodyDefinition
      else st.ExternFunctions
    let K := (omFind st.Variables F.psl).getD []
    let toAdd := functionVariables K
    if toAdd.isEmpty then none
    else
      let GlobalFunctionSymbols :=
        match omFind st.GlobalFunctionSymbols fn with
        | none => omSet stringLt st.GlobalFunctionSymbols fn toAdd
        | some P => omSet stringLt st.GlobalFunctionSymbols fn (ptrInsertAll P toAdd)
      some { st with ExternFunctions := ExternFunctions, GlobalFunctionSymbols := GlobalFunctionSymbols }

/-- A sequence of calls of `seeFunctionDecl`, one for every declaration of the list. -/
def seeFunctionDecls : ProgramInfo → List FunctionDecl → Option ProgramInfo
  | st, [] => some st
  | st, F :: rest =>
    match seeFunctionDecl st F with
    | none => none
    | some st1 => seeFunctionDecls st1 rest

/-- The leaders are representatives: the leader of a slot is its own leader. -/
def DisjointSet.SelfLed (ds : DisjointSet) : Prop :=
  ∀ x l, KMap.find ds.leaders x = some l → KMap.find ds.leaders l = some l

/-! ## The solver -/

/-- Modelled from the spec: `Constraints::solve` and what it uses are defined
outside `CConv.cpp`.  The join of two qualifiers is the less safe of the two. -/
def ConstAtom.join (a b : ConstAtom) : ConstAtom := if a.lt b then b else a

/-- Modelled from the spec: the solver variables an atom stands for; a constant
is a fixed value and stands for none. -/
def Atom.keys : Atom → List ConstraintKey
  | Atom.var k => [k]
  | Atom.const _ => []

/-- Modelled from the spec: raising an atom to at least the value `v`.  The
value of a variable becomes its join with `v`; a constant is fixed. -/
def raiseAtom (env : ConstraintKey → ConstAtom) : Atom → ConstAtom → ConstraintKey → ConstAtom
  | Atom.var k, v => fun j => if j = k then (env k).join v else env j
  | Atom.const _, _ => env

/-- Modelled from the spec: what one pass of `solve` does for one constraint.
For `Eq(lhs, rhs)` both sides are raised to the join of their values; for a
lower bound the bound atom is raised to at least the value of the bound, which
is Wild for the lower bounds the spec knows. -/
def propagate (env : ConstraintKey → ConstAtom) (c : Constraint) : ConstraintKey → ConstAtom :=
  match c.kind with
  | ConstraintKind.Eq =>
    let j := (Atom.value env c.lhs).join (Atom.value env c.rhs)
    raiseAtom (raiseAtom env c.lhs j) c.rhs j
  | ConstraintKind.Geq => raiseAtom env c.lhs (Atom.value env c.rhs)

/-- Modelled from the spec: one constraint-propagation pass of `solve` over the
constraints in the iteration order of the constraint set. -/
def solvePass (cs : List Constraint) (env : ConstraintKey → ConstAtom) : ConstraintKey → ConstAtom :=
  cs.foldl propagate env

/-- Modelled from the spec: the Var-atoms of a constraint set, each listed once. -/
def varAtoms (cs : List Constraint) : List ConstraintKey :=
  (cs.flatMap (fun c => c.lhs.keys ++ c.rhs.keys)).dedup

/-- Modelled from the spec: whether a pass has changed an atom. -/
def passChanged (cs : List Constraint) (before after : ConstraintKey → ConstAtom) : Bool :=
  (varAtoms cs).any (fun k => decide (after k ≠ before k))

/-- Modelled from the spec: the loop of `solve`, "iterate until no atom changes
in a full pass", with a bound on the number of passes.  It returns the
assignment it stops at and the number of passes that changed an atom; `none`
when the bound is used up. -/
def solveLoop (cs : List Constraint) : Nat → (ConstraintKey → ConstAtom) →
    Option ((ConstraintKey → ConstAtom) × Nat)
  | 0, _ => none
  | fuel + 1, env =>
    if passChanged cs env (solvePass cs env) then
      (solveLoop cs fuel (solvePass cs env)).map (fun r => (r.1, r.2 + 1))
    else some (env, 0)

/-- The invariant of the on-demand map: every entry is a non-empty set of
Function variables.  The map is written by the constructor, which empties it,
and by `getOnDemandFuncDeclarationConstraint` only. -/
def OnDemandInv (st : StoreState) : Prop :=
  ∀ key S, omFind st.OnDemandFuncDeclConstraint key = some S →
    S ≠ [] ∧ ∀ v ∈ S, ∃ f, v = ConstraintVariable.FV f

/-- Return variable of a function returning a pointer whose only slot is `k`. -/
def exRet (k : ConstraintKey) : InnerCVar :=
  ConstraintVariable.PV
    { vars := [k], baseType := "int", name := "f", fv := none,
      arrPresent := false, itypePresent := false, itype := "" }

/-- Parameter of pointer type with the slots `ks`. -/
def exParam (ks : List ConstraintKey) : InnerCVar :=
  ConstraintVariable.PV
    { vars := ks, baseType := "int", name := "p", fv := none,
      arrPresent := false, itypePresent := false, itype := "" }

/-- Declaration without a body of `int *f(void)` with return slot `k`. -/
def exDecl (k : ConstraintKey) : FVConstraint :=
  { name := "f", returnVars := [exRet k], paramVars := [], hasBody := false, hasProtoType := true }

/-- Definition of `int *f(void)` with return slot `k`. -/
def exDefn (k : ConstraintKey) : FVConstraint :=
  { name := "f", returnVars := [exRet k], paramVars := [], hasBody := true, hasProtoType := true }

/-- Identity of a declaration in file `file` at line 1. -/
def exLoc (file : String) : PersistentSourceLoc := { fileName := file, lineNo := 1, colNo := 1 }

/-- Five files declare or define `f`: two declarations follow two definitions in
the iteration order of the set of `f`. -/
def exTwoBodies : ProgramInfo :=
  { Variables :=
      [(exLoc "a.c", [ConstraintVariable.FV (exDecl 1)]), (exLoc "b.c", [ConstraintVariable.FV (exDefn 2)]),
       (exLoc "c.c", [ConstraintVariable.FV (exDefn 3)]), (exLoc "d.c", [ConstraintVariable.FV (exDecl 4)]),
       (exLoc "e.c", [ConstraintVariable.FV (exDecl 5)])],
    GlobalVariableSymbols := [],
    GlobalFunctionSymbols := [("f", [exDecl 1, exDefn 2, exDefn 3, exDecl 4, exDecl 5])],
    ExternFunctions := [("f", true)],
    seperateMultipleFuncDecls := false }

/-- Function variable of `int *name(void)` with return slot `k`, with or without
a body. -/
def exFun (name : String) (k : ConstraintKey) (body : Bool) : FVConstraint :=
  { name := name,
    returnVars := [ConstraintVariable.PV
      { vars := [k], baseType := "int", name := name, fv := none,
        arrPresent := false, itypePresent := false, itype := "" }],
    paramVars := [], hasBody := body, hasProtoType := true }

/-- The function `f` is declared once and defined once, the function `g` is
declared three times and defined once; in both sets the definition comes last. -/
def exGapCarried : ProgramInfo :=
  { Variables :=
      [(exLoc "f.h", [ConstraintVariable.FV (exFun "f" 1 false)]),
       (exLoc "f.c", [ConstraintVariable.FV (exFun "f" 2 true)]),
       (exLoc "g.h", [ConstraintVariable.FV (exFun "g" 3 false)]),
       (exLoc "g1.c", [ConstraintVariable.FV (exFun "g" 4 false)]),
       (exLoc "g2.c", [ConstraintVariable.FV (exFun "g" 5 false)]),
       (exLoc "g.c", [ConstraintVariable.FV (exFun "g" 6 true)])],
    GlobalVariableSymbols := [],
    GlobalFunctionSymbols :=
      [("f", [exFun "f" 1 false, exFun "f" 2 true]),
       ("g", [exFun "g" 3 false, exFun "g" 4 false, exFun "g" 5 false, exFun "g" 6 true])],
    ExternFunctions := [("f", true), ("g", true)],
    seperateMultipleFuncDecls := false }

/-- Declaration `int *f(int *)` without a body: return slot 1, parameter slot 2. -/
def exProtoDecl : FVConstraint :=
  { name := "f", returnVars := [exRet 1], paramVars := [[exParam [2]]],
    hasBody := false, hasProtoType := true }

/-- Definition `int *f(int *, int *)`: return slot 3, parameter slots 4 and 5. -/
def exProtoDefn : FVConstraint :=
  { name := "f", returnVars := [exRet 3], paramVars := [[exParam [4]], [exParam [5]]],
    hasBody := true, hasProtoType := true }

/-- Second declaration without a body, `int *f(int *, int *)`. -/
def exProtoDecl2 : FVConstraint :=
  { name := "f", returnVars := [exRet 3], paramVars := [[exParam [4]], [exParam [5]]],
    hasBody := false, hasProtoType := true }

/-- The function `f` is declared in `a.c` and defined with another parameter
count in `b.c`; `declFirst` says which of the two the set of `f` visits first. -/
def exDeclDefn (declFirst : Bool) : ProgramInfo :=
  { Variables :=
      [(exLoc "a.c", [ConstraintVariable.FV exProtoDecl]), (exLoc "b.c", [ConstraintVariable.FV exProtoDefn])],
    GlobalVariableSymbols := [],
    GlobalFunctionSymbols :=
      [("f", if declFirst then [exProtoDecl, exProtoDefn] else [exProtoDefn, exProtoDecl])],
    ExternFunctions := [("f", true)],
    seperateMultipleFuncDecls := false }

/-- The function `f` is declared without a body in `a.c` and in `b.c`, with
different parameter counts. -/
def exDeclDecl : ProgramInfo :=
  { Variables :=
      [(exLoc "a.c", [ConstraintVariable.FV exProtoDecl]), (exLoc "b.c", [ConstraintVariable.FV exProtoDecl2])],
    GlobalVariableSymbols := [],
    GlobalFunctionSymbols := [("f", [exProtoDecl, exProtoDecl2])],
    ExternFunctions := [("f", false)],
    seperateMultipleFuncDecls := false }

/-- Pointer variable of a global `int *g` with the slot `k`. -/
def exGlobal (k : ConstraintKey) : PVConstraint :=
  { vars := [k], baseType := "int", name := "g", fv := none,
    arrPresent := false, itypePresent := false, itype := "" }

/-- Three files declare the global `g`; one location holds two declarators. -/
def exGlobals : ProgramInfo :=
  { Variables :=
      [(exLoc "a.c", [ConstraintVariable.PV (exGlobal 1), ConstraintVariable.PV (exGlobal 2)]),
       (exLoc "b.c", [ConstraintVariable.PV (exGlobal 3)])],
    GlobalVariableSymbols := [("g", [exGlobal 1, exGlobal 2, exGlobal 3])],
    GlobalFunctionSymbols := [],
    ExternFunctions := [],
    seperateMultipleFuncDecls := false }

/-- Declaration `int **ext(int **, int *)` of a function nobody defines. -/
def exUnresolved : FVConstraint :=
  { name := "ext", returnVars := [exRet 1], paramVars := [[exParam [2, 3]], [exParam [4]]],
    hasBody := false, hasProtoType := true }

/-- Declaration `void *malloc(unsigned long)`. -/
def exMalloc : FVConstraint :=
  { name := "malloc", returnVars := [exRet 5], paramVars := [[exParam []]],
    hasBody := false, hasProtoType := true }

/-- A program that declares `ext` and `malloc` and defines neither. -/
def exExterns : ProgramInfo :=
  { Variables :=
      [(exLoc "a.c", [ConstraintVariable.FV exUnresolved]), (exLoc "stdlib.h", [ConstraintVariable.FV exMalloc])],
    GlobalVariableSymbols := [],
    GlobalFunctionSymbols := [("ext", [exUnresolved]), ("malloc", [exMalloc])],
    ExternFunctions := [("ext", false), ("malloc", false)],
    seperateMultipleFuncDecls := false }

/-- The calls `link` makes on `exDeclDecl`. -/
def exDeclDeclTrace : List LinkAction :=
  [LinkAction.constrainEqSets [exRet 1] [exRet 3],
   LinkAction.constrainToFV exProtoDecl getWild "Return value of function:f",
   LinkAction.constrainToFV exProtoDecl2 getWild "Return value of function:f",
   LinkAction.constrainTo (exRet 1) getWild "Return value of function:f",
   LinkAction.constrainTo (exRet 3) getWild "Return value of function:f"]

/-- The calls `link` makes on `exGlobals`. -/
def exGlobalsTrace : List LinkAction :=
  [LinkAction.constrainEq (ConstraintVariable.PV (exGlobal 1)) (ConstraintVariable.PV (exGlobal 2)),
   LinkAction.constrainEq (ConstraintVariable.PV (exGlobal 1)) (ConstraintVariable.PV (exGlobal 2)),
   LinkAction.constrainEq (ConstraintVariable.PV (exGlobal 2)) (ConstraintVariable.PV (exGlobal 3))]

/-- Constraint `Eq(lhs, rhs)` with a reason and a provenance. -/
def exEq (lhs rhs : Atom) (rsn file : String) (line col : Nat) : Constraint :=
  { kind := ConstraintKind.Eq, lhs := lhs, rhs := rhs, reason := rsn,
    sourceFileName := file, lineNo := line, colStart := col }

/-- Slot 2 is cast unsafely at `a.c:3:1`; slots 1 and 3 are equated with it. -/
def exConstraints : List Constraint :=
  [exEq (Atom.var 1) (Atom.var 2) "assignment" "" 0 0,
   exEq (Atom.var 2) getWild "unsafe cast" "a.c" 3 1,
   exEq (Atom.var 3) (Atom.var 2) "assignment" "" 0 0]

/-- What `computePointerDisjointSet` computes from `exConstraints`. -/
def exDisjointSet : DisjointSet :=
  { leaders := [(1, 2), (2, 2), (3, 2)],
    groups := [(2, [1, 2, 3])],
    realWildPtrsWithReasons :=
      [(2, { wildPtrReason := "unsafe cast", isValid := true, sourceFileName := "a.c",
             lineNo := 3, colStart := 1 })],
    PtrSourceMap := [],
    allWildPtrs := [2],
    totalNonDirectWildPointers := [1, 3],
    validSourceFiles := [] }

/-- A consistent union-find whose single group is led by slot 1, with slots 2
and 3 recorded as real WILD slots. -/
def exUnionFind : DisjointSet :=
  { leaders := [(1, 1), (2, 1), (3, 1)],
    groups := [(1, [1, 2, 3])],
    realWildPtrsWithReasons :=
      [(2, WildPointerInferenceInfo.fresh), (3, WildPointerInferenceInfo.fresh)],
    PtrSourceMap := [],
    allWildPtrs := [],
    totalNonDirectWildPointers := [],
    validSourceFiles := [] }

/-- Return variable of `int **f(void)` with the slots `ks`. -/
def exRetChain (ks : List ConstraintKey) : PVConstraint :=
  { vars := ks, baseType := "int", name := "f", fv := none,
    arrPresent := false, itypePresent := false, itype := "" }

/-- The first Function variable of a set. -/
def exHighestFV : List CVar → Option FVConstraint
  | [] => none
  | ConstraintVariable.FV f :: _ => some f
  | ConstraintVariable.PV _ :: rest => exHighestFV rest

/-- The first Pointer variable of a set. -/
def exHighestPV : List InnerCVar → Option PVConstraint
  | [] => none
  | ConstraintVariable.PV p :: _ => some p
  | ConstraintVariable.FV _ :: rest => exHighestPV rest

/-- Definition of `int **f(void)` in `b.c`, return slots 3 and 4. -/
def exSubDefn : FVConstraint :=
  { name := "f", returnVars := [ConstraintVariable.PV (exRetChain [3, 4])], paramVars := [],
    hasBody := true, hasProtoType := true }

/-- Declaration of `int **f(void)` in `a.h`, return slots 1 and 2. -/
def exSubDecl : FVConstraint :=
  { name := "f", returnVars := [ConstraintVariable.PV (exRetChain [1, 2])], paramVars := [],
    hasBody := false, hasProtoType := true }

/-- The function `f` is declared in `a.h` and defined in `b.c`; the solver has
made the outermost return slot of the definition Wild and left the rest at Ptr. -/
def exSubtypingCtx : SubtypingCtx :=
  { FuncDefnVarMap := [("b.c:5:f", [ConstraintVariable.FV exSubDefn])],
    FuncDefnDeclKeyMap := [("b.c:5:f", "a.h:1:f")],
    FuncDeclVarMap := [("a.h:1:f", [ConstraintVariable.FV exSubDecl])],
    OnDemandFuncDeclConstraint := [],
    env := fun k => if k = 3 then ConstAtom.Wild else ConstAtom.Ptr,
    highestFV := exHighestFV,
    highestPV := exHighestPV,
    highestNonWild := fun _ => none,
    argumentConstraints := fun _ => [] }

/-- Parameter `int *p` with the slot `k`. -/
def exParamOf (k : ConstraintKey) : PVConstraint :=
  { vars := [k], baseType := "int", name := "p", fv := none,
    arrPresent := false, itypePresent := false, itype := "" }

/-- Return variable of a function returning `void`: no slot. -/
def exVoidRet : InnerCVar :=
  ConstraintVariable.PV
    { vars := [], baseType := "void", name := "f", fv := none,
      arrPresent := false, itypePresent := false, itype := "" }

/-- Definition of `void f(int *p)`, parameter slot 2. -/
def exParamDefn : FVConstraint :=
  { name := "f", returnVars := [exVoidRet], paramVars := [[ConstraintVariable.PV (exParamOf 2)]],
    hasBody := true, hasProtoType := true }

/-- Declaration of `void f(int *p)`, parameter slot 1. -/
def exParamDecl : FVConstraint :=
  { name := "f", returnVars := [exVoidRet], paramVars := [[ConstraintVariable.PV (exParamOf 1)]],
    hasBody := false, hasProtoType := true }

/-- The function `f` is declared in `a.h` and defined in `b.c`; the solver has
made the parameter of the definition Arr and that of the declaration Ptr. -/
def exParamCtx : SubtypingCtx :=
  { FuncDefnVarMap := [("b.c:5:f", [ConstraintVariable.FV exParamDefn])],
    FuncDefnDeclKeyMap := [("b.c:5:f", "a.h:1:f")],
    FuncDeclVarMap := [("a.h:1:f", [ConstraintVariable.FV exParamDecl])],
    OnDemandFuncDeclConstraint := [],
    env := fun k => if k = 2 then ConstAtom.Arr else ConstAtom.Ptr,
    highestFV := exHighestFV,
    highestPV := exHighestPV,
    highestNonWild := fun _ => none,
    argumentConstraints := fun _ => [] }

/-- The maps of `exSubtypingCtx` after the constraints of a first pass were
added and solved: the four return slots of `f` are Wild. -/
def exSolvedCtx : SubtypingCtx :=
  { exSubtypingCtx with env := fun k => if 1 ≤ k ∧ k ≤ 4 then ConstAtom.Wild else ConstAtom.Ptr }

/-- Every constraint variable is solved to a checked type. -/
def exSolvedChecked : CVar → Bool := fun _ => true

/-- Every constraint variable has an itype. -/
def exHasItype : CVar → Bool := fun _ => true

/-- Any two constraint variables have the same solution. -/
def exSameSolution : CVar → CVar → Bool := fun _ _ => true

/-- The constraint `Geq(k, Wild)` that makes slot `k` WILD. -/
def exGeqWild (k : ConstraintKey) : Constraint :=
  { kind := ConstraintKind.Geq, lhs := Atom.var k, rhs := getWild, reason := "unsafe cast",
    sourceFileName := "a.c", lineNo := 3, colStart := 1 }

/-- An interface state: the constraints of `exConstraints`, the lower bound that
makes slot 2 WILD, and the record computed earlier. -/
def exInterface : InterfaceState :=
  { constraints := exConstraints ++ [exGeqWild 2],
    environment := fun _ => ConstAtom.Wild,
    PtrDisjointSet := exDisjointSet,
    Variables := [] }

/-- A sanity check that accepts every environment. -/
def exSane : List Constraint → (ConstraintKey → ConstAtom) → Bool := fun _ _ => true

/-- A solver that leaves the environment as it finds it. -/
def exSolve : List Constraint → (ConstraintKey → ConstAtom) → (ConstraintKey → ConstAtom) :=
  fun _ environment => environment

/-- Every file may be written. -/
def exCanWrite : String → Bool := fun _ => true

/-- Function variable of `int *name(int *, ...)` with return slot `k` and one
parameter for every slot of `ps`, with a prototype. -/
def exFunN (name : String) (k : ConstraintKey) (ps : List ConstraintKey) (body : Bool) :
    FVConstraint :=
  { name := name, returnVars := [exRet k], paramVars := ps.map (fun p => [exParam [p]]),
    hasBody := body, hasProtoType := true }

/-- The function `f` is declared once and defined once; the function `g` is
declared twice with one parameter, once with two parameters, and defined with
two.  In both sets the definition comes last. -/
def exArityGap : ProgramInfo :=
  { Variables :=
      [(exLoc "f.h", [ConstraintVariable.FV (exFunN "f" 1 [] false)]),
       (exLoc "f.c", [ConstraintVariable.FV (exFunN "f" 2 [] true)]),
       (exLoc "g.h", [ConstraintVariable.FV (exFunN "g" 3 [4] false)]),
       (exLoc "g1.c", [ConstraintVariable.FV (exFunN "g" 5 [6] false)]),
       (exLoc "g2.c", [ConstraintVariable.FV (exFunN "g" 7 [8, 9] false)]),
       (exLoc "g.c", [ConstraintVariable.FV (exFunN "g" 10 [11, 12] true)])],
    GlobalVariableSymbols := [],
    GlobalFunctionSymbols :=
      [("f", [exFunN "f" 1 [] false, exFunN "f" 2 [] true]),
       ("g", [exFunN "g" 3 [4] false, exFunN "g" 5 [6] false, exFunN "g" 7 [8, 9] false,
              exFunN "g" 10 [11, 12] true])],
    ExternFunctions := [("f", true), ("g", true)],
    seperateMultipleFuncDecls := false }

/-- The calls `link` makes on `exArityGap`. -/
def exArityGapTrace : List LinkAction :=
  [LinkAction.constrainEqSets [exRet 3] [exRet 5],
   LinkAction.constrainEqSets [exParam [4]] [exParam [6]],
   LinkAction.constrainEqSets [exRet 5] [exRet 5],
   LinkAction.constrainEqSets [exParam [6]] [exParam [6]],
   LinkAction.constrainEqSets [exRet 7] [exRet 7],
   LinkAction.constrainEqSets [exParam [8]] [exParam [8]],
   LinkAction.constrainEqSets [exParam [9]] [exParam [9]]]

/-- A program in which every function has a single declaration: a function
with a body is its own definition, one without is its own declaration. -/
def exAstEnv : AstEnv :=
  { getDeclaration := fun FD => if FD.hasBodyDefinition then none else some FD,
    getDefinition := fun FD => if FD.hasBodyDefinition then some FD else none,
    mkPV := fun _ k =>
      ({ vars := [k], baseType := "int", name := "p", fv := none,
         arrPresent := false, itypePresent := false, itype := "" }, k + 1),
    mkFV := fun _ k =>
      ({ name := "f", returnVars := [exRet k], paramVars := [], hasBody := false,
         hasProtoType := true }, k + 1),
    deref := fun _ => FVConstraint.nullary,
    declKindName := fun _ => "Var",
    pslValid := fun _ => true }

/-- The store before any declaration is seen. -/
def exEmptyStore : StoreState :=
  { persisted := false, freeKey := 0, Variables := [], OnDemandFuncDeclConstraint := [],
    FuncDeclVarMap := [], FuncDefnVarMap := [], FuncDefnDeclMap := [], calls := [] }

/-- A variable `int *p` declared inside a macro expansion. -/
def exMacroVar : Decl :=
  Decl.Var { id := 1, psl := exLoc "a.c", isPointerType := true, isArrayType := false,
             isFunctionType := false, isRewritable := false }

/-- The declaration `int *f(void)` without a body. -/
def exFunctionDecl : FunctionDecl :=
  { id := 2, name := "f", psl := exLoc "a.c", params := [], hasBodyDefinition := false,
    isGlobal := true, isPointerType := false, isArrayType := false, isFunctionType := true,
    isRewritable := true }

/-- The store once the declaration of `f` is entered. -/
def exFunctionStore : StoreState :=
  { persisted := false, freeKey := 2,
    Variables := [(exLoc "a.c", [ConstraintVariable.FV (exDecl 1)])],
    OnDemandFuncDeclConstraint := [], FuncDeclVarMap := [("a.c:1:f", [ConstraintVariable.FV (exDecl 1)])],
    FuncDefnVarMap := [], FuncDefnDeclMap := [], calls := [] }

/-- The type `int`. -/
def exInt : QualType :=
  QualType.other 0 { id := 1, isScalarType := true, isCharType := false, isIntegerType := true,
                     isFloatingType := false, canonicalPointerLevels := 0 }

/-- The type `char`. -/
def exChar : QualType :=
  QualType.other 0 { id := 2, isScalarType := true, isCharType := true, isIntegerType := true,
                     isFloatingType := false, canonicalPointerLevels := 0 }

/-- The type `IP` of `typedef int *IP;`: a typedef node, which is a scalar type
and neither a character, an integer nor a floating type. -/
def exTypedefIP : QualType :=
  QualType.other 0 { id := 3, isScalarType := true, isCharType := false, isIntegerType := false,
                     isFloatingType := false, canonicalPointerLevels := 1 }

/-- The type `IPP` of `typedef int **IPP;`. -/
def exTypedefIPP : QualType :=
  QualType.other 0 { id := 4, isScalarType := true, isCharType := false, isIntegerType := false,
                     isFloatingType := false, canonicalPointerLevels := 2 }

/-- An assignment in which slot 2 is solved to Arr and every other slot to Ptr. -/
def exArrAtTwo : ConstraintKey → ConstAtom := fun k => if k = 2 then ConstAtom.Arr else ConstAtom.Ptr

/-- The three declarations of `g` of `exGapCarried` and its definition, in a
program that has no other function. -/
def exGAlone : ProgramInfo :=
  { Variables :=
      [(exLoc "g.h", [ConstraintVariable.FV (exFun "g" 3 false)]),
       (exLoc "g1.c", [ConstraintVariable.FV (exFun "g" 4 false)]),
       (exLoc "g2.c", [ConstraintVariable.FV (exFun "g" 5 false)]),
       (exLoc "g.c", [ConstraintVariable.FV (exFun "g" 6 true)])],
    GlobalVariableSymbols := [],
    GlobalFunctionSymbols :=
      [("g", [exFun "g" 3 false, exFun "g" 4 false, exFun "g" 5 false, exFun "g" 6 true])],
    ExternFunctions := [("g", true)],
    seperateMultipleFuncDecls := false }

/-- The declaration of `f` in the header `f.h` and its definition in `f.c`. -/
def exSeenDecl (file : String) (body : Bool) : FunctionDecl :=
  { id := 0, name := "f", psl := exLoc file, params := [], hasBodyDefinition := body,
    isGlobal := true, isPointerType := false, isArrayType := false, isFunctionType := true,
    isRewritable := true }

/-- A program state before any function is seen: the variable store holds the
Function variables of the declaration and of the definition of `f`. -/
def exBeforeSeen : ProgramInfo :=
  { Variables :=
      [(exLoc "f.c", [ConstraintVariable.FV (exFun "f" 2 true)]),
       (exLoc "f.h", [ConstraintVariable.FV (exFun "f" 1 false)])],
    GlobalVariableSymbols := [],
    GlobalFunctionSymbols := [],
    ExternFunctions := [],
    seperateMultipleFuncDecls := false }

/-- The declaration `int **p` of a variable. -/
def exPtrPtrVar : Decl :=
  Decl.Var { id := 3, psl := exLoc "p.c", isPointerType := true, isArrayType := false,
             isFunctionType := false, isRewritable := true }

/-- The store that holds the Pointer variable of `int **p` with the slots 4 and 7. -/
def exPtrPtrStore : StoreState :=
  { persisted := false, freeKey := 8,
    Variables := [(exLoc "p.c", [ConstraintVariable.PV (exRetChain [4, 7])])],
    OnDemandFuncDeclConstraint := [], FuncDeclVarMap := [], FuncDefnVarMap := [],
    FuncDefnDeclMap := [], calls := [] }

/-- Leaders and groups agree, but slot 2 keys a group while slot 3 leads it: the
leaders are no representatives. -/
def exNoRepresentatives : DisjointSet :=
  { leaders := [(1, 2), (2, 3), (3, 3)],
    groups := [(2, [1]), (3, [2, 3])],
    realWildPtrsWithReasons := [(2, WildPointerInferenceInfo.fresh)],
    PtrSourceMap := [],
    allWildPtrs := [],
    totalNonDirectWildPointers := [],
    validSourceFiles := [] }

/-- The store once the variable of `f` is asked for before a declaration of `f`
is entered. -/
def exOnDemandStore : StoreState :=
  { persisted := false, freeKey := 1, Variables := [],
    OnDemandFuncDeclConstraint :=
      [(getUniqueFuncKey exAstEnv exFunctionDecl,
        [ConstraintVariable.FV (exAstEnv.mkFV (Decl.Function exFunctionDecl) 0).1])],
    FuncDeclVarMap :=
      [(getUniqueFuncKey exAstEnv exFunctionDecl,
        [ConstraintVariable.FV (exAstEnv.mkFV (Decl.Function exFunctionDecl) 0).1])],
    FuncDefnVarMap := [], FuncDefnDeclMap := [], calls := [] }

theorem chainLoop_eq_zipWith {α : Type} (emit : α → α → LinkAction) (Is Js : List α) :
    chainLoop emit Is Js = List.zipWith emit Is Js := by
  induction Is generalizing Js with
  | nil => cases Js <;> simp [chainLoop]
  | cons i Is ih =>
    cases Js with
    | nil => simp [chainLoop]
    | cons j Js => simp [chainLoop, ih]

theorem chainSet_eq_zipWith {α : Type} (emit : α → α → LinkAction) (C : List α) :
    chainSet emit C = List.zipWith emit C C.tail := by
  unfold chainSet
  split
  · exact chainLoop_eq_zipWith emit C C.tail
  · rename_i h
    match C, h with
    | [], _ => simp
    | [a], _ => simp
    | a :: b :: t, h => simp at h

theorem chainSet_cons_cons {α : Type} (emit : α → α → LinkAction) (a b : α) (t : List α) :
    chainSet emit (a :: b :: t) = emit a b :: chainSet emit (b :: t) := by
  simp [chainSet_eq_zipWith]

theorem zipWith_tail_length {α β : Type} (f : α → α → β) (C : List α) :
    (List.zipWith f C C.tail).length = C.length - 1 := by
  simp [List.length_zipWith]

theorem zipWith_tail_getElem? {α β : Type} (f : α → α → β) (C : List α) (k : Nat)
    (h : k + 1 < C.length) :
    (List.zipWith f C C.tail)[k]? = some (f (C.get ⟨k, Nat.lt_of_succ_lt h⟩) (C.get ⟨k + 1, h⟩)) := by
  induction C generalizing k with
  | nil => simp at h
  | cons a t ih =>
    cases t with
    | nil => simp at h
    | cons b t =>
      cases k with
      | zero => simp
      | succ k =>
        have h2 : k + 1 < (b :: t).length := by simpa using h
        simpa using ih k h2

/-- All members of a set are connected by the equalities of its chain. -/
theorem zipWith_tail_linked {α β : Type} (f : α → α → β) (C : List α) :
    ∀ x ∈ C, ∀ y ∈ C, Relation.EqvGen (fun a b => f a b ∈ List.zipWith f C C.tail) x y := by
  induction C with
  | nil => intro x hx; simp at hx
  | cons a t ih =>
    cases t with
    | nil =>
      intro x hx y hy
      simp at hx hy
      subst hx; subst hy
      exact Relation.EqvGen.refl _
    | cons b t =>
      have hmono : ∀ x y, Relation.EqvGen (fun u v => f u v ∈ List.zipWith f (b :: t) (b :: t).tail) x y →
          Relation.EqvGen (fun u v => f u v ∈ List.zipWith f (a :: b :: t) (a :: b :: t).tail) x y := by
        intro x y hxy
        refine Relation.EqvGen.mono ?_ hxy
        intro u v huv
        simp only [List.tail_cons, List.zipWith_cons_cons, List.mem_cons]
        exact Or.inr huv
      have hab : Relation.EqvGen (fun u v => f u v ∈ List.zipWith f (a :: b :: t) (a :: b :: t).tail) a b := by
        apply Relation.EqvGen.rel
        simp
      have hb : b ∈ b :: t := List.mem_cons_self _ _
      have hto : ∀ x ∈ a :: b :: t,
          Relation.EqvGen (fun u v => f u v ∈ List.zipWith f (a :: b :: t) (a :: b :: t).tail) x b := by
        intro x hx
        rcases List.mem_cons.mp hx with rfl | hx
        · exact hab
        · exact hmono _ _ (ih x hx b hb)
      intro x hx y hy
      exact Relation.EqvGen.trans _ _ _ (hto x hx) (Relation.EqvGen.symm _ _ (hto y hy))

/-- A valuation that respects the generating relation is constant on connected elements. -/
theorem eqvGen_respects {α β : Type} (r : α → α → Prop) (σ : α → β)
    (hσ : ∀ a b, r a b → σ a = σ b) {x y : α} (h : Relation.EqvGen r x y) : σ x = σ y := by
  induction h with
  | rel a b hab => exact hσ a b hab
  | refl a => rfl
  | symm a b _ ih => exact ih.symm
  | trans a b c _ _ ih1 ih2 => exact ih1.trans ih2

/-! ## Shape of the trace of `link` -/

theorem link_eq_some (st : ProgramInfo) (tr : List LinkAction) (hl : link st = some tr) :
    ∃ e, linkExternFunctions st.GlobalFunctionSymbols st.ExternFunctions = some e ∧
      tr = linkVariables st.Variables ++ linkGlobalVariables st.GlobalVariableSymbols
        ++ linkGlobalFunctions st ++ e := by
  unfold link at hl
  split at hl
  · simp at hl
  · rename_i e he
    exact ⟨e, he, by simpa using hl.symm⟩

theorem mem_link_of_mem_linkVariables (st : ProgramInfo) (tr : List LinkAction)
    (hl : link st = some tr) (a : LinkAction) (ha : a ∈ linkVariables st.Variables) : a ∈ tr := by
  obtain ⟨e, _, rfl⟩ := link_eq_some st tr hl
  simp [ha]

theorem mem_link_of_mem_linkGlobalVariables (st : ProgramInfo) (tr : List LinkAction)
    (hl : link st = some tr) (a : LinkAction)
    (ha : a ∈ linkGlobalVariables st.GlobalVariableSymbols) : a ∈ tr := by
  obtain ⟨e, _, rfl⟩ := link_eq_some st tr hl
  simp [ha]

theorem mem_link_of_mem_linkGlobalFunctions (st : ProgramInfo) (tr : List LinkAction)
    (hl : link st = some tr) (a : LinkAction) (ha : a ∈ linkGlobalFunctions st) : a ∈ tr := by
  obtain ⟨e, _, rfl⟩ := link_eq_some st tr hl
  simp [ha]

/-! ## The merging loop -/

/-- The calls made for the set of one name are among the calls of the whole loop. -/
theorem mergeAll_mem (name : String) (P : List FVConstraint) (gfs : List (String × List FVConstraint))
    (hmem : (name, P) ∈ gfs) (g0 : Bool) :
    ∃ gap, ∀ a ∈ (mergeSet gap P).1, a ∈ mergeAll g0 gfs := by
  induction gfs generalizing g0 with
  | nil => simp at hmem
  | cons S rest ih =>
    rcases List.mem_cons.mp hmem with h | h
    · refine ⟨g0, ?_⟩
      intro a ha
      subst h
      simp only [mergeAll, List.mem_append]
      exact Or.inl ha
    · obtain ⟨gap, hg⟩ := ih h (mergeSet g0 S.2).2
      refine ⟨gap, ?_⟩
      intro a ha
      simp only [mergeAll, List.mem_append]
      exact Or.inr (hg a ha)

theorem mergeSet_pair_no_body (gap : Bool) (P1 P2 : FVConstraint) (hb2 : P2.hasBody = false) :
    ∀ a ∈ mergePair P1 P2, a ∈ (mergeSet gap [P1, P2]).1 := by
  intro a ha
  cases gap <;> simp [mergeSet, mergeLoop, hb2, ha]

theorem constrainToFV_not_mem_constrainParams (P1 P2 f : FVConstraint) (c : Atom) (r : String) :
    LinkAction.constrainToFV f c r ∉ constrainParams P1 P2 := by
  simp [constrainParams]

theorem mergeSet_pair_body (gap : Bool) (P1 P2 : FVConstraint)
    (hb : P1.hasBody = true ∨ P2.hasBody = true) (f : FVConstraint) (c : Atom) (r : String) :
    LinkAction.constrainToFV f c r ∉ (mergeSet gap [P1, P2]).1 := by
  rcases hb with hb | hb
  · cases h2 : P2.hasBody <;> cases gap <;>
      simp [mergeSet, mergeLoop, mergePair, hb, h2, constrainParams]
  · simp [mergeSet, mergeLoop, hb]

/-! ## The loop over unresolved external functions -/

/-- C1, evaluated where it fails: the set of `f` holds a declaration, two
definitions and two more declarations, in this order.  The only call of the
merging step equates the return sets of the first and the fourth member; the
return set of the fifth, a declaration without a body, is in no equality, so it
is not connected to that of the fourth. -/
theorem link_two_bodies_leave_declaration_unlinked :
    link exTwoBodies = some [LinkAction.constrainEqSets [exRet 1] [exRet 4]] ∧
    (exDecl 4).hasBody = false ∧ (exDecl 5).hasBody = false ∧
    ¬ Relation.EqvGen
        (fun A B => LinkAction.constrainEqSets A B ∈ [LinkAction.constrainEqSets [exRet 1] [exRet 4]])
        (exDecl 4).returnVars (exDecl 5).returnVars := by
  refine ⟨?_, rfl, rfl, ?_⟩
  · simp [link, exTwoBodies, linkExternFunctions, linkExternEntry, linkVariables,
      linkGlobalVariables, linkGlobalFunctions, mergeAll, mergeSet, mergeLoop, mergePair, chainSet,
      exDecl, exDefn, constrainParams, FVConstraint.numParams]
  · intro h
    have hσ := eqvGen_respects
      (fun A B => LinkAction.constrainEqSets A B ∈ [LinkAction.constrainEqSets [exRet 1] [exRet 4]])
      (fun A => decide (A = [exRet 5]))
      (by
        intro a b hab
        simp only [List.mem_singleton, LinkAction.constrainEqSets.injEq] at hab
        obtain ⟨rfl, rfl⟩ := hab
        decide) h
    revert hσ
    decide

/-- The merging loop with one definition per function: the set of `f` ends with
its definition, which leaves `gap` set when the set of `g` is entered.  There
the second pass compares the second declaration of `g` with itself, and so does
every later pass: the third declaration of `g` is equated with nothing but
itself. -/
theorem link_gap_carried_over_leaves_declaration_unlinked :
    link exGapCarried =
      some [LinkAction.constrainEqSets (exFun "g" 3 false).returnVars (exFun "g" 4 false).returnVars,
            LinkAction.constrainEqSets (exFun "g" 4 false).returnVars (exFun "g" 4 false).returnVars,
            LinkAction.constrainEqSets (exFun "g" 5 false).returnVars (exFun "g" 5 false).returnVars] ∧
    ¬ Relation.EqvGen
        (fun A B => LinkAction.constrainEqSets A B ∈
          [LinkAction.constrainEqSets (exFun "g" 3 false).returnVars (exFun "g" 4 false).returnVars,
           LinkAction.constrainEqSets (exFun "g" 4 false).returnVars (exFun "g" 4 false).returnVars,
           LinkAction.constrainEqSets (exFun "g" 5 false).returnVars (exFun "g" 5 false).returnVars])
        (exFun "g" 4 false).returnVars (exFun "g" 5 false).returnVars := by
  constructor
  · simp [link, exGapCarried, linkExternFunctions, linkExternEntry, linkVariables,
      linkGlobalVariables, linkGlobalFunctions, mergeAll, mergeSet, mergeLoop, mergePair, chainSet,
      exFun, constrainParams, FVConstraint.numParams]
  · intro h
    have hσ := eqvGen_respects _ (fun A => decide (A = (exFun "g" 5 false).returnVars))
      (by
        intro a b hab
        simp only [List.mem_cons, List.mem_singleton, LinkAction.constrainEqSets.injEq,
          List.not_mem_nil, or_false] at hab
        rcases hab with ⟨rfl, rfl⟩ | ⟨rfl, rfl⟩ | ⟨rfl, rfl⟩ <;> decide) h
    revert hσ
    decide

/-- C2 as stated fails: `f` is declared with one parameter in `a.c` and defined
with two in `b.c`, both with a prototype, and `link` makes no call at all,
whichever of the two the set of `f` visits first. -/
theorem link_declaration_definition_arity_mismatch_no_call :
    exProtoDecl.hasBody = false ∧ exProtoDecl.hasProtoType = true ∧
    exProtoDefn.hasBody = true ∧ exProtoDefn.hasProtoType = true ∧
    exProtoDecl.numParams ≠ exProtoDefn.numParams ∧
    link (exDeclDefn true) = some [] ∧ link (exDeclDefn false) = some [] := by
  refine ⟨rfl, rfl, rfl, rfl, by decide, ?_, ?_⟩
  · simp [link, exDeclDefn, linkExternFunctions, linkExternEntry, linkVariables, linkGlobalVariables,
      linkGlobalFunctions, mergeAll, mergeSet, mergeLoop, chainSet, exProtoDecl, exProtoDefn]
  · simp [link, exDeclDefn, linkExternFunctions, linkExternEntry, linkVariables, linkGlobalVariables,
      linkGlobalFunctions, mergeAll, mergeSet, mergeLoop, mergePair, chainSet, exProtoDecl, exProtoDefn]

/-- C2, amended: when the two members of the set of a name both have a prototype
and their parameter counts differ, `link` constrains both Function variables to
Wild if neither has a body; if one of them has a body the merging step makes no
call that constrains a Function variable to Wild. -/
theorem link_arity_mismatch (st : ProgramInfo) (name : String) (P1 P2 : FVConstraint)
    (tr : List LinkAction)
    (hmem : (name, [P1, P2]) ∈ st.GlobalFunctionSymbols)
    (hsep : st.seperateMultipleFuncDecls = false)
    (hp1 : P1.hasProtoType = true) (hp2 : P2.hasProtoType = true)
    (hn : P1.numParams ≠ P2.numParams)
    (hl : link st = some tr) :
    (P1.hasBody = false → P2.hasBody = false →
      LinkAction.constrainToFV P1 getWild ("Return value of function:" ++ P1.name) ∈ tr ∧
      LinkAction.constrainToFV P2 getWild ("Return value of function:" ++ P1.name) ∈ tr) ∧
    ((P1.hasBody = true ∨ P2.hasBody = true) →
      ∀ gap f c r, LinkAction.constrainToFV f c r ∉ (mergeSet gap [P1, P2]).1) := by
  constructor
  · intro hb1 hb2
    obtain ⟨gap, hgap⟩ := mergeAll_mem name [P1, P2] st.GlobalFunctionSymbols hmem false
    have hsub : ∀ a ∈ mergePair P1 P2, a ∈ tr := by
      intro a ha
      apply mem_link_of_mem_linkGlobalFunctions st tr hl
      simp only [linkGlobalFunctions, hsep, Bool.not_false, if_true]
      exact hgap a (mergeSet_pair_no_body gap P1 P2 hb2 a ha)
    constructor
    · apply hsub
      simp [mergePair, hb1, hb2, hn, hp1, hp2]
    · apply hsub
      simp [mergePair, hb1, hb2, hn, hp1, hp2]
  · intro hb gap f c r
    exact mergeSet_pair_body gap P1 P2 hb f c r

theorem link_exDeclDecl : link exDeclDecl = some exDeclDeclTrace := by
  simp [link, exDeclDecl, exDeclDeclTrace, linkExternFunctions, linkExternEntry, linkVariables,
    linkGlobalVariables, linkGlobalFunctions, mergeAll, mergeSet, mergeLoop, mergePair, chainSet,
    exProtoDecl, exProtoDecl2, FVConstraint.numParams, isExternOkay, wildFunction, wildParam,
    FVConstraint.getParamVar, exParam, List.range, List.range.loop, List.lookup]

/-- C2, amended, at two declarations of `f` without a body. -/
theorem link_arity_mismatch_witness :
    link exDeclDecl = some exDeclDeclTrace ∧
    (LinkAction.constrainToFV exProtoDecl getWild ("Return value of function:" ++ exProtoDecl.name)
        ∈ exDeclDeclTrace ∧
      LinkAction.constrainToFV exProtoDecl2 getWild ("Return value of function:" ++ exProtoDecl.name)
        ∈ exDeclDeclTrace) :=
  ⟨link_exDeclDecl,
   (link_arity_mismatch exDeclDecl "f" exProtoDecl exProtoDecl2 exDeclDeclTrace
      (by simp [exDeclDecl]) rfl rfl rfl (by decide) link_exDeclDecl).1 rfl rfl⟩

/-- C4: the allow-list holds `malloc` and `free` and nothing else, and for a
symbol on it the loop over unresolved external functions makes no call, also
when no body was seen for it. -/
theorem isExternOkay_allow_list (name : String) :
    (isExternOkay name = true ↔ (name = "malloc" ∨ name = "free")) ∧
    (isExternOkay name = true →
      ∀ gfs flag, linkExternEntry gfs (name, flag) = some []) := by
  constructor
  · simp [isExternOkay]
  · intro h gfs flag
    simp [linkExternEntry, h]

/-- C4 at `malloc`, declared and never defined in `exExterns`. -/
theorem isExternOkay_allow_list_witness :
    isExternOkay "malloc" = true ∧
    linkExternEntry exExterns.GlobalFunctionSymbols ("malloc", false) = some [] :=
  ⟨by decide, (isExternOkay_allow_list "malloc").2 (by decide) exExterns.GlobalFunctionSymbols false⟩

/-- C5: the Pointer variables recorded for one global variable name are all
connected by equalities that `link` issues, so every valuation that gives the
two sides of each issued equality the same value gives any two of them the same
value. -/
theorem link_global_variable_linked {β : Type} (st : ProgramInfo) (name : String)
    (C : List PVConstraint) (tr : List LinkAction)
    (hmem : (name, C) ∈ st.GlobalVariableSymbols) (hl : link st = some tr)
    (x y : PVConstraint) (hx : x ∈ C) (hy : y ∈ C) :
    Relation.EqvGen
      (fun a b => LinkAction.constrainEq (ConstraintVariable.PV a) (ConstraintVariable.PV b) ∈ tr) x y ∧
    ∀ σ : PVConstraint → β,
      (∀ a b, LinkAction.constrainEq (ConstraintVariable.PV a) (ConstraintVariable.PV b) ∈ tr → σ a = σ b) →
      σ x = σ y := by
  have hlink : Relation.EqvGen
      (fun a b => LinkAction.constrainEq (ConstraintVariable.PV a) (ConstraintVariable.PV b) ∈ tr) x y := by
    refine Relation.EqvGen.mono ?_
      (zipWith_tail_linked
        (fun a b => LinkAction.constrainEq (ConstraintVariable.PV a) (ConstraintVariable.PV b)) C x hx y hy)
    intro a b hab
    apply mem_link_of_mem_linkGlobalVariables st tr hl
    simp only [linkGlobalVariables]
    refine List.mem_flatMap.mpr ⟨(name, C), hmem, ?_⟩
    rw [chainSet_eq_zipWith]
    exact hab
  exact ⟨hlink, fun σ hσ => eqvGen_respects _ σ hσ hlink⟩

theorem link_exGlobals : link exGlobals = some exGlobalsTrace := by
  simp [link, exGlobals, exGlobalsTrace, linkExternFunctions, linkVariables, linkGlobalVariables,
    linkGlobalFunctions, mergeAll, chainSet, chainLoop]

/-- C5 at the first and the last declaration of `g` in `exGlobals`. -/
theorem link_global_variable_linked_witness :
    (("g", [exGlobal 1, exGlobal 2, exGlobal 3]) ∈ exGlobals.GlobalVariableSymbols ∧
      link exGlobals = some exGlobalsTrace) ∧
    (Relation.EqvGen
      (fun a b => LinkAction.constrainEq (ConstraintVariable.PV a) (ConstraintVariable.PV b)
        ∈ exGlobalsTrace) (exGlobal 1) (exGlobal 3) ∧
    ∀ σ : PVConstraint → ConstAtom,
      (∀ a b, LinkAction.constrainEq (ConstraintVariable.PV a) (ConstraintVariable.PV b)
        ∈ exGlobalsTrace → σ a = σ b) →
      σ (exGlobal 1) = σ (exGlobal 3)) :=
  ⟨⟨by simp [exGlobals], link_exGlobals⟩,
   link_global_variable_linked exGlobals "g" [exGlobal 1, exGlobal 2, exGlobal 3] exGlobalsTrace
    (by simp [exGlobals]) link_exGlobals (exGlobal 1) (exGlobal 3) (by simp) (by simp)⟩

/-- C6: when `link` visits an identity of the variable store whose set `C` has
`n` members, the calls it makes there are the equalities of `C[k]` with
`C[k+1]` for `k = 0 .. n-2`, in this order and nothing else: `n - 1` calls,
none when `n ≤ 1`, and through them every two members of `C` are connected. -/
theorem link_same_identity_chain (st : ProgramInfo)
    (pre post : List (PersistentSourceLoc × List CVar)) (L : PersistentSourceLoc) (C : List CVar)
    (tr : List LinkAction)
    (hv : st.Variables = pre ++ (L, C) :: post) (hl : link st = some tr) :
    (∃ e, linkExternFunctions st.GlobalFunctionSymbols st.ExternFunctions = some e ∧
      tr = linkVariables pre ++ List.zipWith LinkAction.constrainEq C C.tail ++
        (linkVariables post ++ linkGlobalVariables st.GlobalVariableSymbols
          ++ linkGlobalFunctions st ++ e)) ∧
    (List.zipWith LinkAction.constrainEq C C.tail).length = C.length - 1 ∧
    (∀ k (h : k + 1 < C.length),
      (List.zipWith LinkAction.constrainEq C C.tail)[k]? =
        some (LinkAction.constrainEq (C.get ⟨k, Nat.lt_of_succ_lt h⟩) (C.get ⟨k + 1, h⟩))) ∧
    (∀ x ∈ C, ∀ y ∈ C, Relation.EqvGen (fun a b => LinkAction.constrainEq a b ∈ tr) x y) ∧
    (C.length ≤ 1 → List.zipWith LinkAction.constrainEq C C.tail = []) := by
  obtain ⟨e, he, htr⟩ := link_eq_some st tr hl
  have hlv : linkVariables st.Variables =
      linkVariables pre ++ List.zipWith LinkAction.constrainEq C C.tail ++ linkVariables post := by
    rw [hv]
    simp [linkVariables, chainSet_eq_zipWith]
  refine ⟨⟨e, he, ?_⟩, zipWith_tail_length _ C, zipWith_tail_getElem? _ C, ?_, ?_⟩
  · rw [htr, hlv]
    simp
  · intro x hx y hy
    refine Relation.EqvGen.mono ?_ (zipWith_tail_linked LinkAction.constrainEq C x hx y hy)
    intro a b hab
    apply mem_link_of_mem_linkVariables st tr hl
    rw [hlv]
    simp [hab]
  · intro hle
    match C, hle with
    | [], _ => simp
    | [a], _ => simp
    | a :: b :: t, h => simp at h

/-- C6 at the identity of `exGlobals` that holds two declarators. -/
theorem link_same_identity_chain_witness :
    (exGlobals.Variables =
        [] ++ (exLoc "a.c", [ConstraintVariable.PV (exGlobal 1), ConstraintVariable.PV (exGlobal 2)])
          :: [(exLoc "b.c", [ConstraintVariable.PV (exGlobal 3)])] ∧
      link exGlobals = some exGlobalsTrace) ∧
    (List.zipWith LinkAction.constrainEq
        [(ConstraintVariable.PV (exGlobal 1) : CVar), ConstraintVariable.PV (exGlobal 2)]
        [(ConstraintVariable.PV (exGlobal 1) : CVar), ConstraintVariable.PV (exGlobal 2)].tail).length
      = [(ConstraintVariable.PV (exGlobal 1) : CVar), ConstraintVariable.PV (exGlobal 2)].length - 1 :=
  ⟨⟨rfl, link_exGlobals⟩,
   (link_same_identity_chain exGlobals [] [(exLoc "b.c", [ConstraintVariable.PV (exGlobal 3)])]
      (exLoc "a.c") [ConstraintVariable.PV (exGlobal 1), ConstraintVariable.PV (exGlobal 2)]
      exGlobalsTrace rfl link_exGlobals).2.1⟩

/-! ## Ordered sets and maps -/

theorem mem_setInsert {α : Type} [LT α] [DecidableRel (fun a b : α => a < b)] [DecidableEq α]
    (s : List α) (a x : α) : x ∈ setInsert s a ↔ x = a ∨ x ∈ s := by
  induction s with
  | nil => simp [setInsert]
  | cons h t ih =>
    simp only [setInsert]
    split
    · simp
    · split
      · rename_i heq
        subst heq
        simp
      · simp only [List.mem_cons, ih]
        tauto

theorem mem_setInsertAll {α : Type} [LT α] [DecidableRel (fun a b : α => a < b)] [DecidableEq α]
    (S T : List α) (x : α) : x ∈ setInsertAll S T ↔ x ∈ S ∨ x ∈ T := by
  unfold setInsertAll
  induction T generalizing S with
  | nil => simp
  | cons h t ih =>
    simp only [List.foldl_cons, ih, mem_setInsert, List.mem_cons]
    tauto

theorem KMap.find_set {β : Type} (m : KMap β) (k : ConstraintKey) (v : β) (k2 : ConstraintKey) :
    KMap.find (KMap.set m k v) k2 = if k2 = k then some v else KMap.find m k2 := by
  induction m with
  | nil =>
    simp only [KMap.set, KMap.find]
    by_cases h : k = k2 <;> simp [h, eq_comm]
  | cons p rest ih =>
    obtain ⟨k1, v1⟩ := p
    simp only [KMap.set]
    split
    · simp only [KMap.find]
      by_cases h : k = k2
      · simp [h]
      · have h2 : ¬ k2 = k := fun e => h e.symm
        simp [h, h2]
    · split
      · rename_i heq
        subst heq
        simp only [KMap.find]
        by_cases h : k = k2
        · simp [h]
        · have h2 : ¬ k2 = k := fun e => h e.symm
          simp [h, h2]
      · rename_i hne
        simp only [KMap.find, ih]
        by_cases h : k1 = k2
        · have h2 : ¬ k2 = k := fun e => hne (by rw [← e, h])
          simp [h, h2]
        · simp [h]

theorem KMap.find_erase {β : Type} (m : KMap β) (k k2 : ConstraintKey) :
    KMap.find (KMap.erase m k) k2 = if k2 = k then none else KMap.find m k2 := by
  induction m with
  | nil => simp [KMap.erase, KMap.find]
  | cons p rest ih =>
    obtain ⟨k1, v1⟩ := p
    unfold KMap.erase at ih ⊢
    simp only [List.filter_cons]
    by_cases h1 : k1 = k
    · subst h1
      simp only [ne_eq, not_true_eq_false, decide_False, Bool.false_eq_true, if_false, ih, KMap.find]
      by_cases h : k2 = k1
      · simp [h]
      · have h2 : ¬ k1 = k2 := fun e => h e.symm
        simp [h, h2]
    · simp only [ne_eq, h1, not_false_eq_true, decide_True, if_true, KMap.find, ih]
      by_cases h : k1 = k2
      · have h2 : ¬ k2 = k := fun e => h1 (by rw [h, e])
        simp [h, h2]
      · simp [h]

theorem KMap.find_touch {β : Type} (m : KMap β) (k : ConstraintKey) (d : β) (k2 : ConstraintKey) :
    KMap.find (KMap.touch m k d) k2 =
      if k2 = k then some ((KMap.find m k).getD d) else KMap.find m k2 := by
  unfold KMap.touch
  split
  · rename_i h
    obtain ⟨v, hv⟩ := Option.isSome_iff_exists.mp h
    by_cases h2 : k2 = k
    · subst h2
      simp [hv]
    · simp [h2]
  · rename_i h
    have hn : KMap.find m k = none := by
      cases hf : KMap.find m k with
      | none => rfl
      | some v => simp [hf] at h
    rw [KMap.find_set]
    simp [hn]

theorem KMap.mem_of_find {β : Type} (m : KMap β) (k : ConstraintKey) (v : β)
    (h : KMap.find m k = some v) : (k, v) ∈ m := by
  induction m with
  | nil => simp [KMap.find] at h
  | cons p rest ih =>
    obtain ⟨k1, v1⟩ := p
    simp only [KMap.find] at h
    split at h
    · rename_i heq
      subst heq
      simp at h
      subst h
      simp
    · exact List.mem_cons_of_mem _ (ih h)

theorem KMap.find_isSome_of_mem {β : Type} (m : KMap β) (k : ConstraintKey) (v : β)
    (h : (k, v) ∈ m) : (KMap.find m k).isSome = true := by
  induction m with
  | nil => simp at h
  | cons p rest ih =>
    obtain ⟨k1, v1⟩ := p
    simp only [KMap.find]
    split
    · simp
    · rename_i hne
      rcases List.mem_cons.mp h with heq | hmem
      · simp at heq
        exact absurd heq.1.symm hne
      · exact ih hmem

theorem KMap.mem_keys_of_find {β : Type} (m : KMap β) (k : ConstraintKey)
    (h : (KMap.find m k).isSome = true) : k ∈ m.map Prod.fst := by
  obtain ⟨v, hv⟩ := Option.isSome_iff_exists.mp h
  exact List.mem_map.mpr ⟨(k, v), KMap.mem_of_find m k v hv, rfl⟩

theorem KMap.mem_set {β : Type} (m : KMap β) (k : ConstraintKey) (v : β) (p : ConstraintKey × β)
    (h : p ∈ KMap.set m k v) : p = (k, v) ∨ p ∈ m := by
  induction m with
  | nil => simpa [KMap.set] using h
  | cons q rest ih =>
    obtain ⟨k1, v1⟩ := q
    simp only [KMap.set] at h
    split at h
    · rcases List.mem_cons.mp h with h | h
      · exact Or.inl h
      · exact Or.inr h
    · split at h
      · rcases List.mem_cons.mp h with h | h
        · exact Or.inl h
        · exact Or.inr (List.mem_cons_of_mem _ h)
      · rcases List.mem_cons.mp h with h | h
        · exact Or.inr (by simp [h])
        · rcases ih h with h | h
          · exact Or.inl h
          · exact Or.inr (List.mem_cons_of_mem _ h)

theorem KMap.mem_erase {β : Type} (m : KMap β) (k : ConstraintKey) (p : ConstraintKey × β)
    (h : p ∈ KMap.erase m k) : p ∈ m ∧ p.1 ≠ k := by
  simpa [KMap.erase] using h

theorem KMap.mem_touch {β : Type} (m : KMap β) (k : ConstraintKey) (d : β) (p : ConstraintKey × β)
    (h : p ∈ KMap.touch m k d) : p = (k, d) ∨ p ∈ m := by
  unfold KMap.touch at h
  split at h
  · exact Or.inr h
  · exact KMap.mem_set m k d p h

theorem relabel_cons (k1 v1 : ConstraintKey) (rest : KMap ConstraintKey) (old r : ConstraintKey) :
    relabel ((k1, v1) :: rest) old r = (k1, if v1 = old then r else v1) :: relabel rest old r := by
  by_cases hv : v1 = old <;> simp [relabel, hv]

theorem find_relabel (m : KMap ConstraintKey) (old r x : ConstraintKey) :
    KMap.find (relabel m old r) x = (KMap.find m x).map (fun v => if v = old then r else v) := by
  induction m with
  | nil => simp [relabel, KMap.find]
  | cons p rest ih =>
    obtain ⟨k1, v1⟩ := p
    rw [relabel_cons]
    simp only [KMap.find, ih]
    split <;> simp

/-! ## The leader adjustment -/

theorem adjustLeader_of_none (ds : DisjointSet) (r : ConstraintKey)
    (h : KMap.find ds.leaders r = none) : adjustLeader ds r = ds := by
  simp [adjustLeader, h]

theorem isRealWild_false (ds : DisjointSet) (k : ConstraintKey) (h : ds.isRealWild k = false) :
    KMap.find ds.realWildPtrsWithReasons k = none := by
  unfold DisjointSet.isRealWild at h
  cases hf : KMap.find ds.realWildPtrsWithReasons k with
  | none => rfl
  | some v => simp [hf] at h

theorem adjustLeader_of_real (ds : DisjointSet) (r old : ConstraintKey)
    (h : KMap.find ds.leaders r = some old) (hreal : ds.isRealWild old = true) :
    adjustLeader ds r = ds := by
  unfold DisjointSet.isRealWild at hreal
  obtain ⟨v, hv⟩ := Option.isSome_iff_exists.mp hreal
  simp [adjustLeader, h, hv]

theorem adjustLeader_realWild (ds : DisjointSet) (r : ConstraintKey) :
    (adjustLeader ds r).realWildPtrsWithReasons = ds.realWildPtrsWithReasons := by
  unfold adjustLeader
  split
  · rfl
  · split <;> rfl

theorem adjustLeader_leaders (ds : DisjointSet) (r old : ConstraintKey)
    (h : KMap.find ds.leaders r = some old) (hreal : ds.isRealWild old = false) :
    (adjustLeader ds r).leaders = relabel ds.leaders old r := by
  simp [adjustLeader, h, isRealWild_false ds old hreal]

theorem adjustLeader_groups (ds : DisjointSet) (r old : ConstraintKey)
    (h : KMap.find ds.leaders r = some old) (hreal : ds.isRealWild old = false) (hne : old ≠ r)
    (l : ConstraintKey) :
    KMap.find (adjustLeader ds r).groups l =
      if l = old then none
      else if l = r then
        some (setInsert (setInsertAll ((KMap.find ds.groups r).getD [])
          ((KMap.find ds.groups old).getD [])) r)
      else KMap.find ds.groups l := by
  have hne2 : ¬ r = old := fun e => hne e.symm
  simp only [adjustLeader, h, isRealWild_false ds old hreal, Option.isNone_none, if_true,
    KMap.find_erase, KMap.find_set, KMap.find_touch, hne2, if_false, Option.getD_some]
  by_cases h1 : l = old
  · simp [h1]
  · by_cases h2 : l = r
    · simp [h1, h2]
    · simp [h1, h2]

theorem isRealWild_adjustLeader (ds : DisjointSet) (r k : ConstraintKey) :
    (adjustLeader ds r).isRealWild k = ds.isRealWild k := by
  simp [DisjointSet.isRealWild, adjustLeader_realWild]

theorem adjustLeader_consistent (ds : DisjointSet) (r : ConstraintKey)
    (hr : ds.isRealWild r = true) (hc : ds.Consistent) : (adjustLeader ds r).Consistent := by
  cases h : KMap.find ds.leaders r with
  | none => rw [adjustLeader_of_none ds r h]; exact hc
  | some old =>
    cases hreal : ds.isRealWild old with
    | true => rw [adjustLeader_of_real ds r old h hreal]; exact hc
    | false =>
      have hne : old ≠ r := by
        intro e
        rw [e, hr] at hreal
        exact Bool.noConfusion hreal
      intro x l
      rw [adjustLeader_leaders ds r old h hreal, find_relabel, adjustLeader_groups ds r old h hreal hne]
      constructor
      · intro hx
        cases hfx : KMap.find ds.leaders x with
        | none => simp [hfx] at hx
        | some v =>
          simp only [hfx, Option.map_some', Option.some.injEq] at hx
          obtain ⟨g, hg, hxg⟩ := (hc x v).mp hfx
          by_cases hv : v = old
          · simp only [hv, if_true] at hx
            subst hx
            subst hv
            refine ⟨setInsert (setInsertAll ((KMap.find ds.groups r).getD [])
              ((KMap.find ds.groups v).getD [])) r, by simp [hne.symm], ?_⟩
            simp [mem_setInsert, mem_setInsertAll, hg, hxg]
          · simp only [hv, if_false] at hx
            subst hx
            by_cases hvr : v = r
            · subst hvr
              refine ⟨setInsert (setInsertAll ((KMap.find ds.groups v).getD [])
                ((KMap.find ds.groups old).getD [])) v, by simp [hv], ?_⟩
              simp [mem_setInsert, mem_setInsertAll, hg, hxg]
            · exact ⟨g, by simp [hv, hvr, hg], hxg⟩
      · rintro ⟨g, hg, hxg⟩
        by_cases h1 : l = old
        · simp [h1] at hg
        · by_cases h2 : l = r
          · subst h2
            simp only [h1, if_false, if_true, Option.some.injEq] at hg
            subst hg
            simp only [mem_setInsert, mem_setInsertAll] at hxg
            rcases hxg with hxr | hxg | hxg
            · subst hxr
              simp [h]
            · cases hgr : KMap.find ds.groups l with
              | none => simp [hgr] at hxg
              | some g0 =>
                simp only [hgr, Option.getD_some] at hxg
                have := (hc x l).mpr ⟨g0, hgr, hxg⟩
                simp [this, h1]
            · cases hgo : KMap.find ds.groups old with
              | none => simp [hgo] at hxg
              | some g0 =>
                simp only [hgo, Option.getD_some] at hxg
                have := (hc x old).mpr ⟨g0, hgo, hxg⟩
                simp [this]
          · simp only [h1, h2, if_false] at hg
            have := (hc x l).mpr ⟨g, hg, hxg⟩
            simp [this, h1]

theorem adjustLeader_ledByReal (ds : DisjointSet) (r : ConstraintKey) (S : List ConstraintKey)
    (hr : ds.isRealWild r = true) (hS : LedByReal ds S) :
    LedByReal (adjustLeader ds r) (S ++ [r]) := by
  intro k hk l hl
  rw [isRealWild_adjustLeader]
  cases h : KMap.find ds.leaders r with
  | none =>
    rw [adjustLeader_of_none ds r h] at hl
    rcases List.mem_append.mp hk with hk | hk
    · exact hS k hk l hl
    · simp at hk
      subst hk
      simp [h] at hl
  | some old =>
    cases hreal : ds.isRealWild old with
    | true =>
      rw [adjustLeader_of_real ds r old h hreal] at hl
      rcases List.mem_append.mp hk with hk | hk
      · exact hS k hk l hl
      · simp at hk
        subst hk
        rw [h] at hl
        simp at hl
        subst hl
        exact hreal
    | false =>
      rw [adjustLeader_leaders ds r old h hreal, find_relabel] at hl
      cases hfk : KMap.find ds.leaders k with
      | none => simp [hfk] at hl
      | some v =>
        simp only [hfk, Option.map_some', Option.some.injEq] at hl
        by_cases hv : v = old
        · simp only [hv, if_true] at hl
          subst hl
          exact hr
        · simp only [hv, if_false] at hl
          subst hl
          rcases List.mem_append.mp hk with hk | hk
          · exact hS k hk v hfk
          · simp at hk
            subst hk
            rw [h] at hfk
            simp at hfk
            exact absurd hfk.symm hv

theorem foldl_adjustLeader (keys : List ConstraintKey) (ds : DisjointSet) (S : List ConstraintKey)
    (hkeys : ∀ k ∈ keys, ds.isRealWild k = true) (hc : ds.Consistent) (hS : LedByReal ds S) :
    (keys.foldl adjustLeader ds).realWildPtrsWithReasons = ds.realWildPtrsWithReasons ∧
    (keys.foldl adjustLeader ds).Consistent ∧ LedByReal (keys.foldl adjustLeader ds) (S ++ keys) := by
  induction keys generalizing ds S with
  | nil => simpa using ⟨hc, hS⟩
  | cons k rest ih =>
    have hk := hkeys k (List.mem_cons_self _ _)
    have h1 := adjustLeader_consistent ds k hk hc
    have h2 := adjustLeader_ledByReal ds k S hk hS
    have h3 : ∀ k2 ∈ rest, (adjustLeader ds k).isRealWild k2 = true := by
      intro k2 hk2
      rw [isRealWild_adjustLeader]
      exact hkeys k2 (List.mem_cons_of_mem _ hk2)
    obtain ⟨a, b, c⟩ := ih (adjustLeader ds k) (S ++ [k]) h3 h1 h2
    refine ⟨by rw [List.foldl_cons, a, adjustLeader_realWild], by simpa using b, ?_⟩
    simpa using c

/-! ## Union edges keep the groups consistent and connected -/

theorem getD_mem_of_find {ds : DisjointSet} {l x : ConstraintKey}
    (hx : x ∈ (KMap.find ds.groups l).getD []) :
    ∃ g, KMap.find ds.groups l = some g ∧ x ∈ g := by
  cases hf : KMap.find ds.groups l with
  | none => simp [hf] at hx
  | some g => exact ⟨g, rfl, by simpa [hf] using hx⟩

theorem conn_to_leader (cs : List Constraint) (ds : DisjointSet) (hc : ds.Consistent)
    (hg : GroupsConnected cs ds) (x l : ConstraintKey) (h : KMap.find ds.leaders x = some l) :
    Conn cs x l := by
  obtain ⟨g, hfg, hxg⟩ := (hc x l).mp h
  exact hg (l, g) (KMap.mem_of_find _ _ _ hfg) x hxg

theorem conn_of_getD (cs : List Constraint) (ds : DisjointSet)
    (hg : GroupsConnected cs ds) (x l : ConstraintKey)
    (hx : x ∈ (KMap.find ds.groups l).getD []) : Conn cs x l := by
  obtain ⟨g, hfg, hxg⟩ := getD_mem_of_find hx
  exact hg (l, g) (KMap.mem_of_find _ _ _ hfg) x hxg

theorem addElements_realWild (ds : DisjointSet) (a b : ConstraintKey) :
    (ds.addElements a b).realWildPtrsWithReasons = ds.realWildPtrsWithReasons ∧
    (ds.addElements a b).totalNonDirectWildPointers = ds.totalNonDirectWildPointers := by
  unfold DisjointSet.addElements
  split
  · split <;> exact ⟨rfl, rfl⟩
  · exact ⟨rfl, rfl⟩
  · exact ⟨rfl, rfl⟩
  · exact ⟨rfl, rfl⟩

theorem addElements_connected (cs : List Constraint) (ds : DisjointSet) (a b : ConstraintKey)
    (hab : Conn cs a b) (hc : ds.Consistent) (hg : GroupsConnected cs ds) :
    GroupsConnected cs (ds.addElements a b) := by
  unfold DisjointSet.addElements
  split
  · rename_i la lb hla hlb
    split
    · exact hg
    · intro p hp x hx
      obtain ⟨hp1, hp2⟩ := KMap.mem_erase _ _ _ hp
      rcases KMap.mem_set _ _ _ _ hp1 with hp3 | hp3
      · subst hp3
        simp only [mem_setInsertAll] at hx
        rcases hx with hx | hx
        · exact conn_of_getD cs ds hg x la hx
        · have h1 := conn_of_getD cs ds hg x lb hx
          have h2 := conn_to_leader cs ds hc hg a la hla
          have h3 := conn_to_leader cs ds hc hg b lb hlb
          exact Relation.EqvGen.trans _ _ _ h1
            (Relation.EqvGen.trans _ _ _ (Relation.EqvGen.symm _ _ h3)
              (Relation.EqvGen.trans _ _ _ (Relation.EqvGen.symm _ _ hab) h2))
      · exact hg p hp3 x hx
  · rename_i la hla hlb
    intro p hp x hx
    rcases KMap.mem_set _ _ _ _ hp with hp3 | hp3
    · subst hp3
      simp only [mem_setInsert] at hx
      rcases hx with hx | hx
      · subst hx
        exact Relation.EqvGen.trans _ _ _ (Relation.EqvGen.symm _ _ hab)
          (conn_to_leader cs ds hc hg a la hla)
      · exact conn_of_getD cs ds hg x la hx
    · exact hg p hp3 x hx
  · rename_i lb hla hlb
    intro p hp x hx
    rcases KMap.mem_set _ _ _ _ hp with hp3 | hp3
    · subst hp3
      simp only [mem_setInsert] at hx
      rcases hx with hx | hx
      · subst hx
        exact Relation.EqvGen.trans _ _ _ hab (conn_to_leader cs ds hc hg b lb hlb)
      · exact conn_of_getD cs ds hg x lb hx
    · exact hg p hp3 x hx
  · intro p hp x hx
    rcases KMap.mem_set _ _ _ _ hp with hp3 | hp3
    · subst hp3
      simp only [mem_setInsert] at hx
      rcases hx with hx | hx | hx
      · subst hx
        exact Relation.EqvGen.symm _ _ hab
      · subst hx
        exact Relation.EqvGen.refl _
      · exact conn_of_getD cs ds hg x a hx
    · exact hg p hp3 x hx

theorem addElements_consistent (ds : DisjointSet) (a b : ConstraintKey) (hc : ds.Consistent) :
    (ds.addElements a b).Consistent := by
  unfold DisjointSet.addElements
  split
  · rename_i la lb hla hlb
    split
    · exact hc
    · rename_i hne
      intro x l
      simp only [find_relabel, KMap.find_erase, KMap.find_set]
      constructor
      · intro hx
        cases hfx : KMap.find ds.leaders x with
        | none => simp [hfx] at hx
        | some v =>
          simp only [hfx, Option.map_some', Option.some.injEq] at hx
          obtain ⟨g, hgv, hxg⟩ := (hc x v).mp hfx
          by_cases hv : v = lb
          · simp only [hv, if_true] at hx
            subst hx
            subst hv
            refine ⟨setInsertAll ((KMap.find ds.groups la).getD []) ((KMap.find ds.groups v).getD []),
              by simp [hne], ?_⟩
            simp [mem_setInsertAll, hgv, hxg]
          · simp only [hv, if_false] at hx
            subst hx
            by_cases hvl : v = la
            · subst hvl
              refine ⟨setInsertAll ((KMap.find ds.groups v).getD []) ((KMap.find ds.groups lb).getD []),
                by simp [hv], ?_⟩
              simp [mem_setInsertAll, hgv, hxg]
            · exact ⟨g, by simp [hv, hvl, hgv], hxg⟩
      · rintro ⟨g, hgl, hxg⟩
        by_cases h1 : l = lb
        · simp [h1] at hgl
        · by_cases h2 : l = la
          · subst h2
            simp only [h1, if_false, if_true, Option.some.injEq] at hgl
            subst hgl
            simp only [mem_setInsertAll] at hxg
            rcases hxg with hxg | hxg
            · obtain ⟨g0, hg0, hx0⟩ := getD_mem_of_find hxg
              have := (hc x l).mpr ⟨g0, hg0, hx0⟩
              simp [this, h1]
            · obtain ⟨g0, hg0, hx0⟩ := getD_mem_of_find hxg
              have := (hc x lb).mpr ⟨g0, hg0, hx0⟩
              simp [this]
          · simp only [h1, h2, if_false] at hgl
            have := (hc x l).mpr ⟨g, hgl, hxg⟩
            simp [this, h1]
  · rename_i la hla hlb
    intro x l
    simp only [KMap.find_set]
    constructor
    · intro hx
      by_cases hxb : x = b
      · simp only [hxb, if_true, Option.some.injEq] at hx
        subst hx
        exact ⟨setInsert ((KMap.find ds.groups la).getD []) b, by simp, by simp [mem_setInsert, hxb]⟩
      · simp only [hxb, if_false] at hx
        obtain ⟨g, hgl, hxg⟩ := (hc x l).mp hx
        by_cases hl : l = la
        · subst hl
          exact ⟨setInsert ((KMap.find ds.groups l).getD []) b, by simp,
            by simp [mem_setInsert, hgl, hxg]⟩
        · exact ⟨g, by simp [hl, hgl], hxg⟩
    · rintro ⟨g, hgl, hxg⟩
      by_cases hl : l = la
      · subst hl
        simp only [if_true, Option.some.injEq] at hgl
        subst hgl
        simp only [mem_setInsert] at hxg
        rcases hxg with hxg | hxg
        · simp [hxg]
        · obtain ⟨g0, hg0, hx0⟩ := getD_mem_of_find hxg
          have h1 := (hc x l).mpr ⟨g0, hg0, hx0⟩
          have hxb : ¬ x = b := by
            intro e
            rw [e, hlb] at h1
            exact Option.noConfusion h1
          simp [hxb, h1]
      · simp only [hl, if_false] at hgl
        have h1 := (hc x l).mpr ⟨g, hgl, hxg⟩
        have hxb : ¬ x = b := by
          intro e
          rw [e, hlb] at h1
          exact Option.noConfusion h1
        simp [hxb, h1]
  · rename_i lb hla hlb
    intro x l
    simp only [KMap.find_set]
    constructor
    · intro hx
      by_cases hxa : x = a
      · simp only [hxa, if_true, Option.some.injEq] at hx
        subst hx
        exact ⟨setInsert ((KMap.find ds.groups lb).getD []) a, by simp, by simp [mem_setInsert, hxa]⟩
      · simp only [hxa, if_false] at hx
        obtain ⟨g, hgl, hxg⟩ := (hc x l).mp hx
        by_cases hl : l = lb
        · subst hl
          exact ⟨setInsert ((KMap.find ds.groups l).getD []) a, by simp,
            by simp [mem_setInsert, hgl, hxg]⟩
        · exact ⟨g, by simp [hl, hgl], hxg⟩
    · rintro ⟨g, hgl, hxg⟩
      by_cases hl : l = lb
      · subst hl
        simp only [if_true, Option.some.injEq] at hgl
        subst hgl
        simp only [mem_setInsert] at hxg
        rcases hxg with hxg | hxg
        · simp [hxg]
        · obtain ⟨g0, hg0, hx0⟩ := getD_mem_of_find hxg
          have h1 := (hc x l).mpr ⟨g0, hg0, hx0⟩
          have hxa : ¬ x = a := by
            intro e
            rw [e, hla] at h1
            exact Option.noConfusion h1
          simp [hxa, h1]
      · simp only [hl, if_false] at hgl
        have h1 := (hc x l).mpr ⟨g, hgl, hxg⟩
        have hxa : ¬ x = a := by
          intro e
          rw [e, hla] at h1
          exact Option.noConfusion h1
        simp [hxa, h1]
  · rename_i hla hlb
    intro x l
    simp only [KMap.find_set]
    constructor
    · intro hx
      by_cases hxb : x = b
      · simp only [hxb, if_true, Option.some.injEq] at hx
        subst hx
        exact ⟨setInsert (setInsert ((KMap.find ds.groups a).getD []) a) b, by simp,
          by simp [mem_setInsert, hxb]⟩
      · by_cases hxa : x = a
        · have hab2 : ¬ a = b := fun e => hxb (hxa.trans e)
          simp only [hxa, hab2, if_false, if_true, Option.some.injEq] at hx
          subst hx
          exact ⟨setInsert (setInsert ((KMap.find ds.groups a).getD []) a) b, by simp,
            by simp [mem_setInsert, hxa]⟩
        · simp only [hxb, hxa, if_false] at hx
          obtain ⟨g, hgl, hxg⟩ := (hc x l).mp hx
          by_cases hl : l = a
          · subst hl
            exact ⟨setInsert (setInsert ((KMap.find ds.groups l).getD []) l) b, by simp,
              by simp [mem_setInsert, hgl, hxg]⟩
          · exact ⟨g, by simp [hl, hgl], hxg⟩
    · rintro ⟨g, hgl, hxg⟩
      by_cases hl : l = a
      · subst hl
        simp only [if_true, Option.some.injEq] at hgl
        subst hgl
        simp only [mem_setInsert] at hxg
        rcases hxg with hxg | hxg | hxg
        · simp [hxg]
        · by_cases hxb : x = b
          · simp [hxb]
          · simp [hxb, hxg]
        · obtain ⟨g0, hg0, hx0⟩ := getD_mem_of_find hxg
          have h1 := (hc x l).mpr ⟨g0, hg0, hx0⟩
          by_cases hxb : x = b
          · simp [hxb]
          · by_cases hxa : x = l
            · simp [hxb, hxa]
            · simp [hxb, hxa, h1]
      · simp only [hl, if_false] at hgl
        have h1 := (hc x l).mpr ⟨g, hgl, hxg⟩
        have hxa : ¬ x = a := by
          intro e
          rw [e, hla] at h1
          exact Option.noConfusion h1
        have hxb : ¬ x = b := by
          intro e
          rw [e, hlb] at h1
          exact Option.noConfusion h1
        simp [hxa, hxb, h1]

theorem adjustLeader_connected (cs : List Constraint) (ds : DisjointSet) (r : ConstraintKey)
    (hc : ds.Consistent) (hg : GroupsConnected cs ds) :
    GroupsConnected cs (adjustLeader ds r) := by
  unfold adjustLeader
  split
  · exact hg
  · rename_i old hold
    split
    · intro p hp x hx
      obtain ⟨hp1, hp2⟩ := KMap.mem_erase _ _ _ hp
      have hro : Conn cs r old := conn_to_leader cs ds hc hg r old hold
      have hmem0 : ∀ q ∈ KMap.touch (KMap.touch ds.groups old []) r [], ∀ y ∈ q.2, Conn cs y q.1 := by
        intro q hq y hy
        rcases KMap.mem_touch _ _ _ _ hq with h1 | h1
        · subst h1
          simp at hy
        · rcases KMap.mem_touch _ _ _ _ h1 with h2 | h2
          · subst h2
            simp at hy
          · exact hg q h2 y hy
      rcases KMap.mem_set _ _ _ _ hp1 with hp3 | hp3
      · subst hp3
        simp only [mem_setInsert, mem_setInsertAll] at hx
        rcases hx with hx | hx | hx
        · subst hx
          exact Relation.EqvGen.refl _
        · cases hf : KMap.find (KMap.touch (KMap.touch ds.groups old []) r []) r with
          | none => simp [hf] at hx
          | some g0 =>
            simp only [hf, Option.getD_some] at hx
            exact hmem0 (r, g0) (KMap.mem_of_find _ _ _ hf) x hx
        · have hxo : Conn cs x old := by
            cases hf : KMap.find (KMap.touch ds.groups old []) old with
            | none => simp [hf] at hx
            | some g0 =>
              simp only [hf, Option.getD_some] at hx
              rcases KMap.mem_touch _ _ _ _ (KMap.mem_of_find _ _ _ hf) with h2 | h2
              · simp at h2
                subst h2
                simp at hx
              · exact hg (old, g0) h2 x hx
          exact Relation.EqvGen.trans _ _ _ hxo (Relation.EqvGen.symm _ _ hro)
      · exact hmem0 p hp3 x hx
    · exact hg

/-! ## The scan of the constraint set -/

theorem directWild_iff (cs : List Constraint) (k : ConstraintKey) :
    DirectWild cs k ↔ ∃ c ∈ cs, IsWildEq c k := by
  simp [DirectWild, IsWildEq]

theorem recordWild_find (m : KMap WildPointerInferenceInfo) (loc : ConstraintKey) (EC : Constraint)
    (k : ConstraintKey) :
    KMap.find (recordWild m loc EC) k =
      if k = loc then
        some (if EC.sourceFileName ≠ "" ∧ EC.lineNo ≠ 0 then
          { wildPtrReason := EC.reason, isValid := true, sourceFileName := EC.sourceFileName,
            lineNo := EC.lineNo, colStart := EC.colStart }
        else
          { (KMap.find m loc).getD WildPointerInferenceInfo.fresh with wildPtrReason := EC.reason })
      else KMap.find m k := by
  unfold recordWild
  by_cases h : EC.sourceFileName ≠ "" ∧ EC.lineNo ≠ 0
  · simp only [h, and_self, if_true, KMap.find_set, ne_eq, not_false_eq_true]
  · simp only [h, if_false, KMap.find_set]

theorem recordWild_recordsFrom (cs : List Constraint) (m : KMap WildPointerInferenceInfo)
    (loc : ConstraintKey) (EC : Constraint) (hEC : EC ∈ cs) (hw : IsWildEq EC loc)
    (hm : RecordsFrom cs m) : RecordsFrom cs (recordWild m loc EC) := by
  intro k rec hrec
  rw [recordWild_find] at hrec
  by_cases hk : k = loc
  · subst hk
    simp only [if_true, Option.some.injEq] at hrec
    by_cases h : EC.sourceFileName ≠ "" ∧ EC.lineNo ≠ 0
    · simp only [h, and_self, if_true, ne_eq, not_false_eq_true] at hrec
      subst hrec
      exact ⟨⟨EC, hEC, hw, rfl⟩, fun _ => ⟨EC, hEC, hw, h.1, h.2, rfl, rfl, rfl⟩⟩
    · simp only [h, if_false] at hrec
      subst hrec
      refine ⟨⟨EC, hEC, hw, rfl⟩, ?_⟩
      intro hv
      cases hf : KMap.find m k with
      | none => simp [hf, WildPointerInferenceInfo.fresh] at hv
      | some r0 =>
        simp only [hf, Option.getD_some] at hv ⊢
        exact (hm k r0 hf).2 hv
  · simp only [hk, if_false] at hrec
    exact hm k rec hrec

theorem scanConstraint_inv (cs : List Constraint) (acc acc2 : DisjointSet × CVars) (c : Constraint)
    (hc : c ∈ cs) (hinv : ScanInv cs acc) (h : scanConstraint acc c = some acc2) :
    ScanInv cs acc2 ∧ (∀ k, k ∈ acc.2 → k ∈ acc2.2) ∧ (∀ k, IsWildEq c k → k ∈ acc2.2) := by
  unfold scanConstraint at h
  split at h
  · simp only [Option.some.injEq] at h
    subst h
    refine ⟨hinv, fun k hk => hk, ?_⟩
    rintro k ⟨hk, _⟩
    simp_all
  · rename_i hkind
    split at h
    · rename_i hrhs
      split at h
      · rename_i loc hlhs
        simp only [Option.some.injEq] at h
        subst h
        have hw : IsWildEq c loc := ⟨hkind, hlhs, hrhs⟩
        refine ⟨⟨hinv.consistent, hinv.connected, ?_, ?_, hinv.nonDirect⟩, ?_, ?_⟩
        · intro k hk
          simp only [DisjointSet.isRealWild, recordWild_find] at hk
          by_cases hkl : k = loc
          · subst hkl
            exact ⟨c, hc, hw⟩
          · simp only [hkl, if_false] at hk
            exact hinv.real k hk
        · exact recordWild_recordsFrom cs _ loc c hc hw hinv.records
        · intro k hk
          simp [mem_setInsert, hk]
        · rintro k ⟨_, hl, _⟩
          rw [hlhs] at hl
          simp only [Atom.var.injEq] at hl
          simp [mem_setInsert, hl]
      · simp at h
    · rename_i r hrhs
      split at h
      · rename_i l hlhs
        simp only [Option.some.injEq] at h
        subst h
        have hedge : Conn cs l r := Relation.EqvGen.rel _ _ ⟨c, hc, hkind, hlhs, hrhs⟩
        refine ⟨⟨addElements_consistent _ l r hinv.consistent,
          addElements_connected cs _ l r hedge hinv.consistent hinv.connected, ?_, ?_, ?_⟩,
          fun k hk => hk, ?_⟩
        · intro k hk
          simp only [DisjointSet.isRealWild, (addElements_realWild acc.1 l r).1] at hk
          exact hinv.real k hk
        · rw [(addElements_realWild acc.1 l r).1]
          exact hinv.records
        · rw [(addElements_realWild acc.1 l r).2]
          exact hinv.nonDirect
        · rintro k ⟨_, _, hr⟩
          rw [hrhs] at hr
          exact Atom.noConfusion hr
      · simp at h
    · simp only [Option.some.injEq] at h
      subst h
      refine ⟨hinv, fun k hk => hk, ?_⟩
      rintro k ⟨_, _, hr⟩
      simp_all

theorem scanConstraints_inv (cs : List Constraint) (rest : List Constraint)
    (acc acc2 : DisjointSet × CVars) (hsub : ∀ c ∈ rest, c ∈ cs) (hinv : ScanInv cs acc)
    (h : scanConstraints acc rest = some acc2) :
    ScanInv cs acc2 ∧ (∀ k, k ∈ acc.2 → k ∈ acc2.2) ∧ (∀ k, DirectWild rest k → k ∈ acc2.2) := by
  induction rest generalizing acc with
  | nil =>
    simp only [scanConstraints, Option.some.injEq] at h
    subst h
    refine ⟨hinv, fun k hk => hk, ?_⟩
    rintro k ⟨c, hc, _⟩
    simp at hc
  | cons c rest ih =>
    simp only [scanConstraints] at h
    split at h
    · simp at h
    · rename_i acc1 h1
      obtain ⟨i1, m1, w1⟩ := scanConstraint_inv cs acc acc1 c (hsub c (List.mem_cons_self _ _)) hinv h1
      obtain ⟨i2, m2, w2⟩ := ih acc1 (fun d hd => hsub d (List.mem_cons_of_mem _ hd)) i1 h
      refine ⟨i2, fun k hk => m2 k (m1 k hk), ?_⟩
      intro k hk
      obtain ⟨d, hd, hdw⟩ := (directWild_iff _ k).mp hk
      rcases List.mem_cons.mp hd with hd | hd
      · subst hd
        exact m2 k (w1 k hdw)
      · exact w2 k ((directWild_iff _ k).mpr ⟨d, hd, hdw⟩)

/-! ## After the scan -/

theorem adjustLeader_totalNonDirect (ds : DisjointSet) (r : ConstraintKey) :
    (adjustLeader ds r).totalNonDirectWildPointers = ds.totalNonDirectWildPointers := by
  unfold adjustLeader
  split
  · rfl
  · split <;> rfl

theorem foldl_adjustLeader_connected (cs : List Constraint) (keys : List ConstraintKey)
    (ds : DisjointSet) (hkeys : ∀ k ∈ keys, ds.isRealWild k = true) (hc : ds.Consistent)
    (hg : GroupsConnected cs ds) :
    GroupsConnected cs (keys.foldl adjustLeader ds) ∧
    (keys.foldl adjustLeader ds).totalNonDirectWildPointers = ds.totalNonDirectWildPointers := by
  induction keys generalizing ds with
  | nil => exact ⟨hg, rfl⟩
  | cons k rest ih =>
    have hk := hkeys k (List.mem_cons_self _ _)
    have h3 : ∀ k2 ∈ rest, (adjustLeader ds k).isRealWild k2 = true := by
      intro k2 hk2
      rw [isRealWild_adjustLeader]
      exact hkeys k2 (List.mem_cons_of_mem _ hk2)
    obtain ⟨a, b⟩ := ih (adjustLeader ds k) h3 (adjustLeader_consistent ds k hk hc)
      (adjustLeader_connected cs ds k hc hg)
    exact ⟨a, by rw [List.foldl_cons, b, adjustLeader_totalNonDirect]⟩

theorem realWild_keys_real (ds : DisjointSet) :
    ∀ k ∈ ds.realWildPtrsWithReasons.map Prod.fst, ds.isRealWild k = true := by
  intro k hk
  obtain ⟨p, hp, rfl⟩ := List.mem_map.mp hk
  exact KMap.find_isSome_of_mem _ p.1 p.2 hp

theorem adjustLeaders_realWild (ds : DisjointSet) (hc : ds.Consistent) :
    (adjustLeaders ds).realWildPtrsWithReasons = ds.realWildPtrsWithReasons :=
  (foldl_adjustLeader _ ds [] (realWild_keys_real ds) hc (by intro r hr; simp at hr)).1

theorem mem_gatherNonDirect (ds : DisjointSet) (m : ConstraintKey) (h : m ∈ gatherNonDirect ds) :
    m ∈ ds.totalNonDirectWildPointers ∨ ∃ p ∈ ds.groups, ds.isRealWild p.1 = true ∧ m ∈ p.2 := by
  unfold gatherNonDirect at h
  have key : ∀ (gs : KMap CVars) (init : CVars),
      m ∈ gs.foldl (fun acc gm =>
        if (KMap.find ds.realWildPtrsWithReasons gm.1).isSome then setInsertAll acc gm.2 else acc) init →
      m ∈ init ∨ ∃ p ∈ gs, ds.isRealWild p.1 = true ∧ m ∈ p.2 := by
    intro gs
    induction gs with
    | nil => intro init h; exact Or.inl (by simpa using h)
    | cons gm rest ih =>
      intro init h
      simp only [List.foldl_cons] at h
      rcases ih _ h with h1 | ⟨p, hp, hr, hm⟩
      · split at h1
        · rename_i hreal
          rcases (mem_setInsertAll _ _ _).mp h1 with h2 | h2
          · exact Or.inl h2
          · exact Or.inr ⟨gm, List.mem_cons_self _ _, hreal, h2⟩
        · exact Or.inl h1
      · exact Or.inr ⟨p, List.mem_cons_of_mem _ hp, hr, hm⟩
  exact key ds.groups ds.totalNonDirectWildPointers h

theorem recordSources_fields (canWrite : String → Bool) (Vs : List (PersistentSourceLoc × List CVar))
    (ds : DisjointSet) :
    (recordSources canWrite ds Vs).groups = ds.groups ∧
    (recordSources canWrite ds Vs).leaders = ds.leaders ∧
    (recordSources canWrite ds Vs).realWildPtrsWithReasons = ds.realWildPtrsWithReasons ∧
    (recordSources canWrite ds Vs).totalNonDirectWildPointers = ds.totalNonDirectWildPointers := by
  induction Vs generalizing ds with
  | nil => exact ⟨rfl, rfl, rfl, rfl⟩
  | cons I rest ih =>
    simp only [recordSources]
    split
    · obtain ⟨a, b, c, d⟩ := ih
        { ds with
          validSourceFiles := setInsert ds.validSourceFiles I.1.fileName
          PtrSourceMap := (I.2.flatMap sourceKeys).foldl (fun m ck => KMap.set m ck I.1) ds.PtrSourceMap }
      exact ⟨a, b, c, d⟩
    · exact ih ds

theorem scanInv_clear (cs : List Constraint) : ScanInv cs (DisjointSet.clear, []) := by
  refine ⟨?_, ?_, ?_, ?_, rfl⟩
  · intro x l
    simp [DisjointSet.clear, KMap.find]
  · intro p hp
    simp [DisjointSet.clear] at hp
  · intro k hk
    simp [DisjointSet.isRealWild, DisjointSet.clear, KMap.find] at hk
  · intro k rec h
    simp [DisjointSet.clear, KMap.find] at h

/-- What `computePointerDisjointSet` returns, in terms of its first two loops. -/
theorem computePointerDisjointSet_eq (canWrite : String → Bool) (cs : List Constraint)
    (Vs : List (PersistentSourceLoc × List CVar)) (ds : DisjointSet)
    (h : computePointerDisjointSet canWrite cs Vs = some ds) :
    ∃ ds1 allW, scanConstraints (DisjointSet.clear, []) cs = some (ds1, allW) ∧
      ds.groups = (adjustLeaders ds1).groups ∧
      ds.leaders = (adjustLeaders ds1).leaders ∧
      ds.realWildPtrsWithReasons = ds1.realWildPtrsWithReasons ∧
      ds.totalNonDirectWildPointers =
        setInsertAll [] (setDifference (gatherNonDirect (adjustLeaders ds1)) allW) := by
  unfold computePointerDisjointSet at h
  split at h
  · simp at h
  · rename_i ds1 allW hscan
    simp only [Option.some.injEq] at h
    subst h
    have hinv := (scanConstraints_inv cs cs _ _ (fun c hc => hc) (scanInv_clear cs) hscan).1
    have hrw := adjustLeaders_realWild ds1 hinv.consistent
    refine ⟨ds1, allW, hscan, ?_, ?_, ?_, ?_⟩
    · simp only [(recordSources_fields canWrite Vs _).1]
    · simp only [(recordSources_fields canWrite Vs _).2.1]
    · simp only [(recordSources_fields canWrite Vs _).2.2.1, hrw]
    · simp only [(recordSources_fields canWrite Vs _).2.2.2]

/-! ## Properties of `computePointerDisjointSet` -/

/-- The scan ends normally when the left side of every `Eq` is a variable. -/
theorem scanConstraints_isSome (cs : List Constraint) (acc : DisjointSet × CVars)
    (hlhs : ∀ c ∈ cs, c.kind = ConstraintKind.Eq → ∃ k, c.lhs = Atom.var k) :
    ∃ acc2, scanConstraints acc cs = some acc2 := by
  induction cs generalizing acc with
  | nil => exact ⟨acc, rfl⟩
  | cons c rest ih =>
    have hstep : ∃ acc1, scanConstraint acc c = some acc1 := by
      unfold scanConstraint
      split
      · exact ⟨_, rfl⟩
      · rename_i hkind
        obtain ⟨k, hk⟩ := hlhs c (List.mem_cons_self _ _) hkind
        rw [hk]
        split
        · exact ⟨_, rfl⟩
        · exact ⟨_, rfl⟩
        · exact ⟨_, rfl⟩
    obtain ⟨acc1, h1⟩ := hstep
    obtain ⟨acc2, h2⟩ := ih acc1 (fun d hd => hlhs d (List.mem_cons_of_mem _ hd))
    exact ⟨acc2, by simp [scanConstraints, h1, h2]⟩

/-- The method returns when the left side of every `Eq` is a variable. -/
theorem computePointerDisjointSet_isSome (canWrite : String → Bool) (cs : List Constraint)
    (Vs : List (PersistentSourceLoc × List CVar))
    (hlhs : ∀ c ∈ cs, c.kind = ConstraintKind.Eq → ∃ k, c.lhs = Atom.var k) :
    ∃ ds, computePointerDisjointSet canWrite cs Vs = some ds := by
  obtain ⟨acc2, h2⟩ := scanConstraints_isSome cs (DisjointSet.clear, []) hlhs
  obtain ⟨ds1, allW⟩ := acc2
  unfold computePointerDisjointSet
  rw [h2]
  exact ⟨_, rfl⟩

/-- C7: in the record that `computePointerDisjointSet` returns, no slot that an
`Eq` of the constraint set equates with Wild is in `totalNonDirectWildPointers`,
and every member of `totalNonDirectWildPointers` is in a group of `groups` whose
key is a real WILD slot, a slot that an `Eq` equates with Wild and to which the
member is connected through `Eq` constraints between variables only. -/
theorem computePointerDisjointSet_nonDirect (canWrite : String → Bool) (cs : List Constraint)
    (Vs : List (PersistentSourceLoc × List CVar)) (ds : DisjointSet)
    (h : computePointerDisjointSet canWrite cs Vs = some ds) :
    (∀ k, DirectWild cs k → k ∉ ds.totalNonDirectWildPointers) ∧
    (∀ m ∈ ds.totalNonDirectWildPointers, ∃ p ∈ ds.groups,
      m ∈ p.2 ∧ ds.isRealWild p.1 = true ∧ DirectWild cs p.1 ∧ Conn cs m p.1) := by
  obtain ⟨ds1, allW, hscan, hgr, _, hrw, htot⟩ := computePointerDisjointSet_eq canWrite cs Vs ds h
  obtain ⟨hinv, _, hall⟩ := scanConstraints_inv cs cs _ _ (fun c hc => hc) (scanInv_clear cs) hscan
  have hrw2 := adjustLeaders_realWild ds1 hinv.consistent
  obtain ⟨hconn, hnd⟩ := foldl_adjustLeader_connected cs _ ds1 (realWild_keys_real ds1)
    hinv.consistent hinv.connected
  constructor
  · intro k hk hmem
    rw [htot] at hmem
    have := (mem_setInsertAll _ _ _).mp hmem
    simp only [List.not_mem_nil, false_or, setDifference, List.mem_filter,
      decide_eq_true_eq] at this
    exact this.2 (hall k hk)
  · intro m hm
    rw [htot] at hm
    have hm2 := (mem_setInsertAll _ _ _).mp hm
    simp only [List.not_mem_nil, false_or, setDifference, List.mem_filter,
      decide_eq_true_eq] at hm2
    rcases mem_gatherNonDirect _ m hm2.1 with h0 | ⟨p, hp, hreal, hmp⟩
    · have : (adjustLeaders ds1).totalNonDirectWildPointers = [] := by
        unfold adjustLeaders
        rw [hnd, hinv.nonDirect]
      rw [this] at h0
      simp at h0
    · have hreal1 : ds1.isRealWild p.1 = true := by
        simpa [DisjointSet.isRealWild, hrw2] using hreal
      refine ⟨p, by rw [hgr]; exact hp, hmp, ?_, hinv.real p.1 hreal1, hconn p hp m hmp⟩
      simpa [DisjointSet.isRealWild, hrw] using hreal1

theorem computePointerDisjointSet_exConstraints :
    computePointerDisjointSet (fun _ => true) exConstraints [] = some exDisjointSet := rfl

/-- C7 at `exConstraints`: slot 2 is the real WILD slot, slots 1 and 3 are the
indirect ones. -/
theorem computePointerDisjointSet_nonDirect_witness :
    computePointerDisjointSet (fun _ => true) exConstraints [] = some exDisjointSet ∧
    ((∀ k, DirectWild exConstraints k → k ∉ exDisjointSet.totalNonDirectWildPointers) ∧
    (∀ m ∈ exDisjointSet.totalNonDirectWildPointers, ∃ p ∈ exDisjointSet.groups,
      m ∈ p.2 ∧ exDisjointSet.isRealWild p.1 = true ∧ DirectWild exConstraints p.1 ∧
        Conn exConstraints m p.1)) :=
  ⟨computePointerDisjointSet_exConstraints,
   computePointerDisjointSet_nonDirect (fun _ => true) exConstraints [] exDisjointSet
    computePointerDisjointSet_exConstraints⟩

/-- C8: after the leader-adjustment loop on a consistent union-find, the key of
every group that has a real WILD slot among its members is a real WILD slot;
the loop leaves the union-find consistent and the real WILD slots as they were. -/
theorem adjustLeaders_real_wild_leader (ds : DisjointSet) (hc : ds.Consistent) :
    (∀ l g, KMap.find (adjustLeaders ds).groups l = some g →
      ∀ r ∈ g, ds.isRealWild r = true → ds.isRealWild l = true) ∧
    (adjustLeaders ds).Consistent ∧
    (adjustLeaders ds).realWildPtrsWithReasons = ds.realWildPtrsWithReasons := by
  obtain ⟨hrw, hcons, hled⟩ := foldl_adjustLeader _ ds [] (realWild_keys_real ds) hc
    (by intro r hr; simp at hr)
  refine ⟨?_, hcons, hrw⟩
  intro l g hg r hr hreal
  have hlead : KMap.find (adjustLeaders ds).leaders r = some l := (hcons r l).mpr ⟨g, hg, hr⟩
  have hkey : r ∈ [] ++ ds.realWildPtrsWithReasons.map Prod.fst := by
    simpa using KMap.mem_keys_of_find _ r hreal
  have := hled r hkey l hlead
  simpa [DisjointSet.isRealWild, adjustLeaders, hrw] using this

theorem exUnionFind_consistent : exUnionFind.Consistent := by
  intro x l
  simp only [exUnionFind, KMap.find]
  constructor
  · intro h
    split at h
    · simp at h; subst h; simp_all
    · split at h
      · simp at h; subst h; simp_all
      · split at h
        · simp at h; subst h; simp_all
        · simp at h
  · rintro ⟨g, hg, hx⟩
    split at hg
    · simp at hg
      subst hg
      simp at hx
      rcases hx with rfl | rfl | rfl <;> simp_all
    · simp at hg

/-- C8 at `exUnionFind`: the group led by slot 1 is led by the real WILD slot 2
after the loop. -/
theorem adjustLeaders_real_wild_leader_witness :
    exUnionFind.Consistent ∧
    (adjustLeaders exUnionFind).groups = [(2, [1, 2, 3])] ∧
    exUnionFind.isRealWild 2 = true :=
  ⟨exUnionFind_consistent, rfl,
   (adjustLeaders_real_wild_leader exUnionFind exUnionFind_consistent).1 2 [1, 2, 3] rfl 3
    (by simp) rfl⟩

/-- The constraints added for one function are among those of the whole pass,
and the pass reports a change when the function does. -/
theorem subtypeFunctions_mem (ctx : SubtypingCtx) (fs : List (String × List CVar))
    (currFDef : String × List CVar) (hmem : currFDef ∈ fs) :
    (∀ c ∈ (subtypeFunction ctx currFDef).1, c ∈ (subtypeFunctions ctx fs).1) ∧
    ((subtypeFunction ctx currFDef).2 = true → (subtypeFunctions ctx fs).2 = true) := by
  induction fs with
  | nil => simp at hmem
  | cons f rest ih =>
    rcases List.mem_cons.mp hmem with h | h
    · subst h
      constructor
      · intro c hc
        simp only [subtypeFunctions, List.mem_append]
        exact Or.inl hc
      · intro hr
        simp [subtypeFunctions, hr]
    · obtain ⟨h1, h2⟩ := ih h
      constructor
      · intro c hc
        simp only [subtypeFunctions, List.mem_append]
        exact Or.inr (h1 c hc)
      · intro hr
        simp [subtypeFunctions, h2 hr]

/-- The return part when the outermost return slot of the definition is Wild. -/
theorem subtypeReturn_wild (ctx : SubtypingCtx) (defCVar declCVar : FVConstraint)
    (defRet declRet : PVConstraint)
    (hdr : ctx.highestPV defCVar.returnVars = some defRet)
    (hcr : ctx.highestPV declCVar.returnVars = some declRet)
    (hv2 : isAValidPVConstraint declRet = true)
    (top : ConstraintKey) (htop : defRet.vars.head? = some top)
    (hw : ctx.env top = ConstAtom.Wild) :
    subtypeReturn ctx defCVar declCVar =
      (defRet.vars.map (fun B =>
          createEq (Atom.var B) getWild "Function Returning WILD within the body.")
        ++ declRet.vars.map (fun B =>
          createEq (Atom.var B) getWild "Function Returning WILD within the body."), true) := by
  unfold subtypeReturn
  rw [hdr, hcr]
  cases hd : defRet.vars with
  | nil => simp [hd] at htop
  | cons d0 dt =>
    cases hc : declRet.vars with
    | nil => simp [isAValidPVConstraint, hc] at hv2
    | cons c0 ct =>
      have h0 : d0 = top := by simpa [hd] using htop
      subst h0
      simp [hd, hc, SubtypingCtx.isWild, hw]

/-- C10: a function with a definition-site and a declaration-site Function
variable whose highest return Pointer variables are valid.  When the outermost
return slot of the definition is solved to Wild, `handleFunctionSubtyping` adds
`Eq(s, Wild)` for every slot `s` of the return chain of the definition and for
every slot of the return chain of the declaration, and reports a change. -/
theorem handleFunctionSubtyping_wild_return (ctx : SubtypingCtx) (funcDefKey : String)
    (defCVars declCVars : List CVar) (defCVar declCVar : FVConstraint)
    (defRet declRet : PVConstraint) (top : ConstraintKey)
    (hmem : (funcDefKey, defCVars) ∈ ctx.FuncDefnVarMap)
    (hdecl : getFuncDeclConstraintSet ctx funcDefKey = some declCVars)
    (hdef : ctx.highestFV defCVars = some defCVar)
    (hdec : ctx.highestFV declCVars = some declCVar)
    (hdr : ctx.highestPV defCVar.returnVars = some defRet)
    (hcr : ctx.highestPV declCVar.returnVars = some declRet)
    (hv1 : isAValidPVConstraint defRet = true)
    (hv2 : isAValidPVConstraint declRet = true)
    (htop : defRet.vars.head? = some top)
    (hw : ctx.env top = ConstAtom.Wild) :
    (∀ s ∈ defRet.vars,
      createEq (Atom.var s) getWild "Function Returning WILD within the body."
        ∈ (handleFunctionSubtyping ctx).1) ∧
    (∀ s ∈ declRet.vars,
      createEq (Atom.var s) getWild "Function Returning WILD within the body."
        ∈ (handleFunctionSubtyping ctx).1) ∧
    (handleFunctionSubtyping ctx).2 = true := by
  have _ := hv1
  obtain ⟨h1, h2⟩ := subtypeFunctions_mem ctx ctx.FuncDefnVarMap (funcDefKey, defCVars) hmem
  have hret := subtypeReturn_wild ctx defCVar declCVar defRet declRet hdr hcr hv2 top htop hw
  have hfun1 : ∀ c ∈ (subtypeReturn ctx defCVar declCVar).1,
      c ∈ (subtypeFunction ctx (funcDefKey, defCVars)).1 := by
    intro c hc
    simp only [subtypeFunction, hdecl, hdef, hdec, List.mem_append]
    exact Or.inl hc
  have hfun2 : (subtypeFunction ctx (funcDefKey, defCVars)).2 = true := by
    simp [subtypeFunction, hdecl, hdef, hdec, hret]
  refine ⟨?_, ?_, h2 hfun2⟩
  · intro s hs
    apply h1
    apply hfun1
    rw [hret]
    exact List.mem_append_left _ (List.mem_map.mpr ⟨s, hs, rfl⟩)
  · intro s hs
    apply h1
    apply hfun1
    rw [hret]
    exact List.mem_append_right _ (List.mem_map.mpr ⟨s, hs, rfl⟩)

/-- C10 at `exSubtypingCtx`: the four return slots of `f` are equated with Wild. -/
theorem handleFunctionSubtyping_wild_return_witness :
    (exSubtypingCtx.env 3 = ConstAtom.Wild ∧
      handleFunctionSubtyping exSubtypingCtx =
        ([createEq (Atom.var 3) getWild "Function Returning WILD within the body.",
          createEq (Atom.var 4) getWild "Function Returning WILD within the body.",
          createEq (Atom.var 1) getWild "Function Returning WILD within the body.",
          createEq (Atom.var 2) getWild "Function Returning WILD within the body."], true)) ∧
    ((∀ s ∈ (exRetChain [3, 4]).vars,
      createEq (Atom.var s) getWild "Function Returning WILD within the body."
        ∈ (handleFunctionSubtyping exSubtypingCtx).1) ∧
    (∀ s ∈ (exRetChain [1, 2]).vars,
      createEq (Atom.var s) getWild "Function Returning WILD within the body."
        ∈ (handleFunctionSubtyping exSubtypingCtx).1) ∧
    (handleFunctionSubtyping exSubtypingCtx).2 = true) :=
  ⟨⟨rfl, rfl⟩,
   handleFunctionSubtyping_wild_return exSubtypingCtx "b.c:5:f"
    [ConstraintVariable.FV exSubDefn] [ConstraintVariable.FV exSubDecl] exSubDefn exSubDecl
    (exRetChain [3, 4]) (exRetChain [1, 2]) 3
    (by simp [exSubtypingCtx]) rfl rfl rfl rfl rfl rfl rfl rfl rfl⟩

/-! ## The result flag of the subtyping pass -/

theorem flagged_nil : Flagged (([] : List Constraint), false) := by
  simp [Flagged]

theorem flagged_append (r1 r2 : List Constraint × Bool) (h1 : Flagged r1) (h2 : Flagged r2) :
    Flagged (r1.1 ++ r2.1, r1.2 || r2.2) := by
  unfold Flagged at *
  simp only [Bool.or_eq_true, ne_eq, List.append_eq_nil, not_and_or]
  rw [h1, h2]

theorem equalizeInner_flagged (env : ConstraintKey → ConstAtom) (s d : CVars) :
    Flagged (equalizeInner env s d) := by
  induction s generalizing d with
  | nil => simp [equalizeInner, Flagged]
  | cons a s ih =>
    cases d with
    | nil => simp [equalizeInner, Flagged]
    | cons b d =>
      simp only [equalizeInner]
      split
      · simp [Flagged]
      · exact ih d

theorem applySubtypingRelation_flagged (env : ConstraintKey → ConstAtom) (src dst : PVConstraint) :
    Flagged (applySubtypingRelation env src dst) := by
  unfold applySubtypingRelation
  split
  · dsimp only
    split
    · apply flagged_append
      · split <;> simp [Flagged]
      · split
        · exact equalizeInner_flagged env _ _
        · exact flagged_nil
    · exact flagged_nil
  · exact flagged_nil

theorem applyAll_flagged (env : ConstraintKey → ConstAtom) (defParam : PVConstraint)
    (l : List PVConstraint) : Flagged (applyAll env defParam l) := by
  induction l with
  | nil => exact flagged_nil
  | cons c rest ih =>
    simp only [applyAll]
    exact flagged_append _ _ (applySubtypingRelation_flagged env defParam c) ih

theorem subtypeParam_flagged (ctx : SubtypingCtx) (d c : FVConstraint) (i : Nat) :
    Flagged (subtypeParam ctx d c i) := by
  unfold subtypeParam
  split
  · split
    · split
      · exact applyAll_flagged _ _ _
      · exact flagged_nil
    · exact flagged_nil
  · exact flagged_nil

theorem subtypeParams_flagged (ctx : SubtypingCtx) (d c : FVConstraint) (l : List Nat) :
    Flagged (subtypeParams ctx d c l) := by
  induction l with
  | nil => exact flagged_nil
  | cons i rest ih =>
    simp only [subtypeParams]
    exact flagged_append _ _ (subtypeParam_flagged ctx d c i) ih

theorem subtypeReturn_flagged (ctx : SubtypingCtx) (d c : FVConstraint) :
    Flagged (subtypeReturn ctx d c) := by
  unfold subtypeReturn
  split
  · split
    · rename_i hd hc
      split
      · simp [Flagged, hd]
      · split
        · dsimp only
          split
          · split
            · exact applySubtypingRelation_flagged _ _ _
            · exact flagged_nil
          · exact flagged_nil
        · exact flagged_nil
    · exact flagged_nil
  · exact flagged_nil

theorem subtypeFunction_flagged (ctx : SubtypingCtx) (f : String × List CVar) :
    Flagged (subtypeFunction ctx f) := by
  unfold subtypeFunction
  split
  · exact flagged_nil
  · split
    · apply flagged_append
      · exact subtypeReturn_flagged _ _ _
      · split
        · exact subtypeParams_flagged _ _ _ _
        · exact flagged_nil
    · exact flagged_nil

theorem subtypeFunctions_flagged (ctx : SubtypingCtx) (fs : List (String × List CVar)) :
    Flagged (subtypeFunctions ctx fs) := by
  induction fs with
  | nil => exact flagged_nil
  | cons f rest ih =>
    simp only [subtypeFunctions]
    exact flagged_append _ _ (subtypeFunction_flagged ctx f) ih

/-! ## The parameter part of the subtyping pass -/

theorem equalizeInner_of_equal (env : ConstraintKey → ConstAtom) (s d : CVars)
    (h : List.Forall₂ (fun a b => env a = env b) s d) : equalizeInner env s d = ([], false) := by
  induction h with
  | nil => simp [equalizeInner]
  | cons hab _ ih =>
    simp only [equalizeInner, hab, ih]
    simp [ConstAtom.lt]

theorem eraseWhileLonger_self (l : CVars) : eraseWhileLonger l l.length = l := by
  cases l with
  | nil => rfl
  | cons h t => simp [eraseWhileLonger]

theorem applySubtypingRelation_same_length (env : ConstraintKey → ConstAtom) (src dst : PVConstraint)
    (s0 d0 : ConstraintKey) (st dt : CVars) (hs : src.vars = s0 :: st) (hd : dst.vars = d0 :: dt)
    (hlen : st.length = dt.length) :
    applySubtypingRelation env src dst =
      ((if (env d0).lt (env s0) then [createEq (Atom.var d0) (Atom.const (env s0)) defaultReason]
        else []) ++ (equalizeInner env st dt).1,
       (env d0).lt (env s0) || (equalizeInner env st dt).2) := by
  unfold applySubtypingRelation
  simp only [hs, hd, List.isEmpty_cons, Bool.not_false, Bool.and_self, if_true, List.length_cons,
    hlen, ne_eq, not_true_eq_false, if_false]
  cases h : (env d0).lt (env s0) <;> simp

theorem applyAll_single (env : ConstraintKey → ConstAtom) (defParam cur : PVConstraint) :
    applyAll env defParam [cur] = applySubtypingRelation env defParam cur := by
  simp [applyAll]

theorem subtypeParams_mem (ctx : SubtypingCtx) (d c : FVConstraint) (l : List Nat) (i : Nat)
    (hi : i ∈ l) : ∀ x ∈ (subtypeParam ctx d c i).1, x ∈ (subtypeParams ctx d c l).1 := by
  induction l with
  | nil => simp at hi
  | cons j rest ih =>
    intro x hx
    simp only [subtypeParams, List.mem_append]
    rcases List.mem_cons.mp hi with h | h
    · subst h
      exact Or.inl hx
    · exact Or.inr (ih h x hx)

theorem subtypeParam_checked (ctx : SubtypingCtx) (defCVar declCVar : FVConstraint) (i : Nat)
    (declParam defParam : PVConstraint) (topDef topDecl : ConstraintKey)
    (hdp : ctx.highestPV (declCVar.getParamVar i) = some declParam)
    (hfp : ctx.highestPV (defCVar.getParamVar i) = some defParam)
    (htd : defParam.vars.head? = some topDef) (htc : declParam.vars.head? = some topDecl)
    (hnd : ctx.env topDef ≠ ConstAtom.Wild) (hnc : ctx.env topDecl ≠ ConstAtom.Wild) :
    subtypeParam ctx defCVar declCVar i = applySubtypingRelation ctx.env defParam declParam := by
  unfold subtypeParam
  rw [hdp, hfp]
  cases hd : defParam.vars with
  | nil => simp [hd] at htd
  | cons d0 dt =>
    cases hc : declParam.vars with
    | nil => simp [hc] at htc
    | cons c0 ct =>
      have h0 : d0 = topDef := by simpa [hd] using htd
      have h1 : c0 = topDecl := by simpa [hc] using htc
      subst h0; subst h1
      simp [hd, hc, SubtypingCtx.isWild, hnd, hnc, applyAll]

/-- C11 as stated fails: the parameter of `f` is solved to Arr in the definition
and to Ptr in the declaration, neither is Wild, and the pass adds the equality
of the slot of the declaration with Arr. -/
theorem handleFunctionSubtyping_widens_checked_declaration :
    exParamCtx.env 2 ≠ ConstAtom.Wild ∧ exParamCtx.env 1 ≠ ConstAtom.Wild ∧
    exParamDecl.paramVars = [[ConstraintVariable.PV (exParamOf 1)]] ∧
    handleFunctionSubtyping exParamCtx =
      ([createEq (Atom.var 1) (Atom.const ConstAtom.Arr) defaultReason], true) := by
  refine ⟨by decide, by decide, rfl, rfl⟩

/-- C11, amended: at a parameter position where the declaration and the
definition have valid highest Pointer variables whose outermost values are both
not Wild, the pass adds what `applySubtypingRelation` adds from the parameter
of the definition to that of the declaration, and all of it is among the
constraints of the pass.  When the two chains have equal length and the
outermost value of the declaration is strictly safer than that of the
definition, this holds the equality of the outermost slot of the declaration
with the value of the definition; when the two chains have the same solved value
level by level, nothing is added for the position. -/
theorem handleFunctionSubtyping_checked_parameter (ctx : SubtypingCtx) (funcDefKey : String)
    (defCVars declCVars : List CVar) (defCVar declCVar : FVConstraint) (i : Nat)
    (declParam defParam : PVConstraint) (topDef topDecl : ConstraintKey)
    (hmem : (funcDefKey, defCVars) ∈ ctx.FuncDefnVarMap)
    (hdecl : getFuncDeclConstraintSet ctx funcDefKey = some declCVars)
    (hdef : ctx.highestFV defCVars = some defCVar)
    (hdec : ctx.highestFV declCVars = some declCVar)
    (harity : declCVar.numParams = defCVar.numParams)
    (hi : i < declCVar.numParams)
    (hdp : ctx.highestPV (declCVar.getParamVar i) = some declParam)
    (hfp : ctx.highestPV (defCVar.getParamVar i) = some defParam)
    (htd : defParam.vars.head? = some topDef) (htc : declParam.vars.head? = some topDecl)
    (hnd : ctx.env topDef ≠ ConstAtom.Wild) (hnc : ctx.env topDecl ≠ ConstAtom.Wild) :
    subtypeParam ctx defCVar declCVar i = applySubtypingRelation ctx.env defParam declParam ∧
    (∀ c ∈ (applySubtypingRelation ctx.env defParam declParam).1,
      c ∈ (handleFunctionSubtyping ctx).1) ∧
    (defParam.vars.length = declParam.vars.length →
      (ctx.env topDecl).lt (ctx.env topDef) = true →
      createEq (Atom.var topDecl) (Atom.const (ctx.env topDef)) defaultReason
        ∈ (handleFunctionSubtyping ctx).1) ∧
    (List.Forall₂ (fun a b => ctx.env a = ctx.env b) defParam.vars declParam.vars →
      subtypeParam ctx defCVar declCVar i = ([], false)) := by
  have hsp := subtypeParam_checked ctx defCVar declCVar i declParam defParam topDef topDecl
    hdp hfp htd htc hnd hnc
  obtain ⟨h1, _⟩ := subtypeFunctions_mem ctx ctx.FuncDefnVarMap (funcDefKey, defCVars) hmem
  have hin : ∀ c ∈ (applySubtypingRelation ctx.env defParam declParam).1,
      c ∈ (handleFunctionSubtyping ctx).1 := by
    intro c hc
    apply h1
    simp only [subtypeFunction, hdecl, hdef, hdec, harity, if_true, List.mem_append]
    refine Or.inr (subtypeParams_mem ctx defCVar declCVar _ i ?_ c (hsp ▸ hc))
    rw [← harity]
    exact List.mem_range.mpr hi
  obtain ⟨dt, hdv⟩ : ∃ dt, defParam.vars = topDef :: dt := by
    cases hv : defParam.vars with
    | nil => simp [hv] at htd
    | cons a t => exact ⟨t, by simpa [hv] using htd⟩
  obtain ⟨ct, hcv⟩ : ∃ ct, declParam.vars = topDecl :: ct := by
    cases hv : declParam.vars with
    | nil => simp [hv] at htc
    | cons a t => exact ⟨t, by simpa [hv] using htc⟩
  refine ⟨hsp, hin, ?_, ?_⟩
  · intro hlen hlt
    apply hin
    have hl : dt.length = ct.length := by simpa [hdv, hcv] using hlen
    rw [applySubtypingRelation_same_length ctx.env defParam declParam topDef topDecl dt ct hdv hcv hl]
    simp [hlt]
  · intro hall
    rw [hsp]
    rw [hdv, hcv] at hall
    cases hall with
    | cons hhead htail =>
      rw [applySubtypingRelation_same_length ctx.env defParam declParam topDef topDecl dt ct hdv hcv
        htail.length_eq, equalizeInner_of_equal ctx.env dt ct htail, hhead]
      simp [ConstAtom.lt]

/-- C11, amended, at the parameter of `f` in `exParamCtx`. -/
theorem handleFunctionSubtyping_checked_parameter_witness :
    (exParamCtx.env 2 ≠ ConstAtom.Wild ∧ exParamCtx.env 1 ≠ ConstAtom.Wild ∧
      (exParamCtx.env 1).lt (exParamCtx.env 2) = true) ∧
    createEq (Atom.var 1) (Atom.const (exParamCtx.env 2)) defaultReason
      ∈ (handleFunctionSubtyping exParamCtx).1 :=
  ⟨⟨by decide, by decide, by decide⟩,
   (handleFunctionSubtyping_checked_parameter exParamCtx "b.c:5:f"
      [ConstraintVariable.FV exParamDefn] [ConstraintVariable.FV exParamDecl] exParamDefn
      exParamDecl 0 (exParamOf 1) (exParamOf 2) 2 1
      (by simp [exParamCtx]) rfl rfl rfl rfl (by decide) rfl rfl rfl rfl
      (by decide) (by decide)).2.2.1 rfl (by decide)⟩

/-- C12 as stated fails: the pass on `exSubtypingCtx` adds four equalities with
Wild.  With these in the constraint set and solved (`exSolvedCtx`), the pass
returns true again, and every constraint it passes on is one of those four. -/
theorem handleFunctionSubtyping_reports_change_again :
    (∀ c ∈ (handleFunctionSubtyping exSubtypingCtx).1, Constraint.holds exSolvedCtx.env c = true) ∧
    (handleFunctionSubtyping exSolvedCtx).2 = true ∧
    (∀ c ∈ (handleFunctionSubtyping exSolvedCtx).1,
      c ∈ (handleFunctionSubtyping exSubtypingCtx).1) := by
  refine ⟨by decide, rfl, by decide⟩

/-- C12, amended: `handleFunctionSubtyping` returns true exactly when it has
passed at least one constraint to `addConstraint`. -/
theorem handleFunctionSubtyping_true_iff_issued (ctx : SubtypingCtx) :
    (handleFunctionSubtyping ctx).2 = true ↔ (handleFunctionSubtyping ctx).1 ≠ [] :=
  subtypeFunctions_flagged ctx ctx.FuncDefnVarMap

/-! ## Properties of `needCasting` -/

/-- C13 as stated fails: the source is checked, the destination has an itype and
the same solution as the source, and the policy value is WILD.  The source is
checked and clause (b) of the statement holds, yet `needCasting` is false. -/
theorem needCasting_itype_equal_wild_policy :
    needCasting exSolvedChecked exHasItype exSameSolution
      (ConstraintVariable.PV (exGlobal 1)) (ConstraintVariable.PV (exGlobal 2)) IsChecked.WILD
      = false ∧
    exSolvedChecked (ConstraintVariable.PV (exGlobal 1)) = true ∧
    (exSolvedChecked (ConstraintVariable.PV (exGlobal 2)) = false ∨
      IsChecked.WILD = IsChecked.WILD) :=
  ⟨rfl, rfl, Or.inr rfl⟩

/-- C13, amended: `needCasting` is true exactly when the source is checked and
either the destination has an itype and its solution is not equal to that of the
source, or the destination has no itype and is not checked or the policy value
is WILD. -/
theorem needCasting_iff (isChecked hasItype : CVar → Bool) (solutionEqualTo : CVar → CVar → Bool)
    (Src Dst : CVar) (Dinfo : IsChecked) :
    needCasting isChecked hasItype solutionEqualTo Src Dst Dinfo = true ↔
      (isChecked Src = true ∧
        ((hasItype Dst = true ∧ solutionEqualTo Dst Src = false) ∨
          (hasItype Dst = false ∧ (isChecked Dst = false ∨ Dinfo = IsChecked.WILD)))) := by
  unfold needCasting
  cases isChecked Src <;> cases hasItype Dst <;> cases solutionEqualTo Dst Src <;>
    cases isChecked Dst <;> cases Dinfo <;> simp

/-! ## Properties of `MakeSinglePtrNonWild` -/

theorem findGeqWild_some (cs : List Constraint) (k : ConstraintKey) (c : Constraint)
    (h : findGeqWild cs k = some c) :
    c ∈ cs ∧ c.kind = ConstraintKind.Geq ∧ c.lhs = Atom.var k ∧ c.rhs = getWild := by
  unfold findGeqWild at h
  have hm := List.mem_of_find?_eq_some h
  have hp := List.find?_some h
  simp only [Bool.and_eq_true, decide_eq_true_eq] at hp
  exact ⟨hm, hp.1.1, hp.1.2, hp.2⟩

theorem findGeqWild_isSome (cs : List Constraint) (k : ConstraintKey)
    (h : ∃ c ∈ cs, c.kind = ConstraintKind.Geq ∧ c.lhs = Atom.var k ∧ c.rhs = getWild) :
    ∃ c, findGeqWild cs k = some c := by
  obtain ⟨c, hc, h1, h2, h3⟩ := h
  unfold findGeqWild
  cases hf : cs.find? (fun c =>
    decide (c.kind = ConstraintKind.Geq) && decide (c.lhs = Atom.var k) &&
      decide (c.rhs = getWild)) with
  | some d => exact ⟨d, rfl⟩
  | none =>
    have := List.find?_eq_none.mp hf c hc
    simp [h1, h2, h3] at this

/-- C14: when the constraint set holds a `Geq(targetPtr, Wild)`, the sanity
check accepts the reset environment and every `Eq` has a variable on its left,
`MakeSinglePtrNonWild` returns; it takes one such constraint `c` out of the set
and keeps every other constraint, solves from the reset environment, replaces
the record by the one computed from the remaining constraints, and its result is
true exactly when a member of the earlier `allWildPtrs` is missing from the new
one. -/
theorem MakeSinglePtrNonWild_retracts_constraint
    (checkInitialEnvSanity : List Constraint → (ConstraintKey → ConstAtom) → Bool)
    (solve : List Constraint → (ConstraintKey → ConstAtom) → (ConstraintKey → ConstAtom))
    (canWrite : String → Bool) (st : InterfaceState) (targetPtr : ConstraintKey)
    (hgeq : ∃ c ∈ st.constraints,
      c.kind = ConstraintKind.Geq ∧ c.lhs = Atom.var targetPtr ∧ c.rhs = getWild)
    (hsane : ∀ cs, checkInitialEnvSanity cs resetEnvironment = true)
    (hlhs : ∀ c ∈ st.constraints, c.kind = ConstraintKind.Eq → ∃ k, c.lhs = Atom.var k) :
    ∃ st2 b c,
      MakeSinglePtrNonWild checkInitialEnvSanity solve canWrite st targetPtr = some (st2, b) ∧
      c ∈ st.constraints ∧ c.kind = ConstraintKind.Geq ∧ c.lhs = Atom.var targetPtr ∧
      c.rhs = getWild ∧
      st2.constraints = st.constraints.erase c ∧
      st2.constraints.length + 1 = st.constraints.length ∧
      (∀ d ∈ st.constraints, d ≠ c → d ∈ st2.constraints) ∧
      st2.environment = solve st2.constraints resetEnvironment ∧
      computePointerDisjointSet canWrite st2.constraints st.Variables = some st2.PtrDisjointSet ∧
      (b = true ↔ ∃ p ∈ st.PtrDisjointSet.allWildPtrs, p ∉ st2.PtrDisjointSet.allWildPtrs) := by
  obtain ⟨c, hfind⟩ := findGeqWild_isSome st.constraints targetPtr hgeq
  obtain ⟨hc, hk, hl, hr⟩ := findGeqWild_some _ _ _ hfind
  have hlhs2 : ∀ d ∈ st.constraints.erase c, d.kind = ConstraintKind.Eq → ∃ k, d.lhs = Atom.var k :=
    fun d hd => hlhs d (List.mem_of_mem_erase hd)
  obtain ⟨ds, hds⟩ := computePointerDisjointSet_isSome canWrite (st.constraints.erase c)
    st.Variables hlhs2
  refine ⟨{ constraints := st.constraints.erase c,
            environment := solve (st.constraints.erase c) resetEnvironment,
            PtrDisjointSet := ds, Variables := st.Variables },
    !(setInsertAll [] (setDifference st.PtrDisjointSet.allWildPtrs ds.allWildPtrs)).isEmpty,
    c, ?_, hc, hk, hl, hr, rfl, ?_, ?_, rfl, hds, ?_⟩
  · simp [MakeSinglePtrNonWild, hfind, removeConstraint, runSolver, hsane, hds]
  · simp only [List.length_erase_of_mem hc]
    have : 0 < st.constraints.length := List.length_pos_of_mem hc
    omega
  · intro d hd hne
    exact (List.mem_erase_of_ne hne).mpr hd
  · simp only [Bool.not_eq_true', List.isEmpty_eq_false]
    constructor
    · intro hne
      cases hs : setInsertAll [] (setDifference st.PtrDisjointSet.allWildPtrs ds.allWildPtrs) with
      | nil => simp [hs] at hne
      | cons p rest =>
        have hp : p ∈ setInsertAll [] (setDifference st.PtrDisjointSet.allWildPtrs ds.allWildPtrs) := by
          rw [hs]; exact List.mem_cons_self _ _
        have := (mem_setInsertAll _ _ _).mp hp
        simp only [List.not_mem_nil, false_or, setDifference, List.mem_filter,
          decide_eq_true_eq] at this
        exact ⟨p, this.1, this.2⟩
    · rintro ⟨p, hp1, hp2⟩ hnil
      have hp : p ∈ setInsertAll [] (setDifference st.PtrDisjointSet.allWildPtrs ds.allWildPtrs) := by
        apply (mem_setInsertAll _ _ _).mpr
        right
        simp [setDifference, hp1, hp2]
      rw [hnil] at hp
      simp at hp

/-- The retraction of the lower bound on slot 2 in `exInterface`. -/
theorem MakeSinglePtrNonWild_retracts_constraint_witness :
    ∃ st2 b c,
      MakeSinglePtrNonWild exSane exSolve exCanWrite exInterface 2 = some (st2, b) ∧
      c ∈ exInterface.constraints ∧ c.kind = ConstraintKind.Geq ∧ c.lhs = Atom.var 2 ∧
      c.rhs = getWild ∧
      st2.constraints = exInterface.constraints.erase c ∧
      st2.constraints.length + 1 = exInterface.constraints.length ∧
      (∀ d ∈ exInterface.constraints, d ≠ c → d ∈ st2.constraints) ∧
      st2.environment = exSolve st2.constraints resetEnvironment ∧
      computePointerDisjointSet exCanWrite st2.constraints exInterface.Variables =
        some st2.PtrDisjointSet ∧
      (b = true ↔ ∃ p ∈ exInterface.PtrDisjointSet.allWildPtrs, p ∉ st2.PtrDisjointSet.allWildPtrs) :=
  MakeSinglePtrNonWild_retracts_constraint exSane exSolve exCanWrite exInterface 2
    ⟨exGeqWild 2, by simp [exInterface], rfl, rfl, rfl⟩
    (fun _ => rfl)
    (by
      intro c hc _
      simp only [exInterface, exConstraints, List.mem_append, List.mem_cons, List.mem_singleton,
        List.not_mem_nil, or_false] at hc
      rcases hc with (rfl | rfl | rfl) | rfl
      · exact ⟨1, rfl⟩
      · exact ⟨2, rfl⟩
      · exact ⟨3, rfl⟩
      · exact ⟨2, rfl⟩)

/-! ## The merging loop, pair by pair -/

theorem mergePair_mem_no_body (P1 P2 : FVConstraint) (a : LinkAction) (h : a ∈ mergePair P1 P2) :
    P1.hasBody = false ∧ P2.hasBody = false := by
  unfold mergePair at h
  split at h
  · rename_i hc
    simpa using hc
  · simp at h

/-- Every call of the merging loop is made for two members without a body. -/
theorem mergeLoop_mem (gap : Bool) (Is Js : List FVConstraint) :
    ∀ a ∈ (mergeLoop gap Is Js).1, ∃ P1 ∈ Is, ∃ P2 ∈ Js,
      P1.hasBody = false ∧ P2.hasBody = false ∧ a ∈ mergePair P1 P2 := by
  induction gap, Is, Js using mergeLoop.induct with
  | case1 gap Is => intro a ha; simp [mergeLoop] at ha
  | case2 gap h t => intro a ha; simp [mergeLoop] at ha
  | case3 gap P1 Is' P2 Js' hb ih =>
    intro a ha
    rw [mergeLoop] at ha
    simp only [hb, if_true] at ha
    obtain ⟨Q1, hQ1, Q2, hQ2, h⟩ := ih a ha
    exact ⟨Q1, hQ1, Q2, List.mem_cons_of_mem _ hQ2, h⟩
  | case4 P1 Is' P2 Js' hb ih =>
    intro a ha
    rw [mergeLoop] at ha
    simp only [hb, if_false, if_true, Bool.false_eq_true] at ha
    rw [List.mem_append] at ha
    rcases ha with ha | ha
    · obtain ⟨h1, h2⟩ := mergePair_mem_no_body P1 P2 a ha
      exact ⟨P1, List.mem_cons_self _ _, P2, List.mem_cons_self _ _, h1, h2, ha⟩
    · obtain ⟨Q1, hQ1, Q2, hQ2, h⟩ := ih a ha
      exact ⟨Q1, List.mem_cons_of_mem _ hQ1, Q2, hQ2, h⟩
  | case5 gap P1 Is' P2 Js' hb hg ih =>
    intro a ha
    rw [mergeLoop] at ha
    simp only [hb, hg, if_false, Bool.false_eq_true] at ha
    rw [List.mem_append] at ha
    rcases ha with ha | ha
    · obtain ⟨h1, h2⟩ := mergePair_mem_no_body P1 P2 a ha
      exact ⟨P1, List.mem_cons_self _ _, P2, List.mem_cons_self _ _, h1, h2, ha⟩
    · obtain ⟨Q1, hQ1, Q2, hQ2, h⟩ := ih a ha
      exact ⟨Q1, List.mem_cons_of_mem _ hQ1, Q2, List.mem_cons_of_mem _ hQ2, h⟩

theorem mergeSet_mem (gap : Bool) (P : List FVConstraint) :
    ∀ a ∈ (mergeSet gap P).1, ∃ P1 ∈ P, ∃ P2 ∈ P,
      P1.hasBody = false ∧ P2.hasBody = false ∧ a ∈ mergePair P1 P2 := by
  intro a ha
  unfold mergeSet at ha
  split at ha
  · obtain ⟨Q1, hQ1, Q2, hQ2, h⟩ := mergeLoop_mem gap P P.tail a ha
    exact ⟨Q1, hQ1, Q2, List.mem_of_mem_tail hQ2, h⟩
  · simp at ha

theorem mergeAll_mem_pair (gap : Bool) (gfs : List (String × List FVConstraint)) :
    ∀ a ∈ mergeAll gap gfs, ∃ S ∈ gfs, ∃ P1 ∈ S.2, ∃ P2 ∈ S.2,
      P1.hasBody = false ∧ P2.hasBody = false ∧ a ∈ mergePair P1 P2 := by
  induction gfs generalizing gap with
  | nil => intro a ha; simp [mergeAll] at ha
  | cons S rest ih =>
    intro a ha
    simp only [mergeAll, List.mem_append] at ha
    rcases ha with ha | ha
    · obtain ⟨Q1, hQ1, Q2, hQ2, h⟩ := mergeSet_mem gap S.2 a ha
      exact ⟨S, List.mem_cons_self _ _, Q1, hQ1, Q2, hQ2, h⟩
    · obtain ⟨T, hT, h⟩ := ih _ a ha
      exact ⟨T, List.mem_cons_of_mem _ hT, h⟩

/-- What the loop does for a pair without bodies. -/
theorem mergePair_cases (P1 P2 : FVConstraint) (h1 : P1.hasBody = false) (h2 : P2.hasBody = false) :
    (P1.numParams = P2.numParams →
      mergePair P1 P2 = LinkAction.constrainEqSets P1.returnVars P2.returnVars ::
        (List.range P1.numParams).map
          (fun i => LinkAction.constrainEqSets (P1.getParamVar i) (P2.getParamVar i))) ∧
    (P1.numParams ≠ P2.numParams → P1.hasProtoType = true → P2.hasProtoType = true →
      mergePair P1 P2 =
        [LinkAction.constrainEqSets P1.returnVars P2.returnVars,
         LinkAction.constrainToFV P1 getWild ("Return value of function:" ++ P1.name),
         LinkAction.constrainToFV P2 getWild ("Return value of function:" ++ P1.name)]) ∧
    (P1.numParams ≠ P2.numParams → (P1.hasProtoType = false ∨ P2.hasProtoType = false) →
      mergePair P1 P2 = [LinkAction.constrainEqSets P1.returnVars P2.returnVars]) := by
  refine ⟨?_, ?_, ?_⟩
  · intro hn
    simp [mergePair, h1, h2, hn, constrainParams]
  · intro hn hp1 hp2
    simp [mergePair, h1, h2, hn, hp1, hp2]
  · intro hn hp
    rcases hp with hp | hp <;> simp [mergePair, h1, h2, hn, hp]

/-- With `gap` clear on entry and no definition in the set, the loop visits
every two consecutive members. -/
theorem mergeLoop_no_body (Is Js : List FVConstraint) (hJ : ∀ P ∈ Js, P.hasBody = false)
    (hlen : Js.length ≤ Is.length) :
    mergeLoop false Is Js = ((List.zipWith mergePair Is Js).flatten, false) := by
  induction Js generalizing Is with
  | nil => cases Is <;> simp [mergeLoop]
  | cons P2 Js ih =>
    cases Is with
    | nil => simp at hlen
    | cons P1 Is =>
      have hb : P2.hasBody = false := hJ P2 (List.mem_cons_self _ _)
      rw [mergeLoop]
      simp only [hb, Bool.false_eq_true, if_false]
      rw [ih Is (fun P hP => hJ P (List.mem_cons_of_mem _ hP)) (by simpa using hlen)]
      simp

theorem mergePair_mem (P1 P2 : FVConstraint) (a : LinkAction) (h : a ∈ mergePair P1 P2) :
    a = LinkAction.constrainEqSets P1.returnVars P2.returnVars ∨
    (∃ i, i < P1.numParams ∧
      a = LinkAction.constrainEqSets (P1.getParamVar i) (P2.getParamVar i)) ∨
    (∃ r, a = LinkAction.constrainToFV P1 getWild r) ∨
    (∃ r, a = LinkAction.constrainToFV P2 getWild r) := by
  unfold mergePair at h
  split at h
  · simp only [List.mem_cons] at h
    rcases h with h | h
    · exact Or.inl h
    · split at h
      · simp only [constrainParams, List.mem_map, List.mem_range] at h
        obtain ⟨i, hi, rfl⟩ := h
        exact Or.inr (Or.inl ⟨i, hi, rfl⟩)
      · split at h
        · simp only [List.mem_cons, List.mem_singleton, List.not_mem_nil, or_false] at h
          rcases h with h | h
          · exact Or.inr (Or.inr (Or.inl ⟨_, h⟩))
          · exact Or.inr (Or.inr (Or.inr ⟨_, h⟩))
        · simp at h
  · simp at h

/-- C18, evaluated where it fails: in the set of `g` the second and the third
member are consecutive declarations without a body, both with a prototype, with
one and with two parameters.  The set of `f` before it ends with a definition,
so `gap` is set on entry; the loop compares the first two members of `g` and
then every member with itself.  The second and the third member are never
compared and neither Function variable is constrained to Wild. -/
theorem link_consecutive_declarations_never_compared :
    link exArityGap = some exArityGapTrace ∧
    (exFunN "g" 5 [6] false).hasBody = false ∧ (exFunN "g" 7 [8, 9] false).hasBody = false ∧
    (exFunN "g" 5 [6] false).hasProtoType = true ∧
    (exFunN "g" 7 [8, 9] false).hasProtoType = true ∧
    (exFunN "g" 5 [6] false).numParams ≠ (exFunN "g" 7 [8, 9] false).numParams ∧
    (∀ a ∈ exArityGapTrace, ∀ f c r, a ≠ LinkAction.constrainToFV f c r) := by
  refine ⟨?_, rfl, rfl, rfl, rfl, by decide, ?_⟩
  · simp [link, exArityGap, exArityGapTrace, linkExternFunctions, linkExternEntry, linkVariables,
      linkGlobalVariables, linkGlobalFunctions, mergeAll, mergeSet, mergeLoop, mergePair, chainSet,
      exFunN, constrainParams, FVConstraint.numParams, FVConstraint.getParamVar, List.range,
      List.range.loop]
  · intro a ha f c r
    simp only [exArityGapTrace, List.mem_cons, List.mem_singleton, List.not_mem_nil, or_false] at ha
    rcases ha with rfl | rfl | rfl | rfl | rfl | rfl | rfl <;> simp

/-- C19: every call of the function-merging step of `link` is made for two
members `P1`, `P2` of the set of one name that both have no body, and it is an
equality between their return sets, an equality between their parameter sets at
one position, or a Wild constraint on `P1` or on `P2`: no call is made on the
variables of a member that has a body. -/
theorem link_merging_skips_definitions (st : ProgramInfo) (a : LinkAction)
    (ha : a ∈ linkGlobalFunctions st) :
    ∃ S ∈ st.GlobalFunctionSymbols, ∃ P1 ∈ S.2, ∃ P2 ∈ S.2,
      P1.hasBody = false ∧ P2.hasBody = false ∧
      (a = LinkAction.constrainEqSets P1.returnVars P2.returnVars ∨
       (∃ i, i < P1.numParams ∧
         a = LinkAction.constrainEqSets (P1.getParamVar i) (P2.getParamVar i)) ∨
       (∃ r, a = LinkAction.constrainToFV P1 getWild r) ∨
       (∃ r, a = LinkAction.constrainToFV P2 getWild r)) := by
  unfold linkGlobalFunctions at ha
  split at ha
  · obtain ⟨S, hS, P1, h1, P2, h2, hb1, hb2, hmem⟩ := mergeAll_mem_pair false _ a ha
    exact ⟨S, hS, P1, h1, P2, h2, hb1, hb2, mergePair_mem P1 P2 a hmem⟩
  · simp at ha

/-- The first call of the merging step on `exDeclDecl`. -/
theorem link_merging_skips_definitions_witness :
    LinkAction.constrainEqSets [exRet 1] [exRet 3] ∈ linkGlobalFunctions exDeclDecl ∧
    ∃ S ∈ exDeclDecl.GlobalFunctionSymbols, ∃ P1 ∈ S.2, ∃ P2 ∈ S.2,
      P1.hasBody = false ∧ P2.hasBody = false ∧
      (LinkAction.constrainEqSets [exRet 1] [exRet 3] =
          LinkAction.constrainEqSets P1.returnVars P2.returnVars ∨
       (∃ i, i < P1.numParams ∧
         LinkAction.constrainEqSets [exRet 1] [exRet 3] =
           LinkAction.constrainEqSets (P1.getParamVar i) (P2.getParamVar i)) ∨
       (∃ r, LinkAction.constrainEqSets [exRet 1] [exRet 3] =
          LinkAction.constrainToFV P1 getWild r) ∨
       (∃ r, LinkAction.constrainEqSets [exRet 1] [exRet 3] =
          LinkAction.constrainToFV P2 getWild r)) :=
  have hmem : LinkAction.constrainEqSets [exRet 1] [exRet 3] ∈ linkGlobalFunctions exDeclDecl := by
    simp [linkGlobalFunctions, exDeclDecl, mergeAll, mergeSet, mergeLoop, mergePair, exProtoDecl,
      exProtoDecl2]
  ⟨hmem, link_merging_skips_definitions exDeclDecl _ hmem⟩

/-! ## Properties of the variable store -/

theorem omFind_omSet {κ β : Type} [DecidableEq κ] (lt : κ → κ → Bool) (m : List (κ × β))
    (k : κ) (v : β) : omFind (omSet lt m k v) k = some v := by
  induction m with
  | nil => simp [omSet, omFind]
  | cons h t ih =>
    obtain ⟨k1, v1⟩ := h
    unfold omSet
    split
    · simp [omFind]
    · split
      · simp [omFind]
      · rename_i hne
        have : ¬ k1 = k := fun e => hne e.symm
        simp [omFind, this, ih]

theorem omFind_omSet_ne {κ β : Type} [DecidableEq κ] (lt : κ → κ → Bool) (m : List (κ × β))
    (k k2 : κ) (v : β) (hne : k ≠ k2) : omFind (omSet lt m k v) k2 = omFind m k2 := by
  induction m with
  | nil => simp [omSet, omFind, hne]
  | cons h t ih =>
    obtain ⟨k1, v1⟩ := h
    unfold omSet
    split
    · simp [omFind, hne]
    · split
      · rename_i heq
        subst heq
        simp [omFind, hne]
      · simp [omFind, ih]

theorem omFind_omSet_isSome {κ β : Type} [DecidableEq κ] (lt : κ → κ → Bool) (m : List (κ × β))
    (k k2 : κ) (v : β) (h : (omFind m k2).isSome = true) :
    (omFind (omSet lt m k v) k2).isSome = true := by
  by_cases hk : k = k2
  · subst hk; simp [omFind_omSet]
  · rw [omFind_omSet_ne lt m k k2 v hk]; exact h

theorem recordParameters_isSome (deref : Nat → FVConstraint)
    (ps : List ParmVarDecl) (sets : List (List InnerCVar)) :
    ∀ (Vs : List (PersistentSourceLoc × List CVar)) (k : PersistentSourceLoc),
      (omFind Vs k).isSome = true → (omFind (recordParameters deref Vs ps sets) k).isSome = true := by
  induction ps generalizing sets with
  | nil => intro Vs k h; simpa [recordParameters] using h
  | cons PVD ps ih =>
    intro Vs k h
    cases sets with
    | nil => simpa [recordParameters] using h
    | cons S sets =>
      unfold recordParameters
      split
      · exact ih sets Vs k h
      · exact ih sets _ k (omFind_omSet_isSome _ _ _ _ _ h)

theorem recordFunction_calls (env : AstEnv) (st : StoreState) (UD : FunctionDecl) (F : FVConstraint) :
    (recordFunction env st UD F).calls = st.calls ∧
    (recordFunction env st UD F).Variables = st.Variables := by
  unfold recordFunction
  split
  · split <;> simp
  · simp

theorem addVariable_some (env : AstEnv) (st st2 : StoreState) (D : Decl)
    (h : addVariable env st D = some st2) :
    ∃ S, omFind st2.Variables D.psl = some S ∧
      st2.calls = st.calls ++
        (if !D.isRewritable then
          S.map (fun C => StoreAction.constrainTo C getWild "Pointer in Macro declaration.")
         else []) := by
  unfold addVariable at h
  split at h
  · simp at h
  split at h
  · simp at h
  split at h
  · simp at h
  dsimp only at h
  split at h
  · simp at h
  rename_i st1 S1 hafter
  split at h
  · simp at h
  rename_i Vs hVs
  simp only [Option.some.injEq] at h
  subst h
  dsimp only
  have hst1 : st1.calls = st.calls ∧
      st1.Variables = omSet PersistentSourceLoc.lt st.Variables D.psl
        ((omFind st.Variables D.psl).getD []) := by
    revert hafter
    repeat' split
    all_goals intro hafter
    all_goals first
      | (simp at hafter; done)
      | (simp only [Option.some.injEq, Prod.mk.injEq] at hafter
         obtain ⟨h1, _⟩ := hafter
         subst h1
         simp [recordFunction_calls])
  have hsome : (omFind Vs D.psl).isSome = true := by
    have h2 : ∀ S2, (omFind (omSet PersistentSourceLoc.lt st1.Variables D.psl S2) D.psl).isSome = true := by
      intro S2; simp [omFind_omSet]
    revert hVs
    repeat' split
    all_goals intro hVs
    all_goals first
      | (simp at hVs; done)
      | (simp only [Option.some.injEq] at hVs
         subst hVs
         first | exact h2 _ | exact recordParameters_isSome _ _ _ _ _ (h2 _))
  obtain ⟨S, hS⟩ := Option.isSome_iff_exists.mp hsome
  refine ⟨S, hS, ?_⟩
  simp [hS, hst1.1]


theorem addVariable_isSome (env : AstEnv) (st : StoreState) (D : Decl)
    (hp : st.persisted = false) (hv : env.pslValid D.psl = true)
    (hD : ∀ psl n, D ≠ Decl.Other psl n)
    (hF : D.typeFlags.2.2 = true →
      hasFVConstraint ((omFind st.Variables D.psl).getD []) = false →
      ∃ FD, D = Decl.Function FD ∧ ∀ k, FD.params.length = (env.mkFV D k).1.numParams) :
    ∃ st2, addVariable env st D = some st2 := by
  cases hff : D.typeFlags.2.2 with
  | false =>
    cases D with
    | Other psl n => exact absurd rfl (hD psl n)
    | Function FD => simp [addVariable, hp, hv, hff]
    | ParmVar PD parent => simp [addVariable, hp, hv, hff]
    | Var VD => simp [addVariable, hp, hv, hff]
    | Field FD => simp [addVariable, hp, hv, hff]
  | true =>
    cases hfv : hasFVConstraint ((omFind st.Variables D.psl).getD []) with
    | true =>
      cases D with
      | Other psl n => exact absurd rfl (hD psl n)
      | Function FD => simp [addVariable, hp, hv, hff, hfv]
      | ParmVar PD parent => simp [addVariable, hp, hv, hff, hfv]
      | Var VD => simp [addVariable, hp, hv, hff, hfv]
      | Field FD => simp [addVariable, hp, hv, hff, hfv]
    | false =>
      obtain ⟨FD, hEq, hlen⟩ := hF hff hfv
      subst hEq
      simp [addVariable, hp, hv, hff, hfv, ← hlen]

theorem mem_ptrInsert {α : Type} [DecidableEq α] (S : List α) (x y : α) :
    y ∈ ptrInsert S x ↔ y ∈ S ∨ y = x := by
  unfold ptrInsert
  split
  · rename_i h
    constructor
    · exact Or.inl
    · rintro (h1 | rfl)
      · exact h1
      · exact h
  · simp

theorem mem_ptrInsertAll {α : Type} [DecidableEq α] (T S : List α) (y : α) :
    y ∈ ptrInsertAll S T ↔ y ∈ S ∨ y ∈ T := by
  induction T generalizing S with
  | nil => simp [ptrInsertAll]
  | cons t T ih =>
    have := ih (ptrInsert S t)
    simp only [ptrInsertAll, List.foldl_cons] at this ⊢
    rw [this, mem_ptrInsert]
    simp only [List.mem_cons]
    tauto

theorem hasPVConstraint_iff (S : List CVar) :
    hasPVConstraint S = true ↔ ∃ p, ConstraintVariable.PV p ∈ S := by
  simp only [hasPVConstraint, List.any_eq_true]
  constructor
  · rintro ⟨v, hv, h⟩
    cases v with
    | PV p => exact ⟨p, hv⟩
    | FV f => simp at h
  · rintro ⟨p, hp⟩
    exact ⟨_, hp, rfl⟩

theorem hasFVConstraint_iff (S : List CVar) :
    hasFVConstraint S = true ↔ ∃ f, ConstraintVariable.FV f ∈ S := by
  simp only [hasFVConstraint, List.any_eq_true]
  constructor
  · rintro ⟨v, hv, h⟩
    cases v with
    | PV p => simp at h
    | FV f => exact ⟨f, hv⟩
  · rintro ⟨f, hf⟩
    exact ⟨_, hf, rfl⟩

/-- The loop over the parameters only adds to the sets of the store. -/
theorem recordParameters_mono (deref : Nat → FVConstraint)
    (ps : List ParmVarDecl) (sets : List (List InnerCVar)) :
    ∀ (Vs : List (PersistentSourceLoc × List CVar)) (k : PersistentSourceLoc) (S : List CVar),
      omFind Vs k = some S →
      ∃ S2, omFind (recordParameters deref Vs ps sets) k = some S2 ∧ ∀ x ∈ S, x ∈ S2 := by
  induction ps generalizing sets with
  | nil => intro Vs k S h; exact ⟨S, by simpa [recordParameters] using h, fun x hx => hx⟩
  | cons PVD ps ih =>
    intro Vs k S h
    cases sets with
    | nil => exact ⟨S, by simpa [recordParameters] using h, fun x hx => hx⟩
    | cons T sets =>
      unfold recordParameters
      split
      · exact ih sets Vs k S h
      · by_cases hk : PVD.psl = k
        · subst hk
          obtain ⟨S2, h2, hsub⟩ := ih sets
            (omSet PersistentSourceLoc.lt Vs PVD.psl
              (ptrInsertAll ((omFind Vs PVD.psl).getD []) (T.map (liftInner deref))))
            PVD.psl _ (omFind_omSet _ _ _ _)
          refine ⟨S2, h2, fun x hx => hsub x ?_⟩
          rw [mem_ptrInsertAll]
          left
          simpa [h] using hx
        · obtain ⟨S2, h2, hsub⟩ := ih sets
            (omSet PersistentSourceLoc.lt Vs PVD.psl
              (ptrInsertAll ((omFind Vs PVD.psl).getD []) (T.map (liftInner deref))))
            k S (by rw [omFind_omSet_ne _ _ _ _ _ hk]; exact h)
          exact ⟨S2, h2, hsub⟩

/-- The method `addVariable` when no new Function variable is entered: the
declared type is no function type, or the set at the location has a Function
variable already. -/
theorem addVariable_without_new_function (env : AstEnv) (st : StoreState) (D : Decl)
    (hp : st.persisted = false) (hv : env.pslValid D.psl = true)
    (hD : ∀ psl n, D ≠ Decl.Other psl n)
    (hno : D.typeFlags.2.2 = false ∨
      hasFVConstraint ((omFind st.Variables D.psl).getD []) = true) :
    addVariable env st D = some
      { st with
        freeKey :=
          if D.typeFlags.2.2 then
            (env.mkFV D (if D.typeFlags.1 || D.typeFlags.2.1 then (env.mkPV D st.freeKey).2
                         else st.freeKey)).2
          else (if D.typeFlags.1 || D.typeFlags.2.1 then (env.mkPV D st.freeKey).2
                else st.freeKey)
        Variables := omSet PersistentSourceLoc.lt
          (omSet PersistentSourceLoc.lt st.Variables D.psl ((omFind st.Variables D.psl).getD []))
          D.psl
          (if (D.typeFlags.1 || D.typeFlags.2.1) &&
              !hasPVConstraint ((omFind st.Variables D.psl).getD [])
           then ptrInsert ((omFind st.Variables D.psl).getD [])
             (ConstraintVariable.PV (env.mkPV D st.freeKey).1)
           else (omFind st.Variables D.psl).getD [])
        calls := st.calls ++
          (if !D.isRewritable then
            (if (D.typeFlags.1 || D.typeFlags.2.1) &&
                !hasPVConstraint ((omFind st.Variables D.psl).getD [])
             then ptrInsert ((omFind st.Variables D.psl).getD [])
               (ConstraintVariable.PV (env.mkPV D st.freeKey).1)
             else (omFind st.Variables D.psl).getD []).map
              (fun C => StoreAction.constrainTo C getWild "Pointer in Macro declaration.")
           else []) } := by
  cases hpt : (D.typeFlags.1 || D.typeFlags.2.1) <;>
  cases hpv : hasPVConstraint ((omFind st.Variables D.psl).getD []) <;>
  cases hff : D.typeFlags.2.2 <;>
  cases hfv : hasFVConstraint ((omFind st.Variables D.psl).getD []) <;>
  first
  | (exfalso; rcases hno with h | h <;> simp_all; done)
  | (cases D with
     | Other psl n => exact absurd rfl (hD psl n)
     | Function FD =>
       simp [addVariable, hp, hv, hpt, hpv, hff, hfv, omFind_omSet]
     | ParmVar PD parent =>
       simp [addVariable, hp, hv, hpt, hpv, hff, hfv, omFind_omSet]
     | Var VD =>
       simp [addVariable, hp, hv, hpt, hpv, hff, hfv, omFind_omSet]
     | Field FD =>
       simp [addVariable, hp, hv, hpt, hpv, hff, hfv, omFind_omSet])

/-- The method `addVariable` when a new Function variable is entered: what it
returns and the set it leaves at the location of the declaration. -/
theorem addVariable_with_new_function (env : AstEnv) (st : StoreState) (FD : FunctionDecl)
    (hp : st.persisted = false) (hv : env.pslValid FD.psl = true)
    (hff : FD.isFunctionType = true)
    (hfv : hasFVConstraint ((omFind st.Variables FD.psl).getD []) = false)
    (hlen : ∀ k, FD.params.length = (env.mkFV (Decl.Function FD) k).1.numParams) :
    ∃ st2 S, addVariable env st (Decl.Function FD) = some st2 ∧
      omFind st2.Variables FD.psl = some S ∧
      st2.calls = st.calls ++
        (if !FD.isRewritable then
          S.map (fun C => StoreAction.constrainTo C getWild "Pointer in Macro declaration.")
         else []) ∧
      (∀ C ∈ (omFind st.Variables FD.psl).getD [], C ∈ S) ∧
      ConstraintVariable.FV
        (env.mkFV (Decl.Function FD)
          (if FD.isPointerType || FD.isArrayType then (env.mkPV (Decl.Function FD) st.freeKey).2
           else st.freeKey)).1 ∈ S ∧
      ((FD.isPointerType || FD.isArrayType) = true →
        hasPVConstraint ((omFind st.Variables FD.psl).getD []) = false →
        ConstraintVariable.PV (env.mkPV (Decl.Function FD) st.freeKey).1 ∈ S) := by
  have hpvS1 : ∀ f, hasPVConstraint (ptrInsert ((omFind st.Variables FD.psl).getD [])
      (ConstraintVariable.FV f)) = hasPVConstraint ((omFind st.Variables FD.psl).getD []) := by
    intro f
    cases h1 : hasPVConstraint ((omFind st.Variables FD.psl).getD []) with
    | true =>
      obtain ⟨p, hp1⟩ := (hasPVConstraint_iff _).mp h1
      exact (hasPVConstraint_iff _).mpr ⟨p, (mem_ptrInsert _ _ _).mpr (Or.inl hp1)⟩
    | false =>
      cases h2 : hasPVConstraint (ptrInsert ((omFind st.Variables FD.psl).getD [])
          (ConstraintVariable.FV f)) with
      | false => rfl
      | true =>
        obtain ⟨p, hp2⟩ := (hasPVConstraint_iff _).mp h2
        rcases (mem_ptrInsert _ _ _).mp hp2 with h | h
        · have := (hasPVConstraint_iff _).mpr ⟨p, h⟩
          rw [h1] at this
          exact absurd this (by simp)
        · simp at h
  obtain ⟨st2, h2⟩ := addVariable_isSome env st (Decl.Function FD) hp hv
    (by intro psl n h; simp at h) (fun _ _ => ⟨FD, rfl, hlen⟩)
  have h3 := h2
  cases hpt : (FD.isPointerType || FD.isArrayType) with
  | false =>
    obtain ⟨S, hS, hsub⟩ := recordParameters_mono env.deref FD.params
      (env.mkFV (Decl.Function FD) st.freeKey).1.paramVars
      (omSet PersistentSourceLoc.lt
        (omSet PersistentSourceLoc.lt st.Variables FD.psl ((omFind st.Variables FD.psl).getD []))
        FD.psl
        (ptrInsert ((omFind st.Variables FD.psl).getD [])
          (ConstraintVariable.FV (env.mkFV (Decl.Function FD) st.freeKey).1)))
      FD.psl _ (omFind_omSet _ _ _ _)
    simp [addVariable, hp, hv, hpt, hff, hfv, Decl.psl, Decl.typeFlags, ← hlen,
      recordFunction_calls] at h3
    subst h3
    refine ⟨_, S, h2, ?_, ?_, ?_, ?_, ?_⟩
    · simpa [recordFunction_calls] using hS
    · simp [recordFunction_calls, hS, Decl.isRewritable]
    · intro C hC
      exact hsub C ((mem_ptrInsert _ _ _).mpr (Or.inl hC))
    · simp only [Bool.false_eq_true, if_false]
      exact hsub _ ((mem_ptrInsert _ _ _).mpr (Or.inr rfl))
    · intro h
      simp at h
  | true =>
    cases hpv : hasPVConstraint ((omFind st.Variables FD.psl).getD []) with
    | true =>
      obtain ⟨S, hS, hsub⟩ := recordParameters_mono env.deref FD.params
        (env.mkFV (Decl.Function FD) (env.mkPV (Decl.Function FD) st.freeKey).2).1.paramVars
        (omSet PersistentSourceLoc.lt
          (omSet PersistentSourceLoc.lt st.Variables FD.psl ((omFind st.Variables FD.psl).getD []))
          FD.psl
          (ptrInsert ((omFind st.Variables FD.psl).getD [])
            (ConstraintVariable.FV
              (env.mkFV (Decl.Function FD) (env.mkPV (Decl.Function FD) st.freeKey).2).1)))
        FD.psl _ (omFind_omSet _ _ _ _)
      simp [addVariable, hp, hv, hpt, hff, hfv, hpv, hpvS1, Decl.psl, Decl.typeFlags, ← hlen,
        recordFunction_calls] at h3
      subst h3
      refine ⟨_, S, h2, ?_, ?_, ?_, ?_, ?_⟩
      · simpa [recordFunction_calls] using hS
      · simp [recordFunction_calls, hS, Decl.isRewritable]
      · intro C hC
        exact hsub C ((mem_ptrInsert _ _ _).mpr (Or.inl hC))
      · simp only [if_true]
        exact hsub _ ((mem_ptrInsert _ _ _).mpr (Or.inr rfl))
      · intro _ h
        simp at h
    | false =>
      obtain ⟨S, hS, hsub⟩ := recordParameters_mono env.deref FD.params
        (env.mkFV (Decl.Function FD) (env.mkPV (Decl.Function FD) st.freeKey).2).1.paramVars
        (omSet PersistentSourceLoc.lt
          (omSet PersistentSourceLoc.lt st.Variables FD.psl ((omFind st.Variables FD.psl).getD []))
          FD.psl
          (ptrInsert
            (ptrInsert ((omFind st.Variables FD.psl).getD [])
              (ConstraintVariable.FV
                (env.mkFV (Decl.Function FD) (env.mkPV (Decl.Function FD) st.freeKey).2).1))
            (ConstraintVariable.PV (env.mkPV (Decl.Function FD) st.freeKey).1)))
        FD.psl _ (omFind_omSet _ _ _ _)
      simp [addVariable, hp, hv, hpt, hff, hfv, hpv, hpvS1, Decl.psl, Decl.typeFlags, ← hlen,
        recordFunction_calls] at h3
      subst h3
      refine ⟨_, S, h2, ?_, ?_, ?_, ?_, ?_⟩
      · simpa [recordFunction_calls] using hS
      · simp [recordFunction_calls, hS, Decl.isRewritable]
      · intro C hC
        exact hsub C ((mem_ptrInsert _ _ _).mpr (Or.inl ((mem_ptrInsert _ _ _).mpr (Or.inl hC))))
      · simp only [if_true]
        exact hsub _ ((mem_ptrInsert _ _ _).mpr (Or.inl ((mem_ptrInsert _ _ _).mpr (Or.inr rfl))))
      · intro _ _
        exact hsub _ ((mem_ptrInsert _ _ _).mpr (Or.inr rfl))

/-- C15: `addVariable` on a declaration whose location is not rewritable
returns, when its assertions hold.  The set it leaves at the identity of the
declaration holds every member the set had, the new Pointer variable of a
declaration of pointer or array type whose set had no Pointer variable, and the
new Function variable of a declaration of function type whose set had no
Function variable; when no Function variable is entered it holds nothing else.
The calls it adds to the trace are the Wild constraints, for the reason
"Pointer in Macro declaration.", on the members of that set, one for each. -/
theorem addVariable_macro_wild (env : AstEnv) (st : StoreState) (D : Decl)
    (hp : st.persisted = false) (hv : env.pslValid D.psl = true)
    (hD : ∀ psl n, D ≠ Decl.Other psl n)
    (hF : D.typeFlags.2.2 = true →
      hasFVConstraint ((omFind st.Variables D.psl).getD []) = false →
      ∃ FD, D = Decl.Function FD ∧ ∀ k, FD.params.length = (env.mkFV D k).1.numParams)
    (hnrw : D.isRewritable = false) :
    ∃ st2 S, addVariable env st D = some st2 ∧ omFind st2.Variables D.psl = some S ∧
      st2.calls = st.calls ++
        S.map (fun C => StoreAction.constrainTo C getWild "Pointer in Macro declaration.") ∧
      (∀ C ∈ (omFind st.Variables D.psl).getD [], C ∈ S) ∧
      ((D.typeFlags.1 || D.typeFlags.2.1) = true →
        hasPVConstraint ((omFind st.Variables D.psl).getD []) = false →
        ConstraintVariable.PV (env.mkPV D st.freeKey).1 ∈ S) ∧
      (D.typeFlags.2.2 = true →
        hasFVConstraint ((omFind st.Variables D.psl).getD []) = false →
        ConstraintVariable.FV
          (env.mkFV D (if D.typeFlags.1 || D.typeFlags.2.1 then (env.mkPV D st.freeKey).2
                       else st.freeKey)).1 ∈ S) ∧
      (D.typeFlags.2.2 = false ∨ hasFVConstraint ((omFind st.Variables D.psl).getD []) = true →
        S = if (D.typeFlags.1 || D.typeFlags.2.1) &&
               !hasPVConstraint ((omFind st.Variables D.psl).getD [])
            then ptrInsert ((omFind st.Variables D.psl).getD [])
              (ConstraintVariable.PV (env.mkPV D st.freeKey).1)
            else (omFind st.Variables D.psl).getD []) := by
  by_cases hno : D.typeFlags.2.2 = false ∨
      hasFVConstraint ((omFind st.Variables D.psl).getD []) = true
  · have h := addVariable_without_new_function env st D hp hv hD hno
    refine ⟨_, _, h, omFind_omSet _ _ _ _, by simp [hnrw], ?_, ?_, ?_, fun _ => rfl⟩
    · intro C hC
      split
      · exact (mem_ptrInsert _ _ _).mpr (Or.inl hC)
      · exact hC
    · intro hpt hpv
      simp only [hpt, hpv, Bool.not_false, Bool.and_self, if_true]
      exact (mem_ptrInsert _ _ _).mpr (Or.inr rfl)
    · intro hff hfv
      rcases hno with h1 | h1
      · rw [hff] at h1; exact absurd h1 (by simp)
      · rw [hfv] at h1; exact absurd h1 (by simp)
  · have hff : D.typeFlags.2.2 = true := by
      cases h1 : D.typeFlags.2.2 with
      | true => rfl
      | false => exact absurd (Or.inl h1) hno
    have hfv : hasFVConstraint ((omFind st.Variables D.psl).getD []) = false := by
      cases h1 : hasFVConstraint ((omFind st.Variables D.psl).getD []) with
      | false => rfl
      | true => exact absurd (Or.inr h1) hno
    obtain ⟨FD, hEq, hlen⟩ := hF hff hfv
    subst hEq
    obtain ⟨st2, S, h, hS, hcalls, hsub, hfvin, hpvin⟩ :=
      addVariable_with_new_function env st FD hp hv hff hfv hlen
    have hr : FD.isRewritable = false := hnrw
    refine ⟨st2, S, h, hS, by simpa [hr] using hcalls, hsub, hpvin, fun _ _ => hfvin, ?_⟩
    intro h1
    exact absurd h1 hno

/-- A pointer declared inside a macro expansion is entered into the empty store:
its Pointer variable is stored at its location and constrained to Wild. -/
theorem addVariable_macro_wild_witness :
    ∃ st2, addVariable exAstEnv exEmptyStore exMacroVar = some st2 ∧
      omFind st2.Variables (exLoc "a.c") =
        some [ConstraintVariable.PV (exAstEnv.mkPV exMacroVar 0).1] ∧
      st2.calls =
        [StoreAction.constrainTo (ConstraintVariable.PV (exAstEnv.mkPV exMacroVar 0).1) getWild
          "Pointer in Macro declaration."] := by
  obtain ⟨st2, S, h, hS, hcalls, _, _, _, hex⟩ :=
    addVariable_macro_wild exAstEnv exEmptyStore exMacroVar rfl rfl
      (by intro psl n h; simp [exMacroVar] at h)
      (by intro h; simp [exMacroVar, Decl.typeFlags] at h)
      rfl
  have hSeq : S = [ConstraintVariable.PV (exAstEnv.mkPV exMacroVar 0).1] := by
    rw [hex (Or.inl rfl)]
    rfl
  subst hSeq
  exact ⟨st2, h, hS, by simpa [exEmptyStore] using hcalls⟩

/-- C16: for a declaration whose persistent location is no key of `Variables`
(and a store that is not persisted, which the method asserts)
`getVariableOnDemand` returns the empty set and leaves the state, the trace of
calls into the constraint system included, as it was. -/
theorem getVariableOnDemand_unknown_identity (env : AstEnv) (st : StoreState) (D : Decl)
    (inFunctionContext : Bool) (hp : st.persisted = false)
    (hnot : omFind st.Variables D.psl = none) :
    getVariableOnDemand env st D inFunctionContext = some ([], st) := by
  simp [getVariableOnDemand, hp, hnot]

/-- A variable is looked up in the empty store. -/
theorem getVariableOnDemand_unknown_identity_witness :
    exEmptyStore.persisted = false ∧ omFind exEmptyStore.Variables exMacroVar.psl = none ∧
    getVariableOnDemand exAstEnv exEmptyStore exMacroVar true = some ([], exEmptyStore) :=
  ⟨rfl, rfl, getVariableOnDemand_unknown_identity exAstEnv exEmptyStore exMacroVar true rfl rfl⟩

theorem OnDemandInv_of_empty (st : StoreState) (h : st.OnDemandFuncDeclConstraint = []) :
    OnDemandInv st := by
  intro key S hS
  rw [h] at hS
  simp [omFind] at hS

theorem OnDemandInv_congr (st st2 : StoreState)
    (h : st2.OnDemandFuncDeclConstraint = st.OnDemandFuncDeclConstraint)
    (hinv : OnDemandInv st) : OnDemandInv st2 := by
  intro key S hS
  rw [h] at hS
  exact hinv key S hS

theorem getOnDemandFuncDeclarationConstraint_OnDemandInv (env : AstEnv) (st st1 : StoreState)
    (targetFunc : FunctionDecl) (S : List CVar)
    (h : getOnDemandFuncDeclarationConstraint env st targetFunc = some (S, st1))
    (hinv : OnDemandInv st) : OnDemandInv st1 := by
  unfold getOnDemandFuncDeclarationConstraint at h
  dsimp only at h
  split at h
  · simp only [Option.some.injEq, Prod.mk.injEq] at h
    rw [← h.2]; exact hinv
  · rename_i hnone
    split at h
    · simp at h
    split at h
    · simp at h
    simp only [Option.some.injEq, Prod.mk.injEq] at h
    rw [← h.2]
    intro key T hT
    by_cases hk : getUniqueFuncKey env targetFunc = key
    · subst hk
      simp [omInsertInto, omFind_omSet, hnone, ptrInsert] at hT
      subst hT
      simp
    · simp only [omInsertInto] at hT
      rw [omFind_omSet_ne _ _ _ _ _ hk] at hT
      exact hinv key T hT

theorem recordFunction_onDemand (env : AstEnv) (st : StoreState) (UD : FunctionDecl)
    (F : FVConstraint) :
    (recordFunction env st UD F).OnDemandFuncDeclConstraint = st.OnDemandFuncDeclConstraint := by
  unfold recordFunction
  split
  · split <;> simp
  · simp

theorem addVariable_onDemand (env : AstEnv) (st st2 : StoreState) (D : Decl)
    (h : addVariable env st D = some st2) :
    st2.OnDemandFuncDeclConstraint = st.OnDemandFuncDeclConstraint := by
  unfold addVariable at h
  split at h
  · simp at h
  split at h
  · simp at h
  split at h
  · simp at h
  dsimp only at h
  split at h
  · simp at h
  rename_i st1 S1 hafter
  split at h
  · simp at h
  rename_i Vs hVs
  simp only [Option.some.injEq] at h
  subst h
  dsimp only
  revert hafter
  repeat' split
  all_goals intro hafter
  all_goals first
    | (simp at hafter; done)
    | (simp only [Option.some.injEq, Prod.mk.injEq] at hafter
       obtain ⟨h1, _⟩ := hafter
       subst h1
       simp [recordFunction_onDemand])

theorem addVariable_OnDemandInv (env : AstEnv) (st st2 : StoreState) (D : Decl)
    (h : addVariable env st D = some st2) (hinv : OnDemandInv st) : OnDemandInv st2 :=
  OnDemandInv_congr st st2 (addVariable_onDemand env st st2 D h) hinv

theorem variableOfFunctionPart_OnDemandInv (env : AstEnv) (st st1 : StoreState)
    (isFunction : Bool) (funcDeclaration funcDefinition : Option FunctionDecl)
    (parameterIndex : Option Nat) (inFunctionContext : Bool) (S : List CVar)
    (h : variableOfFunctionPart env st isFunction funcDeclaration funcDefinition parameterIndex
      inFunctionContext = some (S, st1))
    (hinv : OnDemandInv st) : OnDemandInv st1 := by
  unfold variableOfFunctionPart at h
  dsimp only at h
  revert h
  repeat' split
  all_goals intro h
  all_goals first
    | (simp at h; done)
    | (simp only [Option.map_eq_some', Prod.mk.injEq] at h
       obtain ⟨_, _, _, h2⟩ := h
       rw [← h2]; exact hinv)
    | (simp only [Option.map_eq_some', Prod.mk.injEq] at h
       obtain ⟨_, _, _, h2⟩ := h
       rw [← h2]
       exact getOnDemandFuncDeclarationConstraint_OnDemandInv _ _ _ _ _ (by assumption) hinv)
    | (simp only [Option.some.injEq, Prod.mk.injEq] at h
       rw [← h.2]
       exact getOnDemandFuncDeclarationConstraint_OnDemandInv _ _ _ _ _ (by assumption) hinv)

theorem getVariableOnDemand_OnDemandInv (env : AstEnv) (st st1 : StoreState) (D : Decl)
    (inFunctionContext : Bool) (S : List CVar)
    (h : getVariableOnDemand env st D inFunctionContext = some (S, st1))
    (hinv : OnDemandInv st) : OnDemandInv st1 := by
  have hst : ∀ (T : List CVar), some (T, st) = some (S, st1) → OnDemandInv st1 := by
    intro T hT
    simp only [Option.some.injEq, Prod.mk.injEq] at hT
    rw [← hT.2]; exact hinv
  unfold getVariableOnDemand at h
  split at h
  · simp at h
  split at h
  · exact hst _ h
  · split at h
    · dsimp only at h
      split at h
      · exact variableOfFunctionPart_OnDemandInv _ _ _ _ _ _ _ _ _ h hinv
      · exact hst _ h
    · split at h
      · simp at h
      · dsimp only at h
        split at h
        · simp at h
        · exact variableOfFunctionPart_OnDemandInv _ _ _ _ _ _ _ _ _ h hinv
    · exact hst _ h

theorem getVariable_OnDemandInv (env : AstEnv) (st st1 : StoreState) (D : Decl)
    (inFunctionContext : Bool) (S : List CVar)
    (h : getVariable env st D inFunctionContext = some (S, st1))
    (hinv : OnDemandInv st) : OnDemandInv st1 := by
  unfold getVariable at h
  split at h
  · exact getVariableOnDemand_OnDemandInv _ _ _ _ _ _ h hinv
  · exact getVariableOnDemand_OnDemandInv _ _ _ _ _ _ h hinv

theorem getVariableHelper_OnDemandInv (env : AstEnv) (E : Expr) :
    ∀ (st st1 : StoreState) (ifc : Bool) (S : List CVar),
      getVariableHelper env st E ifc = some (S, st1) → OnDemandInv st → OnDemandInv st1 := by
  induction E with
  | DeclRef D =>
    intro st st1 ifc S h hinv
    exact getVariable_OnDemandInv env st st1 D ifc S (by simpa [getVariableHelper] using h) hinv
  | Member D =>
    intro st st1 ifc S h hinv
    exact getVariable_OnDemandInv env st st1 D ifc S (by simpa [getVariableHelper] using h) hinv
  | Binary LHS RHS ih1 ih2 =>
    intro st st1 ifc S h hinv
    unfold getVariableHelper at h
    split at h
    · simp at h
    rename_i T1 sa h1
    split at h
    · simp at h
    rename_i T2 sb h2
    simp only [Option.some.injEq, Prod.mk.injEq] at h
    rw [← h.2]
    exact ih2 _ _ _ _ h2 (ih1 _ _ _ _ h1 hinv)
  | ArraySubscript Base Idx ih1 _ =>
    intro st st1 ifc S h hinv
    unfold getVariableHelper at h
    split at h
    · simp at h
    rename_i T1 sa h1
    simp only [Option.some.injEq, Prod.mk.injEq] at h
    rw [← h.2]
    exact ih1 _ _ _ _ h1 hinv
  | Unary Op Sub ih =>
    intro st st1 ifc S h hinv
    unfold getVariableHelper at h
    split at h
    · simp at h
    rename_i T1 sa h1
    cases Op with
    | Deref =>
      simp only [Option.map_eq_some', Prod.mk.injEq] at h
      obtain ⟨_, _, _, h2⟩ := h
      rw [← h2]
      exact ih _ _ _ _ h1 hinv
    | OtherOp =>
      simp only [Option.some.injEq, Prod.mk.injEq] at h
      rw [← h.2]
      exact ih _ _ _ _ h1 hinv
  | ImplicitCast Sub ih =>
    intro st st1 ifc S h hinv
    unfold getVariableHelper at h
    exact ih _ _ _ _ h hinv
  | ExplicitCast Sub ih =>
    intro st st1 ifc S h hinv
    unfold getVariableHelper at h
    exact ih _ _ _ _ h hinv
  | Paren Sub ih =>
    intro st st1 ifc S h hinv
    unfold getVariableHelper at h
    exact ih _ _ _ _ h hinv
  | BindTemporary Sub ih =>
    intro st st1 ifc S h hinv
    unfold getVariableHelper at h
    exact ih _ _ _ _ h hinv
  | Call CalleeDecl Callee ih =>
    intro st st1 ifc S h hinv
    cases CalleeDecl with
    | none =>
      unfold getVariableHelper at h
      split at h
      · simp at h
      rename_i T1 sa h1
      simp only [Option.some.injEq, Prod.mk.injEq] at h
      rw [← h.2]
      exact ih _ _ _ _ h1 hinv
    | some D =>
      unfold getVariableHelper at h
      split at h
      · simp at h
      split at h
      · simp at h
      rename_i CS sa h1
      split at h
      all_goals
        simp only [Option.some.injEq, Prod.mk.injEq] at h
        rw [← h.2]
        exact getVariable_OnDemandInv env _ _ _ _ _ h1 hinv
  | Conditional Cond LHS RHS ih1 ih2 ih3 =>
    intro st st1 ifc S h hinv
    unfold getVariableHelper at h
    split at h
    · simp at h
    rename_i T1 sa h1
    split at h
    · simp at h
    rename_i T2 sb h2
    split at h
    · simp at h
    rename_i T3 sc h3
    simp only [Option.some.injEq, Prod.mk.injEq] at h
    rw [← h.2]
    exact ih3 _ _ _ _ h3 (ih2 _ _ _ _ h2 (ih1 _ _ _ _ h1 hinv))
  | StringLiteral Bytes =>
    intro st st1 ifc S h hinv
    unfold getVariableHelper at h
    simp only [Option.some.injEq, Prod.mk.injEq] at h
    rw [← h.2]
    exact OnDemandInv_congr st _ rfl hinv
  | OtherExpr =>
    intro st st1 ifc S h hinv
    unfold getVariableHelper at h
    simp only [Option.some.injEq, Prod.mk.injEq] at h
    rw [← h.2]
    exact hinv

/-- C17: for a function of function type, in a store whose on-demand entries
are non-empty sets of Function variables (the invariant `OnDemandInv`, which
holds of the empty map and is kept by every method of the store),
`getOnDemandFuncDeclarationConstraint` returns a non-empty set of Function
variables, which is the entry of the on-demand map under the key of the
function in the state it leaves.  When the map had an entry under that key, the
entry is returned and the state is left as it is.  When it had none, the set is
the one new Function variable made for the function from the free key, the free
key moves past it, the variable is entered under the key in the declaration map
too, and no other key of the on-demand map changes.  A second call for the same
function, made in the state the first one left, returns the same set and leaves
that state as it is: no key is consumed and no map gets a new entry.  The state
left satisfies the invariant again. -/
theorem getOnDemandFuncDeclarationConstraint_cached (env : AstEnv) (st : StoreState)
    (targetFunc : FunctionDecl)
    (hptr : targetFunc.isPointerType = false) (harr : targetFunc.isArrayType = false)
    (hfun : targetFunc.isFunctionType = true)
    (hinv : OnDemandInv st) :
    ∃ S st1, getOnDemandFuncDeclarationConstraint env st targetFunc = some (S, st1) ∧
      S ≠ [] ∧ (∀ v ∈ S, ∃ f, v = ConstraintVariable.FV f) ∧
      omFind st1.OnDemandFuncDeclConstraint (getUniqueFuncKey env targetFunc) = some S ∧
      (∀ S0, omFind st.OnDemandFuncDeclConstraint (getUniqueFuncKey env targetFunc) = some S0 →
        S = S0 ∧ st1 = st) ∧
      (omFind st.OnDemandFuncDeclConstraint (getUniqueFuncKey env targetFunc) = none →
        S = [ConstraintVariable.FV (env.mkFV (Decl.Function targetFunc) st.freeKey).1] ∧
        st1.freeKey = (env.mkFV (Decl.Function targetFunc) st.freeKey).2 ∧
        ConstraintVariable.FV (env.mkFV (Decl.Function targetFunc) st.freeKey).1 ∈
          (omFind st1.FuncDeclVarMap (getUniqueFuncKey env targetFunc)).getD [] ∧
        (∀ key, key ≠ getUniqueFuncKey env targetFunc →
          omFind st1.OnDemandFuncDeclConstraint key = omFind st.OnDemandFuncDeclConstraint key ∧
          omFind st1.FuncDeclVarMap key = omFind st.FuncDeclVarMap key) ∧
        st1.Variables = st.Variables ∧ st1.FuncDefnVarMap = st.FuncDefnVarMap ∧
        st1.FuncDefnDeclMap = st.FuncDefnDeclMap ∧ st1.calls = st.calls ∧
        st1.persisted = st.persisted) ∧
      getOnDemandFuncDeclarationConstraint env st1 targetFunc = some (S, st1) ∧
      OnDemandInv st1 := by
  cases hfind : omFind st.OnDemandFuncDeclConstraint (getUniqueFuncKey env targetFunc) with
  | some S =>
    obtain ⟨hne, hall⟩ := hinv _ S hfind
    refine ⟨S, st, by simp [getOnDemandFuncDeclarationConstraint, hfind], hne, hall, hfind, ?_,
      ?_, by simp [getOnDemandFuncDeclarationConstraint, hfind], hinv⟩
    · intro S0 hS0
      simp only [Option.some.injEq] at hS0
      exact ⟨hS0, rfl⟩
    · intro h; simp at h
  | none =>
    have hcall : getOnDemandFuncDeclarationConstraint env st targetFunc =
        some ([ConstraintVariable.FV (env.mkFV (Decl.Function targetFunc) st.freeKey).1],
          { st with
            freeKey := (env.mkFV (Decl.Function targetFunc) st.freeKey).2
            OnDemandFuncDeclConstraint :=
              omInsertInto stringLt st.OnDemandFuncDeclConstraint (getUniqueFuncKey env targetFunc)
                (ConstraintVariable.FV (env.mkFV (Decl.Function targetFunc) st.freeKey).1)
            FuncDeclVarMap :=
              omInsertInto stringLt st.FuncDeclVarMap (getUniqueFuncKey env targetFunc)
                (ConstraintVariable.FV (env.mkFV (Decl.Function targetFunc) st.freeKey).1) }) := by
      simp [getOnDemandFuncDeclarationConstraint, hfind, hptr, harr, hfun, omInsertInto,
        omFind_omSet, ptrInsert]
    refine ⟨_, _, hcall, by simp, ?_, ?_, ?_, ?_, ?_,
      getOnDemandFuncDeclarationConstraint_OnDemandInv _ _ _ _ _ hcall hinv⟩
    · intro v hv
      simp only [List.mem_singleton] at hv
      exact ⟨_, hv⟩
    · simp [omInsertInto, hfind, omFind_omSet, ptrInsert]
    · intro S0 hS0; simp at hS0
    · intro _
      refine ⟨rfl, rfl, ?_, ?_, rfl, rfl, rfl, rfl, rfl⟩
      · simp only [omInsertInto, omFind_omSet, Option.getD_some]
        exact (mem_ptrInsert _ _ _).mpr (Or.inr rfl)
      · intro key hkey
        simp only [omInsertInto]
        exact ⟨omFind_omSet_ne _ _ _ _ _ (Ne.symm hkey), omFind_omSet_ne _ _ _ _ _ (Ne.symm hkey)⟩
    · simp [getOnDemandFuncDeclarationConstraint, omInsertInto, hfind, omFind_omSet, ptrInsert]

theorem exOnDemandStore_inv : OnDemandInv exOnDemandStore := by
  intro key S hS
  simp only [exOnDemandStore, omFind] at hS
  split at hS
  · simp only [Option.some.injEq] at hS
    subst hS
    simp
  · simp at hS

/-- The variable of `f` is asked for twice.  The first call, in the empty store,
makes it and leaves the store `exOnDemandStore`, whose on-demand map has the entry;
the second call, in that store, finds it and leaves the store as it is. -/
theorem getOnDemandFuncDeclarationConstraint_cached_witness :
    getOnDemandFuncDeclarationConstraint exAstEnv exEmptyStore exFunctionDecl =
      some ([ConstraintVariable.FV (exAstEnv.mkFV (Decl.Function exFunctionDecl) 0).1],
        exOnDemandStore) ∧
    OnDemandInv exOnDemandStore ∧
    omFind exOnDemandStore.OnDemandFuncDeclConstraint (getUniqueFuncKey exAstEnv exFunctionDecl) =
      some [ConstraintVariable.FV (exAstEnv.mkFV (Decl.Function exFunctionDecl) 0).1] ∧
    getOnDemandFuncDeclarationConstraint exAstEnv exOnDemandStore exFunctionDecl =
      some ([ConstraintVariable.FV (exAstEnv.mkFV (Decl.Function exFunctionDecl) 0).1],
        exOnDemandStore) := by
  have hentry : omFind exOnDemandStore.OnDemandFuncDeclConstraint
      (getUniqueFuncKey exAstEnv exFunctionDecl) =
      some [ConstraintVariable.FV (exAstEnv.mkFV (Decl.Function exFunctionDecl) 0).1] := by
    simp [exOnDemandStore, omFind]
  obtain ⟨S, st1, hcall, _, _, _, hfound, _, _, _⟩ :=
    getOnDemandFuncDeclarationConstraint_cached exAstEnv exOnDemandStore exFunctionDecl
      rfl rfl rfl exOnDemandStore_inv
  obtain ⟨hS, hst⟩ := hfound _ hentry
  subst hS
  subst hst
  refine ⟨?_, exOnDemandStore_inv, hentry, hcall⟩
  simp [getOnDemandFuncDeclarationConstraint, exEmptyStore, exOnDemandStore, omFind, omInsertInto,
    omSet, ptrInsert, exFunctionDecl, exAstEnv]

theorem derefSet_of_FV (T : List CVar) (h : ∃ f, ConstraintVariable.FV f ∈ T) : derefSet T = none := by
  induction T with
  | nil => simp at h
  | cons v rest ih =>
    cases v with
    | FV g => simp [derefSet]
    | PV p =>
      obtain ⟨f, hf⟩ := h
      simp only [List.mem_cons, reduceCtorEq, false_or] at hf
      simp [derefSet, ih ⟨f, hf⟩]

/-- C20: when the operand of a dereference resolves to a set that holds a
Function variable, `getVariableHelper` on the dereference gives no result. -/
theorem getVariableHelper_deref_function_aborts (env : AstEnv) (st st1 : StoreState) (Sub : Expr)
    (ifc : Bool) (T : List CVar)
    (hSub : getVariableHelper env st Sub ifc = some (T, st1))
    (hFV : ∃ f, ConstraintVariable.FV f ∈ T) :
    getVariableHelper env st (Expr.Unary UnaryOpcode.Deref Sub) ifc = none := by
  simp [getVariableHelper, hSub, derefSet_of_FV T hFV]

/-- The expression `*f` for a declared function `f`. -/
theorem getVariableHelper_deref_function_aborts_witness :
    getVariableHelper exAstEnv exFunctionStore (Expr.DeclRef (Decl.Function exFunctionDecl)) false =
      some ([ConstraintVariable.FV (exDecl 1)], exFunctionStore) ∧
    getVariableHelper exAstEnv exFunctionStore
      (Expr.Unary UnaryOpcode.Deref (Expr.DeclRef (Decl.Function exFunctionDecl))) false = none :=
  have hSub : getVariableHelper exAstEnv exFunctionStore
      (Expr.DeclRef (Decl.Function exFunctionDecl)) false =
        some ([ConstraintVariable.FV (exDecl 1)], exFunctionStore) := by
    simp [getVariableHelper, getVariable, getVariableOnDemand, exFunctionStore, exFunctionDecl,
      exAstEnv, Decl.psl, omFind, variableOfFunctionPart, getVariableOfFunction]
  ⟨hSub, getVariableHelper_deref_function_aborts exAstEnv exFunctionStore exFunctionStore _ false _
    hSub ⟨exDecl 1, by simp⟩⟩

/-! ## Properties of `isExplicitCastSafe` -/

theorem isExplicitCastSafe_self (T : QualType) : isExplicitCastSafe T T = true := by
  cases T <;> simp [isExplicitCastSafe]

/-- Two types with different numbers of `PointerType` levels: the cast is not
safe. -/
theorem isExplicitCastSafe_depth (A B : QualType) (h : A.depth ≠ B.depth) :
    isExplicitCastSafe A B = false := by
  induction A generalizing B with
  | other qa Ta =>
    cases B with
    | other qb Tb => simp [QualType.depth] at h
    | pointer qb pb => simp [isExplicitCastSafe]
  | pointer qa pa ih =>
    cases B with
    | other qb Tb => simp [isExplicitCastSafe]
    | pointer qb pb =>
      have hne : QualType.pointer qb pb ≠ QualType.pointer qa pa := by
        intro e
        rw [e] at h
        exact h rfl
      have hd : pa.depth ≠ pb.depth := by
        intro e
        apply h
        simp [QualType.depth, e]
      rw [isExplicitCastSafe]
      simp only [hne, if_false]
      exact ih pb hd

/-- C26, evaluated where it fails: `IP` and `IPP` are typedef names of `int *`
and of `int **`, pointer types of indirection depth 1 and 2.  Neither node is a
`PointerType`, so both tests on pointers are passed over; both are scalar and
agree on the three predicates, and the cast is found safe in either direction.
Written without typedef names the same cast is not safe. -/
theorem isExplicitCastSafe_typedef_depth_mismatch :
    exTypedefIP.pointerDepth = 1 ∧ exTypedefIPP.pointerDepth = 2 ∧
    isExplicitCastSafe exTypedefIP exTypedefIPP = true ∧
    isExplicitCastSafe exTypedefIPP exTypedefIP = true ∧
    isExplicitCastSafe (QualType.pointer 0 exInt) (QualType.pointer 0 (QualType.pointer 0 exInt))
      = false := by
  refine ⟨rfl, rfl, by decide, by decide, by decide⟩

/-- C27: an explicit cast of a type to itself is safe. -/
theorem isExplicitCastSafe_same_type (T : QualType) : isExplicitCastSafe T T = true :=
  isExplicitCastSafe_self T

theorem isExplicitCastSafe_comm (A B : QualType) :
    isExplicitCastSafe A B = isExplicitCastSafe B A := by
  induction A generalizing B with
  | other qa Ta =>
    cases B with
    | other qb Tb =>
      by_cases he : QualType.other qb Tb = QualType.other qa Ta
      · rw [he]
      · have he2 : ¬ QualType.other qa Ta = QualType.other qb Tb := fun e => he e.symm
        simp only [isExplicitCastSafe, he, he2, if_false]
        rw [Bool.and_comm Ta.isScalarType, Bool.xor_comm Ta.isCharType,
          Bool.xor_comm Ta.isIntegerType, Bool.xor_comm Ta.isFloatingType]
        by_cases hT : Ta = Tb
        · subst hT; rfl
        · have hT2 : ¬ Tb = Ta := fun e => hT e.symm
          simp [hT, hT2]
    | pointer qb pb => simp [isExplicitCastSafe]
  | pointer qa pa ih =>
    cases B with
    | other qb Tb => simp [isExplicitCastSafe]
    | pointer qb pb =>
      by_cases he : QualType.pointer qb pb = QualType.pointer qa pa
      · rw [he]
      · have he2 : ¬ QualType.pointer qa pa = QualType.pointer qb pb := fun e => he e.symm
        rw [isExplicitCastSafe, isExplicitCastSafe.eq_def (QualType.pointer qb pb)]
        simp only [he, he2, if_false]
        exact ih pb

theorem isExplicitCastSafeFuel_eq (A B : QualType) (fuel : Nat) (h : A.depth < fuel) :
    isExplicitCastSafeFuel fuel A B = some (isExplicitCastSafe A B) := by
  induction A generalizing B fuel with
  | other qa Ta =>
    cases fuel with
    | zero => simp at h
    | succ n =>
      cases B with
      | other qb Tb =>
        simp only [isExplicitCastSafeFuel, isExplicitCastSafe]
        split
        · rfl
        · split <;> rfl
      | pointer qb pb => simp [isExplicitCastSafeFuel, isExplicitCastSafe]
  | pointer qa pa ih =>
    cases fuel with
    | zero => simp at h
    | succ n =>
      cases B with
      | other qb Tb => simp [isExplicitCastSafeFuel, isExplicitCastSafe]
      | pointer qb pb =>
        rw [isExplicitCastSafeFuel, isExplicitCastSafe]
        split
        · rfl
        · exact ih pb n (by simpa [QualType.depth] using h)

/-- C28: `isExplicitCastSafe` gives the same result with its two arguments
exchanged, and every call returns within as many nested calls as the first type
has pointer levels, plus one. -/
theorem isExplicitCastSafe_symmetric (A B : QualType) :
    isExplicitCastSafe A B = isExplicitCastSafe B A ∧
    isExplicitCastSafeFuel (A.depth + 1) A B = some (isExplicitCastSafe A B) :=
  ⟨isExplicitCastSafe_comm A B, isExplicitCastSafeFuel_eq A B (A.depth + 1) (Nat.lt_succ_self _)⟩

/-! ## Properties of `applySubtypingRelation` -/

theorem forall₂_env_refl (env : ConstraintKey → ConstAtom) (l : CVars) :
    List.Forall₂ (fun a b => env a = env b) l l := by
  induction l with
  | nil => exact List.Forall₂.nil
  | cons a t ih => exact List.Forall₂.cons rfl ih

/-- When the source chain is the shorter one, the two assignments through the
references leave both local sets equal to the chain of the destination, and
nothing is added. -/
theorem applySubtypingRelation_src_shorter (env : ConstraintKey → ConstAtom)
    (src dst : PVConstraint) (h : src.vars.length < dst.vars.length) :
    applySubtypingRelation env src dst = ([], false) := by
  unfold applySubtypingRelation
  split
  · have hne : src.vars.length ≠ dst.vars.length := Nat.ne_of_lt h
    simp only [hne, ne_eq, not_false_eq_true, if_true, h, eraseWhileLonger_self]
    cases hd : dst.vars with
    | nil => rfl
    | cons d0 dt =>
      simp [equalizeInner_of_equal env dt dt (forall₂_env_refl env dt), ConstAtom.lt]
  · rfl

/-- C22, evaluated where it fails: the source chain has the slots 1, 2 and the
destination chain the slots 3, 4, 5; slot 2 is solved to Arr and slot 5 to Ptr.
With the outermost excess level 3 of the destination dropped, the pair (2, 5)
is an aligned pair below the outermost level with different values, yet the
method adds nothing.  With the two chains exchanged the excess level is
dropped and the equality of slot 5 with Arr is added. -/
theorem applySubtypingRelation_longer_destination_not_aligned :
    applySubtypingRelation exArrAtTwo (exRetChain [1, 2]) (exRetChain [3, 4, 5]) = ([], false) ∧
    exArrAtTwo 2 = ConstAtom.Arr ∧ exArrAtTwo 5 = ConstAtom.Ptr ∧
    applySubtypingRelation exArrAtTwo (exRetChain [3, 4, 5]) (exRetChain [1, 2]) =
      ([createEq (Atom.var 5) (Atom.const ConstAtom.Arr) defaultReason], true) := by
  refine ⟨rfl, rfl, rfl, rfl⟩

theorem equalizeInner_raises (env : ConstraintKey → ConstAtom) (s d : CVars) :
    ∀ c ∈ (equalizeInner env s d).1,
      ∃ v k, c = createEq (Atom.var v) (Atom.const k) defaultReason ∧ (env v).lt k = true := by
  induction s generalizing d with
  | nil => intro c hc; simp [equalizeInner] at hc
  | cons a s ih =>
    cases d with
    | nil => intro c hc; simp [equalizeInner] at hc
    | cons b d =>
      intro c hc
      simp only [equalizeInner] at hc
      split at hc
      · rename_i hdiff
        simp only [List.mem_cons] at hc
        rcases hc with rfl | hc
        · cases hlt : (env a).lt (env b) with
          | true => exact ⟨a, env b, by simp, hlt⟩
          | false =>
            have : (env b).lt (env a) = true := by simpa [hlt] using hdiff
            exact ⟨b, env a, by simp, this⟩
        · exact ih d c hc
      · exact ih d c hc

theorem applySubtypingRelation_mem (env : ConstraintKey → ConstAtom) (src dst : PVConstraint) :
    ∀ c ∈ (applySubtypingRelation env src dst).1,
      ∃ v k, c = createEq (Atom.var v) (Atom.const k) defaultReason ∧ (env v).lt k = true := by
  intro c hc
  unfold applySubtypingRelation at hc
  split at hc
  · dsimp only at hc
    split at hc
    · rename_i s0 srcTail d0 dstTail _ _
      simp only [List.mem_append] at hc
      rcases hc with hc | hc
      · split at hc
        · rename_i hlt
          simp only [List.mem_singleton] at hc
          exact ⟨d0, env s0, hc, hlt⟩
        · simp at hc
      · split at hc
        · exact equalizeInner_raises env _ _ c hc
        · simp at hc
    · simp at hc
  · simp at hc

/-- C23: every constraint `applySubtypingRelation` adds is an `Eq` of a slot with
a constant that is strictly above the solved value of that slot; the result is
true exactly when a constraint was added; with an empty chain, or with two
chains of equal length and the same solved value level by level, nothing is
added and the result is false. -/
theorem applySubtypingRelation_only_raises (env : ConstraintKey → ConstAtom)
    (src dst : PVConstraint) :
    (∀ c ∈ (applySubtypingRelation env src dst).1,
      ∃ v k, c = createEq (Atom.var v) (Atom.const k) defaultReason ∧ (env v).lt k = true) ∧
    ((applySubtypingRelation env src dst).2 = true ↔ (applySubtypingRelation env src dst).1 ≠ []) ∧
    (src.vars = [] ∨ dst.vars = [] → applySubtypingRelation env src dst = ([], false)) ∧
    (List.Forall₂ (fun a b => env a = env b) src.vars dst.vars →
      applySubtypingRelation env src dst = ([], false)) := by
  refine ⟨applySubtypingRelation_mem env src dst, applySubtypingRelation_flagged env src dst, ?_, ?_⟩
  · intro h
    rcases h with h | h <;> simp [applySubtypingRelation, h]
  · intro hall
    cases hs : src.vars with
    | nil => simp [applySubtypingRelation, hs]
    | cons s0 st =>
      cases hd : dst.vars with
      | nil => simp [applySubtypingRelation, hd]
      | cons d0 dt =>
        rw [hs, hd] at hall
        cases hall with
        | cons hhead htail =>
          rw [applySubtypingRelation_same_length env src dst s0 d0 st dt hs hd htail.length_eq,
            equalizeInner_of_equal env st dt htail, hhead]
          simp [ConstAtom.lt]

/-- The constraint added for two chains of one slot, the destination being the
safer one, and the chain compared with itself. -/
theorem applySubtypingRelation_only_raises_witness :
    (createEq (Atom.var 1) (Atom.const ConstAtom.Arr) defaultReason
        ∈ (applySubtypingRelation exArrAtTwo (exRetChain [2]) (exRetChain [1])).1 ∧
      ∃ v k, createEq (Atom.var 1) (Atom.const ConstAtom.Arr) defaultReason =
          createEq (Atom.var v) (Atom.const k) defaultReason ∧ (exArrAtTwo v).lt k = true) ∧
    applySubtypingRelation exArrAtTwo (exRetChain [2]) (exRetChain [2]) = ([], false) :=
  have hmem : createEq (Atom.var 1) (Atom.const ConstAtom.Arr) defaultReason
      ∈ (applySubtypingRelation exArrAtTwo (exRetChain [2]) (exRetChain [1])).1 := by decide
  ⟨⟨hmem, (applySubtypingRelation_only_raises exArrAtTwo (exRetChain [2]) (exRetChain [1])).1 _ hmem⟩,
   (applySubtypingRelation_only_raises exArrAtTwo (exRetChain [2]) (exRetChain [2])).2.2.2
     (forall₂_env_refl exArrAtTwo [2])⟩

/-! ## The merging loop across names -/

/-- C24, evaluated where it fails: the set of `g` is the same in `exGAlone` and
in `exGapCarried`, where the set of `f` is visited before it and makes no call
of its own.  Alone, the declarations of `g` are chained; after `f`, the second
and the third declaration of `g` are each equated with themselves only. -/
theorem link_calls_depend_on_other_names :
    exGAlone.GlobalFunctionSymbols.lookup "g" = exGapCarried.GlobalFunctionSymbols.lookup "g" ∧
    link exGAlone =
      some [LinkAction.constrainEqSets (exFun "g" 3 false).returnVars (exFun "g" 4 false).returnVars,
            LinkAction.constrainEqSets (exFun "g" 4 false).returnVars (exFun "g" 5 false).returnVars] ∧
    link exGapCarried =
      some [LinkAction.constrainEqSets (exFun "g" 3 false).returnVars (exFun "g" 4 false).returnVars,
            LinkAction.constrainEqSets (exFun "g" 4 false).returnVars (exFun "g" 4 false).returnVars,
            LinkAction.constrainEqSets (exFun "g" 5 false).returnVars (exFun "g" 5 false).returnVars] ∧
    link exGAlone ≠ link exGapCarried := by
  have h1 : link exGAlone =
      some [LinkAction.constrainEqSets (exFun "g" 3 false).returnVars (exFun "g" 4 false).returnVars,
            LinkAction.constrainEqSets (exFun "g" 4 false).returnVars (exFun "g" 5 false).returnVars] := by
    simp [link, exGAlone, linkExternFunctions, linkExternEntry, linkVariables,
      linkGlobalVariables, linkGlobalFunctions, mergeAll, mergeSet, mergeLoop, mergePair, chainSet,
      exFun, constrainParams, FVConstraint.numParams]
  have h2 : link exGapCarried =
      some [LinkAction.constrainEqSets (exFun "g" 3 false).returnVars (exFun "g" 4 false).returnVars,
            LinkAction.constrainEqSets (exFun "g" 4 false).returnVars (exFun "g" 4 false).returnVars,
            LinkAction.constrainEqSets (exFun "g" 5 false).returnVars (exFun "g" 5 false).returnVars] := by
    simp [link, exGapCarried, linkExternFunctions, linkExternEntry, linkVariables,
      linkGlobalVariables, linkGlobalFunctions, mergeAll, mergeSet, mergeLoop, mergePair, chainSet,
      exFun, constrainParams, FVConstraint.numParams]
  refine ⟨rfl, h1, h2, ?_⟩
  rw [h1, h2]
  simp

/-! ## Properties of `seeFunctionDecl` -/

theorem externFlag_omSet (st : ProgramInfo) (fn n : String) (v : Bool) :
    (omFind (omSet stringLt st.ExternFunctions fn v) n).getD false =
      if fn = n then v else externFlag st n := by
  by_cases h : fn = n
  · subst h
    simp [omFind_omSet]
  · simp [omFind_omSet_ne _ _ _ _ _ h, h, externFlag]

/-- One call: the variable store is left as it is, and the flag of a name is set
when it was set before or the call is for a global definition with a body of
that name. -/
theorem seeFunctionDecl_some (st st1 : ProgramInfo) (F : FunctionDecl)
    (h : seeFunctionDecl st F = some st1) :
    st1.Variables = st.Variables ∧
    ∀ n, externFlag st1 n =
      (externFlag st n || (F.isGlobal && decide (F.name = n) && F.hasBodyDefinition)) := by
  unfold seeFunctionDecl at h
  split at h
  · rename_i hg
    simp only [Option.some.injEq] at h
    subst h
    refine ⟨rfl, fun n => ?_⟩
    simp only [Bool.not_eq_true'] at hg
    simp [hg]
  · rename_i hg
    simp only [Bool.not_eq_true', Bool.not_eq_false] at hg
    dsimp only at h
    split at h
    · simp at h
    · simp only [Option.some.injEq] at h
      subst h
      refine ⟨rfl, fun n => ?_⟩
      simp only [hg, Bool.true_and]
      cases hf : externFlag st F.name with
      | true =>
        simp only [Bool.not_true, Bool.false_eq_true, if_false]
        by_cases hn : F.name = n
        · subst hn
          have hf2 : (omFind st.ExternFunctions F.name).getD false = true := hf
          simp [externFlag, hf2]
        · simp [hn, externFlag]
      | false =>
        simp only [Bool.not_false, if_true]
        show (omFind (omSet stringLt st.ExternFunctions F.name F.hasBodyDefinition) n).getD false = _
        rw [externFlag_omSet]
        by_cases hn : F.name = n
        · subst hn; simp [hf]
        · simp [hn]

/-- When a call returns: the function is not global, or the variable store has a
Function variable at its location. -/
theorem seeFunctionDecl_isSome (st : ProgramInfo) (F : FunctionDecl) :
    (seeFunctionDecl st F).isSome =
      (!F.isGlobal || !(functionVariables ((omFind st.Variables F.psl).getD [])).isEmpty) := by
  unfold seeFunctionDecl
  cases hg : F.isGlobal with
  | false => simp
  | true =>
    simp only [Bool.not_true, Bool.false_eq_true, if_false, Bool.false_or]
    cases he : (functionVariables ((omFind st.Variables F.psl).getD [])).isEmpty <;> simp

theorem seeFunctionDecls_some (calls : List FunctionDecl) :
    ∀ (st st1 : ProgramInfo), seeFunctionDecls st calls = some st1 →
      st1.Variables = st.Variables ∧
      (∀ F ∈ calls, (!F.isGlobal ||
        !(functionVariables ((omFind st.Variables F.psl).getD [])).isEmpty) = true) ∧
      ∀ n, externFlag st1 n = true ↔
        (externFlag st n = true ∨
          ∃ F ∈ calls, F.isGlobal = true ∧ F.name = n ∧ F.hasBodyDefinition = true) := by
  induction calls with
  | nil =>
    intro st st1 h
    simp only [seeFunctionDecls, Option.some.injEq] at h
    subst h
    simp
  | cons F rest ih =>
    intro st st1 h
    simp only [seeFunctionDecls] at h
    cases h0 : seeFunctionDecl st F with
    | none => simp [h0] at h
    | some st0 =>
      rw [h0] at h
      obtain ⟨hv0, hf0⟩ := seeFunctionDecl_some st st0 F h0
      obtain ⟨hv, hok, hf⟩ := ih st0 st1 h
      have hs := seeFunctionDecl_isSome st F
      rw [h0] at hs
      refine ⟨hv.trans hv0, ?_, fun n => ?_⟩
      · intro G hG
        simp only [List.mem_cons] at hG
        rcases hG with rfl | hG
        · exact hs.symm
        · rw [← hv0]; exact hok G hG
      · rw [hf n, hf0 n]
        simp only [Bool.or_eq_true, Bool.and_eq_true, decide_eq_true_eq, List.mem_cons,
          exists_eq_or_imp]
        tauto

theorem seeFunctionDecls_isSome (calls : List FunctionDecl) :
    ∀ (st : ProgramInfo),
      (∀ F ∈ calls, (!F.isGlobal ||
        !(functionVariables ((omFind st.Variables F.psl).getD [])).isEmpty) = true) →
      ∃ st1, seeFunctionDecls st calls = some st1 := by
  induction calls with
  | nil => intro st _; exact ⟨st, rfl⟩
  | cons F rest ih =>
    intro st hok
    have hs := seeFunctionDecl_isSome st F
    rw [hok F (List.mem_cons_self _ _)] at hs
    obtain ⟨st0, h0⟩ := Option.isSome_iff_exists.mp hs
    obtain ⟨hv0, _⟩ := seeFunctionDecl_some st st0 F h0
    obtain ⟨st1, h1⟩ := ih st0 (by
      intro G hG
      rw [hv0]
      exact hok G (List.mem_cons_of_mem _ hG))
    exact ⟨st1, by simp [seeFunctionDecls, h0, h1]⟩

/-- C25 as stated fails: `malloc` is declared and never defined, so its flag is
false, and the last loop of `link` passes it over and constrains nothing of it,
while it constrains the return of `ext`, which has the same flag. -/
theorem link_allow_listed_not_unresolved :
    externFlag exExterns "malloc" = false ∧ externFlag exExterns "ext" = false ∧
    linkExternEntry exExterns.GlobalFunctionSymbols ("malloc", false) = some [] ∧
    linkExternEntry exExterns.GlobalFunctionSymbols ("ext", false) ≠ some [] := by
  refine ⟨rfl, rfl, by simp [linkExternEntry, isExternOkay], ?_⟩
  simp [linkExternEntry, isExternOkay, exExterns, List.lookup, wildFunction, exUnresolved]

/-- C25, amended: after a sequence of calls of `seeFunctionDecl` that starts
with the flag of a name clear, the flag is set exactly when one of the calls was
for a global definition with a body of that name; the same calls in any other
order return too and leave the same flags; and the last loop of `link`
constrains the declarations of the name exactly when the flag is clear and the
name is not on the allow-list. -/
theorem seeFunctionDecls_flag (st st1 : ProgramInfo) (calls : List FunctionDecl) (name : String)
    (hrun : seeFunctionDecls st calls = some st1) (h0 : externFlag st name = false) :
    (externFlag st1 name = true ↔
      ∃ F ∈ calls, F.isGlobal = true ∧ F.name = name ∧ F.hasBodyDefinition = true) ∧
    (∀ calls2, calls.Perm calls2 →
      ∃ st2, seeFunctionDecls st calls2 = some st2 ∧ ∀ n, externFlag st2 n = externFlag st1 n) ∧
    (∀ gfs Gs, gfs.lookup name = some Gs →
      linkExternEntry gfs (name, externFlag st1 name) =
        some (if externFlag st1 name = false ∧ isExternOkay name = false
              then Gs.flatMap (wildFunction name) else [])) := by
  obtain ⟨_, hok, hf⟩ := seeFunctionDecls_some calls st st1 hrun
  refine ⟨?_, ?_, ?_⟩
  · rw [hf name, h0]
    simp
  · intro calls2 hperm
    obtain ⟨st2, h2⟩ := seeFunctionDecls_isSome calls2 st
      (fun F hF => hok F (hperm.mem_iff.mpr hF))
    obtain ⟨_, _, hf2⟩ := seeFunctionDecls_some calls2 st st2 h2
    refine ⟨st2, h2, fun n => ?_⟩
    have : externFlag st2 n = true ↔ externFlag st1 n = true := by
      rw [hf n, hf2 n]
      constructor
      · rintro (h | ⟨F, hF, h⟩)
        · exact Or.inl h
        · exact Or.inr ⟨F, hperm.mem_iff.mpr hF, h⟩
      · rintro (h | ⟨F, hF, h⟩)
        · exact Or.inl h
        · exact Or.inr ⟨F, hperm.mem_iff.mp hF, h⟩
    cases h1 : externFlag st2 n <;> cases h3 : externFlag st1 n <;> simp_all
  · intro gfs Gs hGs
    unfold linkExternEntry
    cases hfl : externFlag st1 name <;> cases hok2 : isExternOkay name <;> simp [hGs]

/-- The declaration of `f` is seen, then its definition. -/
theorem seeFunctionDecls_flag_witness :
    ∃ st1, seeFunctionDecls exBeforeSeen [exSeenDecl "f.h" false, exSeenDecl "f.c" true] = some st1 ∧
      externFlag exBeforeSeen "f" = false ∧
      (externFlag st1 "f" = true ↔
        ∃ F ∈ [exSeenDecl "f.h" false, exSeenDecl "f.c" true],
          F.isGlobal = true ∧ F.name = "f" ∧ F.hasBodyDefinition = true) :=
  have hrun : seeFunctionDecls exBeforeSeen [exSeenDecl "f.h" false, exSeenDecl "f.c" true] =
      some { exBeforeSeen with
             ExternFunctions := [("f", true)],
             GlobalFunctionSymbols := [("f", [exFun "f" 1 false, exFun "f" 2 true])] } := by
    simp [seeFunctionDecls, seeFunctionDecl, exBeforeSeen, exSeenDecl, externFlag, omFind, omSet,
      exLoc, functionVariables, ptrInsertAll, ptrInsert, exFun, stringLt]
  ⟨_, hrun, rfl, (seeFunctionDecls_flag exBeforeSeen _ _ "f" hrun rfl).1⟩

/-! ## Dereference and array subscript -/

theorem dropOutermost_of_two (PVC : PVConstraint) (m k : ConstraintKey) (rest : CVars)
    (h : PVC.vars = m :: k :: rest) :
    dropOutermost PVC = some { PVC with vars := k :: rest } := by
  simp [dropOutermost, h]

theorem dropOutermost_of_short (PVC : PVConstraint) (h : PVC.vars.length ≤ 1) :
    dropOutermost PVC = none := by
  unfold dropOutermost
  cases hv : PVC.vars with
  | nil => rfl
  | cons a t =>
    cases t with
    | nil => rfl
    | cons b t2 => simp [hv] at h

/-- C30: when the operand resolves to one Pointer variable whose slots are listed
in ascending order, a dereference and an array subscript both yield, for two
slots or more, the one Pointer variable that keeps every field but has lost the
first slot, which is the smallest key; for one slot or none they yield the empty
set. -/
theorem getVariableHelper_drops_outermost (env : AstEnv) (st st1 : StoreState) (Sub Idx : Expr)
    (ifc : Bool) (PVC : PVConstraint)
    (hSub : getVariableHelper env st Sub ifc = some ([ConstraintVariable.PV PVC], st1))
    (hsorted : PVC.vars.Pairwise (fun a b => a < b)) :
    (2 ≤ PVC.vars.length →
      ∃ m rest, PVC.vars = m :: rest ∧ rest.length + 1 = PVC.vars.length ∧
        (∀ k ∈ PVC.vars, m ≤ k) ∧ (∀ k, k ∈ rest ↔ k ∈ PVC.vars ∧ k ≠ m) ∧
        getVariableHelper env st (Expr.Unary UnaryOpcode.Deref Sub) ifc =
          some ([ConstraintVariable.PV
            { vars := rest, baseType := PVC.baseType, name := PVC.name, fv := PVC.fv,
              arrPresent := PVC.arrPresent, itypePresent := PVC.itypePresent,
              itype := PVC.itype }], st1) ∧
        getVariableHelper env st (Expr.ArraySubscript Sub Idx) ifc =
          some ([ConstraintVariable.PV
            { vars := rest, baseType := PVC.baseType, name := PVC.name, fv := PVC.fv,
              arrPresent := PVC.arrPresent, itypePresent := PVC.itypePresent,
              itype := PVC.itype }], st1)) ∧
    (PVC.vars.length ≤ 1 →
      getVariableHelper env st (Expr.Unary UnaryOpcode.Deref Sub) ifc = some ([], st1) ∧
      getVariableHelper env st (Expr.ArraySubscript Sub Idx) ifc = some ([], st1)) := by
  constructor
  · intro hlen
    cases hv : PVC.vars with
    | nil => simp [hv] at hlen
    | cons m rest =>
      cases hr : rest with
      | nil => simp [hv, hr] at hlen
      | cons k rest2 =>
        subst hr
        have hd := dropOutermost_of_two PVC m k rest2 hv
        rw [hv] at hsorted
        have hmin : ∀ j ∈ k :: rest2, m < j := (List.pairwise_cons.mp hsorted).1
        refine ⟨m, k :: rest2, rfl, by simp, ?_, ?_, ?_, ?_⟩
        · intro j hj
          rcases List.mem_cons.mp hj with rfl | hj
          · exact Nat.le_refl _
          · exact Nat.le_of_lt (hmin j hj)
        · intro j
          constructor
          · intro hj
            exact ⟨List.mem_cons_of_mem _ hj, Nat.ne_of_gt (hmin j hj)⟩
          · rintro ⟨hj, hne⟩
            rcases List.mem_cons.mp hj with rfl | hj
            · exact absurd rfl hne
            · exact hj
        · simp [getVariableHelper, hSub, derefSet, hd]
        · simp [getVariableHelper, hSub, subscriptSet, hd]
  · intro hlen
    have hd := dropOutermost_of_short PVC hlen
    constructor
    · simp [getVariableHelper, hSub, derefSet, hd]
    · simp [getVariableHelper, hSub, subscriptSet, hd]

/-- The expressions `*p` and `p[i]` for a variable `int **p` with the slots 4 and 7. -/
theorem getVariableHelper_drops_outermost_witness :
    getVariableHelper exAstEnv exPtrPtrStore (Expr.DeclRef exPtrPtrVar) false =
      some ([ConstraintVariable.PV (exRetChain [4, 7])], exPtrPtrStore) ∧
    getVariableHelper exAstEnv exPtrPtrStore (Expr.Unary UnaryOpcode.Deref (Expr.DeclRef exPtrPtrVar))
      false = some ([ConstraintVariable.PV (exRetChain [7])], exPtrPtrStore) ∧
    getVariableHelper exAstEnv exPtrPtrStore
      (Expr.ArraySubscript (Expr.DeclRef exPtrPtrVar) Expr.OtherExpr) false =
        some ([ConstraintVariable.PV (exRetChain [7])], exPtrPtrStore) :=
  have hSub : getVariableHelper exAstEnv exPtrPtrStore (Expr.DeclRef exPtrPtrVar) false =
      some ([ConstraintVariable.PV (exRetChain [4, 7])], exPtrPtrStore) := by
    simp [getVariableHelper, getVariable, getVariableOnDemand, exPtrPtrStore, exPtrPtrVar,
      Decl.psl, omFind]
  have h := (getVariableHelper_drops_outermost exAstEnv exPtrPtrStore exPtrPtrStore
    (Expr.DeclRef exPtrPtrVar) Expr.OtherExpr false (exRetChain [4, 7]) hSub
    (by simp [exRetChain])).1 (by simp [exRetChain])
  ⟨hSub, by
    obtain ⟨m, rest, hv, _, _, _, h1, _⟩ := h
    simp only [exRetChain, List.cons.injEq] at hv
    obtain ⟨_, rfl⟩ := hv
    exact h1, by
    obtain ⟨m, rest, hv, _, _, _, _, h2⟩ := h
    simp only [exRetChain, List.cons.injEq] at hv
    obtain ⟨_, rfl⟩ := hv
    exact h2⟩

/-! ## The leader adjustment keeps the grouping -/

theorem adjustLeader_same_leader (ds : DisjointSet) (r : ConstraintKey) (hs : ds.SelfLed)
    (x y : ConstraintKey) :
    (KMap.find (adjustLeader ds r).leaders x = KMap.find (adjustLeader ds r).leaders y ↔
      KMap.find ds.leaders x = KMap.find ds.leaders y) := by
  cases h : KMap.find ds.leaders r with
  | none => rw [adjustLeader_of_none ds r h]
  | some old =>
    cases hreal : ds.isRealWild old with
    | true => rw [adjustLeader_of_real ds r old h hreal]
    | false =>
      rw [adjustLeader_leaders ds r old h hreal, find_relabel, find_relabel]
      cases hx : KMap.find ds.leaders x with
      | none =>
        cases hy : KMap.find ds.leaders y <;> simp
      | some l1 =>
        cases hy : KMap.find ds.leaders y with
        | none => simp
        | some l2 =>
          simp only [Option.map_some', Option.some.injEq]
          constructor
          · intro hf
            by_cases h1 : l1 = old
            · by_cases h2 : l2 = old
              · rw [h1, h2]
              · simp only [h1, h2, if_true, if_false] at hf
                have := hs y l2 hy
                rw [← hf, h] at this
                simp only [Option.some.injEq] at this
                rw [h1, ← hf, this]
            · by_cases h2 : l2 = old
              · simp only [h1, h2, if_true, if_false] at hf
                have := hs x l1 hx
                rw [hf, h] at this
                simp only [Option.some.injEq] at this
                rw [h2, hf, this]
              · simpa [h1, h2] using hf
          · intro hl
            rw [hl]

theorem adjustLeader_selfLed (ds : DisjointSet) (r : ConstraintKey) (hs : ds.SelfLed) :
    (adjustLeader ds r).SelfLed := by
  cases h : KMap.find ds.leaders r with
  | none => rw [adjustLeader_of_none ds r h]; exact hs
  | some old =>
    cases hreal : ds.isRealWild old with
    | true => rw [adjustLeader_of_real ds r old h hreal]; exact hs
    | false =>
      intro x l hx
      rw [adjustLeader_leaders ds r old h hreal, find_relabel] at hx ⊢
      cases hx0 : KMap.find ds.leaders x with
      | none => simp [hx0] at hx
      | some l0 =>
        simp only [hx0, Option.map_some', Option.some.injEq] at hx
        by_cases h0 : l0 = old
        · simp only [h0, if_true] at hx
          subst hx
          simp [h]
        · simp only [h0, if_false] at hx
          subst hx
          simp [hs x l0 hx0, h0]

theorem adjustLeader_domain (ds : DisjointSet) (r x : ConstraintKey) :
    (KMap.find (adjustLeader ds r).leaders x).isSome = (KMap.find ds.leaders x).isSome := by
  cases h : KMap.find ds.leaders r with
  | none => rw [adjustLeader_of_none ds r h]
  | some old =>
    cases hreal : ds.isRealWild old with
    | true => rw [adjustLeader_of_real ds r old h hreal]
    | false =>
      rw [adjustLeader_leaders ds r old h hreal, find_relabel]
      cases KMap.find ds.leaders x <;> simp

theorem foldl_adjustLeader_grouping (keys : List ConstraintKey) (ds : DisjointSet)
    (hkeys : ∀ k ∈ keys, ds.isRealWild k = true) (hc : ds.Consistent) (hs : ds.SelfLed) :
    (keys.foldl adjustLeader ds).Consistent ∧ (keys.foldl adjustLeader ds).SelfLed ∧
    (∀ x, (KMap.find (keys.foldl adjustLeader ds).leaders x).isSome =
      (KMap.find ds.leaders x).isSome) ∧
    (∀ x y, KMap.find (keys.foldl adjustLeader ds).leaders x =
        KMap.find (keys.foldl adjustLeader ds).leaders y ↔
      KMap.find ds.leaders x = KMap.find ds.leaders y) := by
  induction keys generalizing ds with
  | nil => exact ⟨hc, hs, fun _ => rfl, fun _ _ => Iff.rfl⟩
  | cons k rest ih =>
    have hk := hkeys k (List.mem_cons_self _ _)
    have h3 : ∀ k2 ∈ rest, (adjustLeader ds k).isRealWild k2 = true := by
      intro k2 hk2
      rw [isRealWild_adjustLeader]
      exact hkeys k2 (List.mem_cons_of_mem _ hk2)
    obtain ⟨i1, i2, i3, i4⟩ := ih (adjustLeader ds k) h3 (adjustLeader_consistent ds k hk hc)
      (adjustLeader_selfLed ds k hs)
    refine ⟨i1, i2, fun x => ?_, fun x y => ?_⟩
    · rw [List.foldl_cons, i3 x, adjustLeader_domain]
    · rw [List.foldl_cons]
      exact (i4 x y).trans (adjustLeader_same_leader ds k hs x y)

theorem mem_group_iff (ds : DisjointSet) (hc : ds.Consistent) (l m : ConstraintKey) :
    m ∈ (KMap.find ds.groups l).getD [] ↔ KMap.find ds.leaders m = some l := by
  rw [hc m l]
  constructor
  · intro hm
    cases hg : KMap.find ds.groups l with
    | none => simp [hg] at hm
    | some g => exact ⟨g, rfl, by simpa [hg] using hm⟩
  · rintro ⟨g, hg, hm⟩
    simpa [hg] using hm

/-- C29: for a union-find whose leaders and groups agree and whose leaders are
representatives, the leader-adjustment loop keeps the slots that have a leader,
two slots have the same leader after it exactly when they had the same leader
before, and the group of a slot has the same members after it as before. -/
theorem adjustLeaders_keeps_grouping (ds : DisjointSet) (hc : ds.Consistent) (hs : ds.SelfLed) :
    (∀ x, (KMap.find (adjustLeaders ds).leaders x).isSome = (KMap.find ds.leaders x).isSome) ∧
    (∀ x y, KMap.find (adjustLeaders ds).leaders x = KMap.find (adjustLeaders ds).leaders y ↔
      KMap.find ds.leaders x = KMap.find ds.leaders y) ∧
    (∀ x l l2, KMap.find ds.leaders x = some l → KMap.find (adjustLeaders ds).leaders x = some l2 →
      ∀ m, m ∈ (KMap.find (adjustLeaders ds).groups l2).getD [] ↔
        m ∈ (KMap.find ds.groups l).getD []) := by
  obtain ⟨i1, _, i3, i4⟩ := foldl_adjustLeader_grouping
    (ds.realWildPtrsWithReasons.map Prod.fst) ds (realWild_keys_real ds) hc hs
  refine ⟨i3, i4, ?_⟩
  intro x l l2 hx hx2 m
  have hafter := mem_group_iff (adjustLeaders ds) i1 l2 m
  rw [hafter, mem_group_iff ds hc l m, ← hx, ← hx2]
  exact i4 m x

theorem exUnionFind_selfLed : exUnionFind.SelfLed := by
  intro x l h
  simp only [exUnionFind, KMap.find] at h ⊢
  split at h
  · simp at h; subst h; simp
  · split at h
    · simp at h; subst h; simp
    · split at h
      · simp at h; subst h; simp
      · simp at h

/-- The loop on `exUnionFind`: slots 1 and 3 are in one group before and after,
and the group of slot 1 keeps its three members under its new key. -/
theorem adjustLeaders_keeps_grouping_witness :
    exUnionFind.Consistent ∧ exUnionFind.SelfLed ∧
    (KMap.find (adjustLeaders exUnionFind).leaders 1 = KMap.find (adjustLeaders exUnionFind).leaders 3 ↔
      KMap.find exUnionFind.leaders 1 = KMap.find exUnionFind.leaders 3) ∧
    (∀ m, m ∈ (KMap.find (adjustLeaders exUnionFind).groups 2).getD [] ↔
      m ∈ (KMap.find exUnionFind.groups 1).getD []) :=
  ⟨exUnionFind_consistent, exUnionFind_selfLed,
   (adjustLeaders_keeps_grouping exUnionFind exUnionFind_consistent exUnionFind_selfLed).2.1 1 3,
   (adjustLeaders_keeps_grouping exUnionFind exUnionFind_consistent exUnionFind_selfLed).2.2 1 1 2
     rfl rfl⟩

theorem exNoRepresentatives_consistent : exNoRepresentatives.Consistent := by
  intro x l
  simp only [exNoRepresentatives, KMap.find]
  by_cases hl2 : l = 2
  · subst hl2
    by_cases hx1 : x = 1
    · subst hx1; simp
    · by_cases hx2 : x = 2
      · subst hx2; simp
      · by_cases hx3 : x = 3
        · subst hx3; simp
        · have e1 : ¬ 1 = x := fun e => hx1 e.symm
          have e2 : ¬ 2 = x := fun e => hx2 e.symm
          have e3 : ¬ 3 = x := fun e => hx3 e.symm
          simp [e1, e2, e3, hx1]
  · by_cases hl3 : l = 3
    · subst hl3
      by_cases hx1 : x = 1
      · subst hx1; simp
      · by_cases hx2 : x = 2
        · subst hx2; simp
        · by_cases hx3 : x = 3
          · subst hx3; simp
          · have e1 : ¬ 1 = x := fun e => hx1 e.symm
            have e2 : ¬ 2 = x := fun e => hx2 e.symm
            have e3 : ¬ 3 = x := fun e => hx3 e.symm
            simp [e1, e2, e3, hx2, hx3]
    · have f2 : ¬ 2 = l := fun e => hl2 e.symm
      have f3 : ¬ 3 = l := fun e => hl3 e.symm
      simp only [f2, f3, if_false]
      by_cases hx1 : x = 1
      · subst hx1; simp [f2]
      · by_cases hx2 : x = 2
        · subst hx2; simp [f3]
        · by_cases hx3 : x = 3
          · subst hx3; simp [f3]
          · have e1 : ¬ 1 = x := fun e => hx1 e.symm
            have e2 : ¬ 2 = x := fun e => hx2 e.symm
            have e3 : ¬ 3 = x := fun e => hx3 e.symm
            simp [e1, e2, e3]

/-- Without representatives the loop can merge two groups: in
`exNoRepresentatives` leaders and groups agree, slots 1 and 3 have different
leaders before the loop and the same leader after it. -/
theorem adjustLeaders_merges_without_representatives :
    exNoRepresentatives.Consistent ∧
    KMap.find exNoRepresentatives.leaders 1 ≠ KMap.find exNoRepresentatives.leaders 3 ∧
    KMap.find (adjustLeaders exNoRepresentatives).leaders 1 =
      KMap.find (adjustLeaders exNoRepresentatives).leaders 3 :=
  ⟨exNoRepresentatives_consistent, by decide, rfl⟩

/-! ## The solver reaches a fixpoint -/

theorem ConstAtom.rank_le_three (a : ConstAtom) : a.rank ≤ 3 := by
  cases a <;> simp [ConstAtom.rank]

theorem ConstAtom.rank_injective (a b : ConstAtom) (h : a.rank = b.rank) : a = b := by
  cases a <;> cases b <;> simp [ConstAtom.rank] at h <;> rfl

theorem ConstAtom.le_join (a b : ConstAtom) : a.rank ≤ (a.join b).rank := by
  unfold ConstAtom.join ConstAtom.lt
  split
  · rename_i h
    exact Nat.le_of_lt (by simpa using h)
  · exact Nat.le_refl _

theorem raiseAtom_mono (env : ConstraintKey → ConstAtom) (a : Atom) (v : ConstAtom)
    (j : ConstraintKey) : (env j).rank ≤ (raiseAtom env a v j).rank := by
  cases a with
  | const c => exact Nat.le_refl _
  | var k =>
    simp only [raiseAtom]
    split
    · rename_i h
      subst h
      exact ConstAtom.le_join _ _
    · exact Nat.le_refl _

theorem raiseAtom_frame (env : ConstraintKey → ConstAtom) (a : Atom) (v : ConstAtom)
    (j : ConstraintKey) (h : j ∉ a.keys) : raiseAtom env a v j = env j := by
  cases a with
  | const c => rfl
  | var k =>
    have hne : ¬ j = k := by simpa [Atom.keys] using h
    simp [raiseAtom, hne]

theorem propagate_mono (env : ConstraintKey → ConstAtom) (c : Constraint) (j : ConstraintKey) :
    (env j).rank ≤ (propagate env c j).rank := by
  unfold propagate
  cases c.kind with
  | Eq => exact Nat.le_trans (raiseAtom_mono env c.lhs _ j) (raiseAtom_mono _ c.rhs _ j)
  | Geq => exact raiseAtom_mono env c.lhs _ j

theorem propagate_frame (env : ConstraintKey → ConstAtom) (c : Constraint) (j : ConstraintKey)
    (h : j ∉ c.lhs.keys ++ c.rhs.keys) : propagate env c j = env j := by
  simp only [List.mem_append, not_or] at h
  unfold propagate
  cases c.kind with
  | Eq =>
    dsimp only
    rw [raiseAtom_frame _ c.rhs _ j h.2, raiseAtom_frame _ c.lhs _ j h.1]
  | Geq => exact raiseAtom_frame _ c.lhs _ j h.1

theorem foldl_propagate_mono (cs : List Constraint) (env : ConstraintKey → ConstAtom)
    (j : ConstraintKey) : (env j).rank ≤ (cs.foldl propagate env j).rank := by
  induction cs generalizing env with
  | nil => exact Nat.le_refl _
  | cons c rest ih => exact Nat.le_trans (propagate_mono env c j) (ih (propagate env c))

theorem foldl_propagate_frame (cs : List Constraint) (env : ConstraintKey → ConstAtom)
    (j : ConstraintKey) (h : ∀ c ∈ cs, j ∉ c.lhs.keys ++ c.rhs.keys) :
    cs.foldl propagate env j = env j := by
  induction cs generalizing env with
  | nil => rfl
  | cons c rest ih =>
    rw [List.foldl_cons, ih (propagate env c) (fun d hd => h d (List.mem_cons_of_mem _ hd)),
      propagate_frame env c j (h c (List.mem_cons_self _ _))]

theorem solvePass_mono (cs : List Constraint) (env : ConstraintKey → ConstAtom)
    (j : ConstraintKey) : (env j).rank ≤ (solvePass cs env j).rank :=
  foldl_propagate_mono cs env j

theorem solvePass_frame (cs : List Constraint) (env : ConstraintKey → ConstAtom)
    (j : ConstraintKey) (h : j ∉ varAtoms cs) : solvePass cs env j = env j := by
  apply foldl_propagate_frame
  intro c hc hj
  apply h
  simp only [varAtoms, List.mem_dedup, List.mem_flatMap]
  exact ⟨c, hc, hj⟩

/-- The sum of the positions of the values of the Var-atoms in the qualifier order. -/
theorem potential_le (cs : List Constraint) (env : ConstraintKey → ConstAtom) :
    ((varAtoms cs).map (fun k => (env k).rank)).sum ≤ 3 * (varAtoms cs).length := by
  have := List.sum_le_card_nsmul ((varAtoms cs).map (fun k => (env k).rank)) 3 (by
    intro x hx
    simp only [List.mem_map] at hx
    obtain ⟨k, _, rfl⟩ := hx
    exact ConstAtom.rank_le_three _)
  simpa [Nat.mul_comm] using this

theorem passChanged_potential (cs : List Constraint) (env : ConstraintKey → ConstAtom)
    (h : passChanged cs env (solvePass cs env) = true) :
    ((varAtoms cs).map (fun k => (env k).rank)).sum <
      ((varAtoms cs).map (fun k => (solvePass cs env k).rank)).sum := by
  apply List.sum_lt_sum
  · intro k _
    exact solvePass_mono cs env k
  · simp only [passChanged, List.any_eq_true, decide_eq_true_eq] at h
    obtain ⟨k, hk, hne⟩ := h
    refine ⟨k, hk, Nat.lt_of_le_of_ne (solvePass_mono cs env k) ?_⟩
    intro e
    exact hne (ConstAtom.rank_injective _ _ e).symm

theorem passChanged_false (cs : List Constraint) (env : ConstraintKey → ConstAtom)
    (h : passChanged cs env (solvePass cs env) = false) : solvePass cs env = env := by
  funext k
  by_cases hk : k ∈ varAtoms cs
  · simp only [passChanged, List.any_eq_false, decide_eq_true_eq, not_not] at h
    exact h k hk
  · exact solvePass_frame cs env k hk

theorem solveLoop_returns (cs : List Constraint) (fuel : Nat) :
    ∀ env : ConstraintKey → ConstAtom,
      3 * (varAtoms cs).length - ((varAtoms cs).map (fun k => (env k).rank)).sum < fuel →
      ∃ env2 k, solveLoop cs fuel env = some (env2, k) ∧
        k ≤ 3 * (varAtoms cs).length - ((varAtoms cs).map (fun k => (env k).rank)).sum ∧
        env2 = (solvePass cs)^[k] env ∧ solvePass cs env2 = env2 := by
  induction fuel with
  | zero => intro env h; exact absurd h (Nat.not_lt_zero _)
  | succ fuel ih =>
    intro env h
    cases hch : passChanged cs env (solvePass cs env) with
    | false =>
      exact ⟨env, 0, by simp [solveLoop, hch], Nat.zero_le _, rfl, passChanged_false cs env hch⟩
    | true =>
      have hlt := passChanged_potential cs env hch
      have hle := potential_le cs (solvePass cs env)
      obtain ⟨env2, k, hrun, hk, hit, hfix⟩ := ih (solvePass cs env) (by omega)
      refine ⟨env2, k + 1, by simp [solveLoop, hch, hrun], by omega, ?_, hfix⟩
      rw [Function.iterate_succ_apply]
      exact hit

/-- C21: on the solver as the spec describes it, for a constraint set over `n`
Var-atoms the loop of `solve`, started from the initial assignment, stops at a
fixpoint of the pass that is reached after at most `4 * n` passes; a pass never
lowers the value of an atom, and a value it changes is strictly raised. -/
theorem solve_reaches_fixpoint (cs : List Constraint) :
    (∃ env k, solveLoop cs (4 * (varAtoms cs).length + 1) resetEnvironment = some (env, k) ∧
      k ≤ 4 * (varAtoms cs).length ∧ env = (solvePass cs)^[k] resetEnvironment ∧
      solvePass cs env = env) ∧
    (∀ env v, (env v).rank ≤ (solvePass cs env v).rank) ∧
    (∀ env v, solvePass cs env v ≠ env v → (env v).lt (solvePass cs env v) = true) := by
  refine ⟨?_, solvePass_mono cs, ?_⟩
  · obtain ⟨env2, k, hrun, hk, hit, hfix⟩ :=
      solveLoop_returns cs (4 * (varAtoms cs).length + 1) resetEnvironment (by omega)
    exact ⟨env2, k, hrun, by omega, hit, hfix⟩
  · intro env v hne
    simp only [ConstAtom.lt, decide_eq_true_eq]
    refine Nat.lt_of_le_of_ne (solvePass_mono cs env v) ?_
    intro e
    exact hne (ConstAtom.rank_injective _ _ e).symm

/-! ## The scan builds a union-find with representatives -/

theorem addElements_selfLed (ds : DisjointSet) (a b : ConstraintKey) (hs : ds.SelfLed) :
    (ds.addElements a b).SelfLed := by
  unfold DisjointSet.addElements
  cases ha : KMap.find ds.leaders a with
  | some la =>
    cases hb : KMap.find ds.leaders b with
    | some lb =>
      by_cases hl : la = lb
      · simpa [hl] using hs
      · simp only [hl, if_false]
        intro x l hx
        simp only [find_relabel] at hx ⊢
        cases hx0 : KMap.find ds.leaders x with
        | none => simp [hx0] at hx
        | some l0 =>
          simp only [hx0, Option.map_some', Option.some.injEq] at hx
          by_cases h0 : l0 = lb
          · simp only [h0, if_true] at hx
            subst hx
            simp [hs a la ha, hl]
          · simp only [h0, if_false] at hx
            subst hx
            simp [hs x l0 hx0, h0]
    | none =>
      intro x l hx
      simp only [KMap.find_set] at hx ⊢
      have hla := hs a la ha
      by_cases hxb : x = b
      · simp only [hxb, if_true, Option.some.injEq] at hx
        subst hx
        have hne : ¬ la = b := by
          intro e
          rw [e, hb] at hla
          simp at hla
        simp [hne, hla]
      · simp only [hxb, if_false] at hx
        have hl := hs x l hx
        have hne : ¬ l = b := by
          intro e
          rw [e, hb] at hl
          simp at hl
        simp [hne, hl]
  | none =>
    cases hb : KMap.find ds.leaders b with
    | some lb =>
      intro x l hx
      simp only [KMap.find_set] at hx ⊢
      have hlb := hs b lb hb
      by_cases hxa : x = a
      · simp only [hxa, if_true, Option.some.injEq] at hx
        subst hx
        have hne : ¬ lb = a := by
          intro e
          rw [e, ha] at hlb
          simp at hlb
        simp [hne, hlb]
      · simp only [hxa, if_false] at hx
        have hl := hs x l hx
        have hne : ¬ l = a := by
          intro e
          rw [e, ha] at hl
          simp at hl
        simp [hne, hl]
    | none =>
      intro x l hx
      simp only [KMap.find_set] at hx ⊢
      by_cases hxb : x = b
      · simp only [hxb, if_true, Option.some.injEq] at hx
        subst hx
        by_cases hab : a = b <;> simp [hab]
      · simp only [hxb, if_false] at hx
        by_cases hxa : x = a
        · simp only [hxa, if_true, Option.some.injEq] at hx
          subst hx
          by_cases hab : a = b <;> simp [hab]
        · simp only [hxa, if_false] at hx
          have hl := hs x l hx
          have hna : ¬ l = a := by
            intro e
            rw [e, ha] at hl
            simp at hl
          have hnb : ¬ l = b := by
            intro e
            rw [e, hb] at hl
            simp at hl
          simp [hna, hnb, hl]

theorem scanConstraint_selfLed (acc acc2 : DisjointSet × CVars) (c : Constraint)
    (hs : acc.1.SelfLed) (h : scanConstraint acc c = some acc2) : acc2.1.SelfLed := by
  unfold scanConstraint at h
  revert h
  repeat' split
  all_goals intro h
  all_goals first
    | (simp at h; done)
    | (simp only [Option.some.injEq] at h
       subst h
       first | exact hs | exact addElements_selfLed _ _ _ hs)

theorem scanConstraints_selfLed (cs : List Constraint) :
    ∀ (acc acc2 : DisjointSet × CVars), acc.1.SelfLed → scanConstraints acc cs = some acc2 →
      acc2.1.SelfLed := by
  induction cs with
  | nil =>
    intro acc acc2 hs h
    simp only [scanConstraints, Option.some.injEq] at h
    subst h
    exact hs
  | cons c rest ih =>
    intro acc acc2 hs h
    simp only [scanConstraints] at h
    cases h1 : scanConstraint acc c with
    | none => simp [h1] at h
    | some acc1 =>
      rw [h1] at h
      exact ih acc1 acc2 (scanConstraint_selfLed acc acc1 c hs h1) h

/-- The union-find that the scan of `computePointerDisjointSet` hands to the
leader adjustment: leaders and groups agree and the leaders are representatives. -/
theorem scanConstraints_unionFind (cs : List Constraint) (ds1 : DisjointSet) (allW : CVars)
    (h : scanConstraints (DisjointSet.clear, []) cs = some (ds1, allW)) :
    ds1.Consistent ∧ ds1.SelfLed :=
  ⟨(scanConstraints_inv cs cs _ _ (fun c hc => hc) (scanInv_clear cs) h).1.consistent,
   scanConstraints_selfLed cs _ _ (by intro x l hx; simp [DisjointSet.clear, KMap.find] at hx) h⟩

end CConv
